import Mathlib

/-!
# SharedPtr / WeakPtr (src/SharedPtr/shared_ptr.h)

A shallow embedding of the control-block hierarchy and of the two handle
classes.  Control blocks live in a `Memory`: a list of cells indexed by their
address, together with the log of the `UseDeleter` / `Clean` calls issued so
far.  A pointer is an `Option Nat` (`none` is `nullptr`).  Every member
function that dereferences `cb` is a function into `Except Fault`: calling
through a null `cb`, or through a `cb` whose storage is not allocated, has no
defined behaviour in C++ and is reported as a `Fault`.  Allocation itself
always succeeds and yields a fresh address; a deleter or destructor does not
touch any handle or control block.

The counters are `size_t`; they are modelled as `Nat` with explicit
arithmetic modulo `2 ^ 64`.

A conversion of a `U*` to `T*`, `T` being `U` or a base class of `U`, keeps the
address in the copy, move and assignment functions (the `T` subobject at the
start of the `U` object).  The raw-pointer constructor and the `reset`
overloads take the offset of the `T` subobject as an argument, because one of
them converts with `reinterpret_cast` where the others use `static_cast`.
-/

namespace SharedPtrModel

/-! ## Memory and control blocks -/

/-- Modulus of `size_t` arithmetic. -/
def SIZE_T_MOD : Nat := 2 ^ 64

/-- Pre-increment `++x` on a `size_t`. -/
def size_t_inc (x : Nat) : Nat := (x + 1) % SIZE_T_MOD

/-- Pre-decrement `--x` on a `size_t` (wraps from `0` to `2 ^ 64 - 1`). -/
def size_t_dec (x : Nat) : Nat := (x + SIZE_T_MOD - 1) % SIZE_T_MOD

/-- Reasons an operation has no defined result: the two kinds of undefined
behaviour the code can run into, and an ill-formed scenario. -/
inductive Fault
  /-- A member function was called through `cb == nullptr`. -/
  | NullDeref
  /-- A member function was called through a `cb` whose storage is not allocated. -/
  | Dangling
  /-- A scenario names a handle variable that does not exist (any more). -/
  | NoSuchHandle
deriving DecidableEq, Repr

/-- The two concrete control blocks. -/
inductive BlockKind
  | Regular
  | MakeShared
deriving DecidableEq, Repr

/-- Calls the instrumented model records. -/
inductive Event
  /-- `UseDeleter()` ran on the block at this address. -/
  | UseDeleter (cb : Nat)
  /-- `Clean()` ran on the block at this address. -/
  | Clean (cb : Nat)
  /-- The `catch` handler of `allocateShared` deallocated the block at this address. -/
  | Deallocate (cb : Nat)
deriving DecidableEq, Repr

/-- A control block: the two counters of `BaseControlBlock`, the dynamic type
(`kind`), the `object` member, and whether its storage is currently allocated. -/
structure BaseControlBlock where
  shared_count : Nat
  weak_count : Nat
  kind : BlockKind
  object : Option Nat
  allocated : Bool
deriving DecidableEq, Repr

/-- The heap of control blocks and the log of calls. -/
structure Memory where
  blocks : List BaseControlBlock
  trace : List Event
deriving DecidableEq, Repr

/-- The empty heap. -/
def Memory.empty : Memory := ⟨[], []⟩

/-- Overwrite the cell at address `a`. -/
def Memory.write (m : Memory) (a : Nat) (b : BaseControlBlock) : Memory :=
  { m with blocks := m.blocks.set a b }

/-- Append an event to the log. -/
def Memory.log (m : Memory) (e : Event) : Memory :=
  { m with trace := m.trace ++ [e] }

/-- Evaluate `cb->...`: the address and the contents of the block `cb` points to. -/
def Memory.deref (m : Memory) (cb : Option Nat) : Except Fault (Nat × BaseControlBlock) :=
  match cb with
  | none => .error .NullDeref
  | some a =>
    match m.blocks[a]? with
    | none => .error .Dangling
    | some b => if b.allocated then .ok (a, b) else .error .Dangling

/-- Models `AllocBlockTraits::allocate(newAlloc, 1)` followed by the construction of
the block `b`: the block is placed at a fresh address, which is returned. -/
def Memory.allocate (m : Memory) (b : BaseControlBlock) : Memory × Nat :=
  ({ m with blocks := m.blocks ++ [b] }, m.blocks.length)

/-- Models `UseDeleter()`: `deleter(object)` on a regular block,
`allocator_traits::destroy` of the embedded object on an inline block. -/
def UseDeleter (m : Memory) (a : Nat) : Memory :=
  m.log (.UseDeleter a)

/-- Models `Clean()`: deallocate the block's own storage through the rebound allocator. -/
def Clean (m : Memory) (a : Nat) (b : BaseControlBlock) : Memory :=
  (m.write a { b with allocated := false }).log (.Clean a)

/-- Embeds `ControlBlockRegular::Shared_TryToDeleteThisOne`, on the block `b` at address `a`. -/
def ControlBlockRegular.Shared_TryToDeleteThisOne (m : Memory) (a : Nat)
    (b : BaseControlBlock) : Memory :=
  let b1 := { b with shared_count := size_t_dec b.shared_count }
  let m1 := m.write a b1
  if b1.shared_count = 0 then
    let m2 := UseDeleter m1 a
    if b1.weak_count = 0 then Clean m2 a b1 else m2
  else m1

/-- Embeds `ControlBlockRegular::Weak_TryToDeleteThisOne`. -/
def ControlBlockRegular.Weak_TryToDeleteThisOne (m : Memory) (a : Nat)
    (b : BaseControlBlock) : Memory :=
  let b1 := { b with weak_count := size_t_dec b.weak_count }
  let m1 := m.write a b1
  if b1.weak_count = 0 ∧ b1.shared_count = 0 then Clean m1 a b1 else m1

/-- Embeds `ControlBlockRegular::IncreaseShared`. -/
def ControlBlockRegular.IncreaseShared (m : Memory) (a : Nat) (b : BaseControlBlock) : Memory :=
  m.write a { b with shared_count := size_t_inc b.shared_count }

/-- Embeds `ControlBlockRegular::IncreaseWeak`. -/
def ControlBlockRegular.IncreaseWeak (m : Memory) (a : Nat) (b : BaseControlBlock) : Memory :=
  m.write a { b with weak_count := size_t_inc b.weak_count }

/-- Embeds `ControlBlockMakeShared::Shared_TryToDeleteThisOne`. -/
def ControlBlockMakeShared.Shared_TryToDeleteThisOne (m : Memory) (a : Nat)
    (b : BaseControlBlock) : Memory :=
  let b1 := { b with shared_count := size_t_dec b.shared_count }
  let m1 := m.write a b1
  if b1.shared_count = 0 then
    let m2 := UseDeleter m1 a
    if b1.weak_count = 0 then Clean m2 a b1 else m2
  else m1

/-- Embeds `ControlBlockMakeShared::Weak_TryToDeleteThisOne`. -/
def ControlBlockMakeShared.Weak_TryToDeleteThisOne (m : Memory) (a : Nat)
    (b : BaseControlBlock) : Memory :=
  let b1 := { b with weak_count := size_t_dec b.weak_count }
  let m1 := m.write a b1
  if b1.weak_count = 0 ∧ b1.shared_count = 0 then Clean m1 a b1 else m1

/-- Embeds `ControlBlockMakeShared::IncreaseShared`. -/
def ControlBlockMakeShared.IncreaseShared (m : Memory) (a : Nat) (b : BaseControlBlock) : Memory :=
  m.write a { b with shared_count := size_t_inc b.shared_count }

/-- Embeds `ControlBlockMakeShared::IncreaseWeak`. -/
def ControlBlockMakeShared.IncreaseWeak (m : Memory) (a : Nat) (b : BaseControlBlock) : Memory :=
  m.write a { b with weak_count := size_t_inc b.weak_count }

/-- The virtual call `cb->IncreaseShared()`. -/
def IncreaseShared (m : Memory) (cb : Option Nat) : Except Fault Memory := do
  let (a, b) ← m.deref cb
  match b.kind with
  | .Regular => pure (ControlBlockRegular.IncreaseShared m a b)
  | .MakeShared => pure (ControlBlockMakeShared.IncreaseShared m a b)

/-- The virtual call `cb->IncreaseWeak()`. -/
def IncreaseWeak (m : Memory) (cb : Option Nat) : Except Fault Memory := do
  let (a, b) ← m.deref cb
  match b.kind with
  | .Regular => pure (ControlBlockRegular.IncreaseWeak m a b)
  | .MakeShared => pure (ControlBlockMakeShared.IncreaseWeak m a b)

/-- The virtual call `cb->Shared_TryToDeleteThisOne()`. -/
def Shared_TryToDeleteThisOne (m : Memory) (cb : Option Nat) : Except Fault Memory := do
  let (a, b) ← m.deref cb
  match b.kind with
  | .Regular => pure (ControlBlockRegular.Shared_TryToDeleteThisOne m a b)
  | .MakeShared => pure (ControlBlockMakeShared.Shared_TryToDeleteThisOne m a b)

/-- The virtual call `cb->Weak_TryToDeleteThisOne()`. -/
def Weak_TryToDeleteThisOne (m : Memory) (cb : Option Nat) : Except Fault Memory := do
  let (a, b) ← m.deref cb
  match b.kind with
  | .Regular => pure (ControlBlockRegular.Weak_TryToDeleteThisOne m a b)
  | .MakeShared => pure (ControlBlockMakeShared.Weak_TryToDeleteThisOne m a b)

/-- Reads `cb->GiveShared()`, also the direct read `cb->shared_count`. -/
def GiveShared (m : Memory) (cb : Option Nat) : Except Fault Nat := do
  let (_, b) ← m.deref cb
  pure b.shared_count

/-- Reads `cb->GiveWeak()`. -/
def GiveWeak (m : Memory) (cb : Option Nat) : Except Fault Nat := do
  let (_, b) ← m.deref cb
  pure b.weak_count

/-! ## SharedPtr -/

/-- The owning handle: the two data members of `SharedPtr<T>`. -/
structure SharedPtr where
  cb : Option Nat
  ptr : Option Nat
deriving DecidableEq, Repr

/-- The observing handle: the two data members of `WeakPtr<T>`. -/
structure WeakPtr where
  cb : Option Nat
  ptr : Option Nat
deriving DecidableEq, Repr

/-- The default constructor `SharedPtr(): cb(nullptr), ptr(nullptr)`. -/
def SharedPtr.default : SharedPtr := ⟨none, none⟩

/-- Member `SharedPtr::ProveDestroyed`: `ptr == nullptr && cb == nullptr`. -/
def SharedPtr.ProveDestroyed (this : SharedPtr) : Bool :=
  this.ptr == none && this.cb == none

/-- The private constructor `SharedPtr(BaseControlBlock* cb, T* ptr)`. -/
def SharedPtr.ofBlock (m : Memory) (cb ptr : Option Nat) :
    Except Fault (Memory × SharedPtr) := do
  let m1 ← IncreaseShared m cb
  pure (m1, ⟨cb, ptr⟩)

/-- Member `SharedPtr::CreationRegular`: allocate a `ControlBlockRegular` built by
`BaseControlBlock(1, 0), object(tmp)` and store its address in `cb`. -/
def SharedPtr.CreationRegular (m : Memory) (this : SharedPtr) (tmp : Option Nat) :
    Memory × SharedPtr :=
  let (m1, new_cb) := m.allocate ⟨1, 0, .Regular, tmp, true⟩
  (m1, { this with cb := some new_cb })

/-- The conversion `static_cast<T*>(tmp)` of a `U*`, `T` being `U` or a base class
of `U`: the address of the `T` subobject, `offset` bytes into the `U` object; a
null pointer stays null. -/
def static_cast (offset : Nat) (tmp : Option Nat) : Option Nat :=
  tmp.map (fun a => a + offset)

/-- The conversion `reinterpret_cast<T*>(tmp)` of a `U*`: the same address. -/
def reinterpret_cast (tmp : Option Nat) : Option Nat :=
  tmp

/-- The raw-pointer constructor `SharedPtr(T* tmp, Deleter)`:
`cb(nullptr), ptr(tmp)`, then `CreationRegular`. -/
def SharedPtr.ofRaw (m : Memory) (tmp : Option Nat) : Memory × SharedPtr :=
  SharedPtr.CreationRegular m ⟨none, tmp⟩ tmp

/-- The raw-pointer constructor `SharedPtr(U* tmp, Deleter, Alloc)`:
`cb(nullptr), ptr(static_cast<T*>(tmp))`, then `CreationRegular(tmp, ...)`; the
`T` subobject is `offset` bytes into the `U` object. -/
def SharedPtr.ofRawConv (m : Memory) (offset : Nat) (tmp : Option Nat) : Memory × SharedPtr :=
  SharedPtr.CreationRegular m ⟨none, static_cast offset tmp⟩ tmp

/-- The same-type copy constructor `SharedPtr(const SharedPtr<T>&)`. -/
def SharedPtr.copy (m : Memory) (sh_ptr : SharedPtr) : Except Fault (Memory × SharedPtr) :=
  let this : SharedPtr := ⟨sh_ptr.cb, sh_ptr.ptr⟩
  if !this.ProveDestroyed then do
    let m1 ← IncreaseShared m this.cb
    pure (m1, this)
  else
    pure (m, this)

/-- The converting copy constructor `SharedPtr(const SharedPtr<U>&)`. -/
def SharedPtr.copyConv (m : Memory) (sh_ptr : SharedPtr) : Except Fault (Memory × SharedPtr) := do
  let this : SharedPtr := ⟨sh_ptr.cb, sh_ptr.ptr⟩
  let m1 ← IncreaseShared m this.cb
  pure (m1, this)

/-- The move constructor `SharedPtr(SharedPtr<U>&&)`.  Returns the memory, the
new handle and the moved-from source. -/
def SharedPtr.move (m : Memory) (sh_ptr : SharedPtr) : Memory × SharedPtr × SharedPtr :=
  let this : SharedPtr := ⟨sh_ptr.cb, sh_ptr.ptr⟩
  let sh_ptr1 := { sh_ptr with cb := none }
  let sh_ptr2 := { sh_ptr1 with ptr := none }
  (m, this, sh_ptr2)

/-- The constructor `SharedPtr(const WeakPtr<U>&)`. -/
def SharedPtr.ofWeak (m : Memory) (sh_ptr : WeakPtr) : Except Fault (Memory × SharedPtr) := do
  let this : SharedPtr := ⟨sh_ptr.cb, sh_ptr.ptr⟩
  let m1 ← IncreaseShared m this.cb
  pure (m1, this)

/-- The constructor `SharedPtr(WeakPtr<U>&&)`.  Returns the memory, the new
handle and the moved-from source. -/
def SharedPtr.ofWeakMove (m : Memory) (sh_ptr : WeakPtr) : Memory × SharedPtr × WeakPtr :=
  let this : SharedPtr := ⟨sh_ptr.cb, sh_ptr.ptr⟩
  let sh_ptr1 := { sh_ptr with cb := none }
  let sh_ptr2 := { sh_ptr1 with ptr := none }
  (m, this, sh_ptr2)

/-- The destructor `~SharedPtr()`; returns the memory and the final value of the fields. -/
def SharedPtr.destroy (m : Memory) (this : SharedPtr) : Except Fault (Memory × SharedPtr) :=
  if !this.ProveDestroyed then do
    let m1 ← Shared_TryToDeleteThisOne m this.cb
    pure (m1, ⟨none, none⟩)
  else
    pure (m, this)

/-- The same-type copy assignment `operator=(const SharedPtr<T>&)`; returns the
memory and the new value of `*this`.  The source is only read, and `*this` is
not written before it is read, so the result is the same when `sh_ptr` is
`*this` itself. -/
def SharedPtr.assign (m : Memory) (this sh_ptr : SharedPtr) :
    Except Fault (Memory × SharedPtr) := do
  let m1 ← if !this.ProveDestroyed then Shared_TryToDeleteThisOne m this.cb else pure m
  let this1 : SharedPtr := ⟨sh_ptr.cb, sh_ptr.ptr⟩
  let m2 ← IncreaseShared m1 this1.cb
  pure (m2, this1)

/-- The converting copy assignment `operator=(const SharedPtr<U>&)`. -/
def SharedPtr.assignConv (m : Memory) (this sh_ptr : SharedPtr) :
    Except Fault (Memory × SharedPtr) := do
  let m1 ← if !this.ProveDestroyed then Shared_TryToDeleteThisOne m this.cb else pure m
  let this1 : SharedPtr := ⟨sh_ptr.cb, sh_ptr.ptr⟩
  let m2 ← IncreaseShared m1 this1.cb
  pure (m2, this1)

/-- The move assignment `operator=(SharedPtr<U>&&)`; returns the memory, the
new value of `*this` and the value written to the source afterwards. -/
def SharedPtr.assignMove (m : Memory) (this sh_ptr : SharedPtr) :
    Except Fault (Memory × SharedPtr × SharedPtr) := do
  let m1 ← if !this.ProveDestroyed then Shared_TryToDeleteThisOne m this.cb else pure m
  let this1 : SharedPtr := ⟨sh_ptr.cb, sh_ptr.ptr⟩
  pure (m1, this1, ⟨none, none⟩)

/-- Member `SharedPtr::reset()`. -/
def SharedPtr.reset (m : Memory) (this : SharedPtr) : Except Fault (Memory × SharedPtr) := do
  let m1 ← if !this.ProveDestroyed then Shared_TryToDeleteThisOne m this.cb else pure m
  pure (m1, ⟨none, none⟩)

/-- Member `SharedPtr::reset(U* tmp)`: the release, then
`ptr = reinterpret_cast<T*>(tmp)` and `CreationRegular(tmp, deleter, alloc)`. -/
def SharedPtr.resetRaw (m : Memory) (this : SharedPtr) (tmp : Option Nat) :
    Except Fault (Memory × SharedPtr) := do
  let m1 ← if !this.ProveDestroyed then Shared_TryToDeleteThisOne m this.cb else pure m
  let this1 := { this with ptr := reinterpret_cast tmp }
  pure (SharedPtr.CreationRegular m1 this1 tmp)

/-- Member `SharedPtr::reset(U* tmp, Deleter)`: the release, then
`ptr = static_cast<T*>(tmp)` and `CreationRegular(tmp, deleter, alloc)`; the `T`
subobject is `offset` bytes into the `U` object. -/
def SharedPtr.resetRawDeleter (m : Memory) (this : SharedPtr) (offset : Nat)
    (tmp : Option Nat) : Except Fault (Memory × SharedPtr) := do
  let m1 ← if !this.ProveDestroyed then Shared_TryToDeleteThisOne m this.cb else pure m
  let this1 := { this with ptr := static_cast offset tmp }
  pure (SharedPtr.CreationRegular m1 this1 tmp)

/-- Member `SharedPtr::reset(Y* tmp, Deleter, Alloc)`: the release, then
`ptr = static_cast<T*>(tmp)` and `CreationRegular(tmp, deleter, alloc)`; the `T`
subobject is `offset` bytes into the `Y` object. -/
def SharedPtr.resetRawAlloc (m : Memory) (this : SharedPtr) (offset : Nat)
    (tmp : Option Nat) : Except Fault (Memory × SharedPtr) := do
  let m1 ← if !this.ProveDestroyed then Shared_TryToDeleteThisOne m this.cb else pure m
  let this1 := { this with ptr := static_cast offset tmp }
  pure (SharedPtr.CreationRegular m1 this1 tmp)

/-- Member `SharedPtr::swap`. -/
def SharedPtr.swap (this tmp : SharedPtr) : SharedPtr × SharedPtr :=
  (⟨tmp.cb, tmp.ptr⟩, ⟨this.cb, this.ptr⟩)

/-- Member `SharedPtr::use_count`: `cb->shared_count`. -/
def SharedPtr.use_count (m : Memory) (this : SharedPtr) : Except Fault Nat :=
  GiveShared m this.cb

/-- Member `SharedPtr::get`. -/
def SharedPtr.get (this : SharedPtr) : Option Nat := this.ptr

/-! ## allocateShared / makeShared -/

/-- The first half of `allocateShared`: allocate the inline block and run
`construct` inside the `try`.  `ControlBlockMakeShared`'s constructor sets the
counters with `BaseControlBlock(0, 0)` and then builds the object in place
(`object` is the block's own embedded storage); when the object's constructor
throws (`ctorThrows`) the handler deallocates the storage and execution falls
out of the `try` statement.  Returns the memory and `new_cb`. -/
def allocateShared.construct (m : Memory) (ctorThrows : Bool) : Memory × Nat :=
  let block : BaseControlBlock := ⟨0, 0, .MakeShared, some m.blocks.length, true⟩
  let (m1, new_cb) := m.allocate block
  if ctorThrows then
    ((m1.write new_cb { block with allocated := false }).log (.Deallocate new_cb), new_cb)
  else
    (m1, new_cb)

/-- The function `allocateShared`: after the `try` statement, `ptr` is the
address of `new_cb->object` and the result is `SharedPtr<T>(new_cb, ptr)`. -/
def allocateShared (m : Memory) (ctorThrows : Bool) : Except Fault (Memory × SharedPtr) :=
  let (m1, new_cb) := allocateShared.construct m ctorThrows
  let ptr := some new_cb
  SharedPtr.ofBlock m1 (some new_cb) ptr

/-- The function `makeShared`: `allocateShared` with `std::allocator<T>`. -/
def makeShared (m : Memory) (ctorThrows : Bool) : Except Fault (Memory × SharedPtr) :=
  allocateShared m ctorThrows

/-! ## WeakPtr -/

/-- The default constructor `WeakPtr(): cb(nullptr), ptr(nullptr)`. -/
def WeakPtr.default : WeakPtr := ⟨none, none⟩

/-- Member `WeakPtr::ProveDestroyed`. -/
def WeakPtr.ProveDestroyed (this : WeakPtr) : Bool :=
  this.ptr == none && this.cb == none

/-- The copy constructors `WeakPtr(const WeakPtr&)` and `WeakPtr(const WeakPtr<U>&)`. -/
def WeakPtr.copy (m : Memory) (tmp : WeakPtr) : Except Fault (Memory × WeakPtr) := do
  let this : WeakPtr := ⟨tmp.cb, tmp.ptr⟩
  let m1 ← IncreaseWeak m this.cb
  pure (m1, this)

/-- The constructors `WeakPtr(const SharedPtr<T>&)` and `WeakPtr(const SharedPtr<U>&)`. -/
def WeakPtr.ofShared (m : Memory) (tmp : SharedPtr) : Except Fault (Memory × WeakPtr) := do
  let this : WeakPtr := ⟨tmp.cb, tmp.ptr⟩
  let m1 ← IncreaseWeak m this.cb
  pure (m1, this)

/-- The move constructors `WeakPtr(WeakPtr&&)` and `WeakPtr(WeakPtr<U>&&)`.
Returns the memory, the new handle and the moved-from source. -/
def WeakPtr.move (m : Memory) (tmp : WeakPtr) : Memory × WeakPtr × WeakPtr :=
  let this : WeakPtr := ⟨tmp.cb, tmp.ptr⟩
  let tmp1 := { tmp with cb := none }
  let tmp2 := { tmp1 with ptr := none }
  (m, this, tmp2)

/-- Member `WeakPtr::expired`: `cb->GiveShared() == 0`. -/
def WeakPtr.expired (m : Memory) (this : WeakPtr) : Except Fault Bool := do
  let n ← GiveShared m this.cb
  pure (n == 0)

/-- Member `WeakPtr::use_count`. -/
def WeakPtr.use_count (m : Memory) (this : WeakPtr) : Except Fault Nat :=
  GiveShared m this.cb

/-- Member `WeakPtr::lock`: `SharedPtr<T>(cb, ptr)`. -/
def WeakPtr.lock (m : Memory) (this : WeakPtr) : Except Fault (Memory × SharedPtr) :=
  SharedPtr.ofBlock m this.cb this.ptr

/-- The destructor `~WeakPtr()`. -/
def WeakPtr.destroy (m : Memory) (this : WeakPtr) : Except Fault Memory :=
  if !this.ProveDestroyed then Weak_TryToDeleteThisOne m this.cb else pure m

/-- The copy assignments `operator=(const WeakPtr&)` and `operator=(const WeakPtr<U>&)`. -/
def WeakPtr.assign (m : Memory) (this tmp : WeakPtr) : Except Fault (Memory × WeakPtr) := do
  let m1 ← if !this.ProveDestroyed then Weak_TryToDeleteThisOne m this.cb else pure m
  let this1 : WeakPtr := ⟨tmp.cb, tmp.ptr⟩
  let m2 ← IncreaseWeak m1 this1.cb
  pure (m2, this1)

/-- The assignment `operator=(const SharedPtr<U>&)` of `WeakPtr`. -/
def WeakPtr.assignShared (m : Memory) (this : WeakPtr) (tmp : SharedPtr) :
    Except Fault (Memory × WeakPtr) := do
  let m1 ← if !this.ProveDestroyed then Weak_TryToDeleteThisOne m this.cb else pure m
  let this1 : WeakPtr := ⟨tmp.cb, tmp.ptr⟩
  let m2 ← IncreaseWeak m1 this1.cb
  pure (m2, this1)

/-- The move assignments `operator=(WeakPtr&&)` and `operator=(WeakPtr<U>&&)`;
returns the memory, the new value of `*this` and the value written to the
source afterwards. -/
def WeakPtr.assignMove (m : Memory) (this tmp : WeakPtr) :
    Except Fault (Memory × WeakPtr × WeakPtr) := do
  let m1 ← if !this.ProveDestroyed then Weak_TryToDeleteThisOne m this.cb else pure m
  let this1 : WeakPtr := ⟨tmp.cb, tmp.ptr⟩
  pure (m1, this1, ⟨none, none⟩)

/-! ## Programs over handle variables

A `World` is the memory together with the handle variables of a client
program: `shared[i]` and `weak[j]` are the `SharedPtr` and `WeakPtr` objects
created so far, `none` once their destructor has run.  An `Op` is one call of
the public interface; operands are variables, so an operation whose two
operands are the same variable is a call on aliased references. -/

/-- The memory and the handle variables of a client program. -/
structure World where
  mem : Memory
  shared : List (Option SharedPtr)
  weak : List (Option WeakPtr)
deriving DecidableEq, Repr

/-- The world before anything is constructed. -/
def World.empty : World := ⟨Memory.empty, [], []⟩

/-- One call of the public interface of `SharedPtr` / `WeakPtr`. -/
inductive Op
  /-- Declares `SharedPtr<T> x;`. -/
  | newDefault
  /-- Declares `SharedPtr<T> x(tmp, deleter);` (also with an allocator). -/
  | newRaw (tmp : Option Nat)
  /-- Declares `auto x = makeShared<T>(args...);` (or `allocateShared`). -/
  | newMakeShared (ctorThrows : Bool)
  /-- Declares `SharedPtr<T> x(shared[i]);`. -/
  | copy (i : Nat)
  /-- Declares `SharedPtr<T> x(shared[i]);` from a `SharedPtr<U>`. -/
  | copyConv (i : Nat)
  /-- Declares `SharedPtr<T> x(std::move(shared[i]));`. -/
  | move (i : Nat)
  /-- Declares `SharedPtr<T> x(weak[j]);`. -/
  | ofWeak (j : Nat)
  /-- Declares `SharedPtr<T> x(std::move(weak[j]));`. -/
  | ofWeakMove (j : Nat)
  /-- Declares `auto x = weak[j].lock();`. -/
  | lock (j : Nat)
  /-- Runs `shared[i] = shared[k];` (same type). -/
  | assign (i k : Nat)
  /-- Runs `shared[i] = shared[k];` from a `SharedPtr<U>`. -/
  | assignConv (i k : Nat)
  /-- Runs `shared[i] = std::move(shared[k]);`. -/
  | assignMove (i k : Nat)
  /-- Runs `shared[i].reset();`. -/
  | reset (i : Nat)
  /-- Runs `shared[i].reset(tmp);`. -/
  | resetRaw (i : Nat) (tmp : Option Nat)
  /-- Runs `shared[i].swap(shared[k]);`. -/
  | swap (i k : Nat)
  /-- Ends the lifetime of `shared[i]`. -/
  | destroy (i : Nat)
  /-- Declares `WeakPtr<T> y;`. -/
  | weakDefault
  /-- Declares `WeakPtr<T> y(shared[i]);`. -/
  | weakOfShared (i : Nat)
  /-- Declares `WeakPtr<T> y(weak[j]);`. -/
  | weakCopy (j : Nat)
  /-- Declares `WeakPtr<T> y(std::move(weak[j]));`. -/
  | weakMove (j : Nat)
  /-- Runs `weak[j] = weak[k];`. -/
  | weakAssign (j k : Nat)
  /-- Runs `weak[j] = shared[i];`. -/
  | weakAssignShared (j i : Nat)
  /-- Runs `weak[j] = std::move(weak[k]);`. -/
  | weakAssignMove (j k : Nat)
  /-- Ends the lifetime of `weak[j]`. -/
  | weakDestroy (j : Nat)
deriving DecidableEq, Repr

/-- The `SharedPtr` variable `i`, when it is alive. -/
def World.getShared (w : World) (i : Nat) : Except Fault SharedPtr :=
  match w.shared[i]? with
  | some (some h) => .ok h
  | _ => .error .NoSuchHandle

/-- The `WeakPtr` variable `j`, when it is alive. -/
def World.getWeak (w : World) (j : Nat) : Except Fault WeakPtr :=
  match w.weak[j]? with
  | some (some h) => .ok h
  | _ => .error .NoSuchHandle

/-- A new `SharedPtr` variable holding `h`, in memory `m`. -/
def World.pushShared (w : World) (m : Memory) (h : SharedPtr) : World :=
  { w with mem := m, shared := w.shared ++ [some h] }

/-- A new `WeakPtr` variable holding `h`, in memory `m`. -/
def World.pushWeak (w : World) (m : Memory) (h : WeakPtr) : World :=
  { w with mem := m, weak := w.weak ++ [some h] }

/-- Execute one operation. -/
def step (w : World) : Op → Except Fault World
  | .newDefault => pure (w.pushShared w.mem SharedPtr.default)
  | .newRaw tmp =>
    let (m, h) := SharedPtr.ofRaw w.mem tmp
    pure (w.pushShared m h)
  | .newMakeShared ctorThrows => do
    let (m, h) ← makeShared w.mem ctorThrows
    pure (w.pushShared m h)
  | .copy i => do
    let s ← w.getShared i
    let (m, h) ← SharedPtr.copy w.mem s
    pure (w.pushShared m h)
  | .copyConv i => do
    let s ← w.getShared i
    let (m, h) ← SharedPtr.copyConv w.mem s
    pure (w.pushShared m h)
  | .move i => do
    let s ← w.getShared i
    let (m, h, s1) := SharedPtr.move w.mem s
    pure ({ w with shared := w.shared.set i (some s1) }.pushShared m h)
  | .ofWeak j => do
    let s ← w.getWeak j
    let (m, h) ← SharedPtr.ofWeak w.mem s
    pure (w.pushShared m h)
  | .ofWeakMove j => do
    let s ← w.getWeak j
    let (m, h, s1) := SharedPtr.ofWeakMove w.mem s
    pure ({ w with weak := w.weak.set j (some s1) }.pushShared m h)
  | .lock j => do
    let s ← w.getWeak j
    let (m, h) ← WeakPtr.lock w.mem s
    pure (w.pushShared m h)
  | .assign i k => do
    let this ← w.getShared i
    let s ← w.getShared k
    let (m, this1) ← SharedPtr.assign w.mem this s
    pure { w with mem := m, shared := w.shared.set i (some this1) }
  | .assignConv i k => do
    let this ← w.getShared i
    let s ← w.getShared k
    let (m, this1) ← SharedPtr.assignConv w.mem this s
    pure { w with mem := m, shared := w.shared.set i (some this1) }
  | .assignMove i k => do
    let this ← w.getShared i
    let s ← w.getShared k
    let (m, this1, s1) ← SharedPtr.assignMove w.mem this s
    pure { w with mem := m, shared := (w.shared.set i (some this1)).set k (some s1) }
  | .reset i => do
    let this ← w.getShared i
    let (m, this1) ← SharedPtr.reset w.mem this
    pure { w with mem := m, shared := w.shared.set i (some this1) }
  | .resetRaw i tmp => do
    let this ← w.getShared i
    let (m, this1) ← SharedPtr.resetRaw w.mem this tmp
    pure { w with mem := m, shared := w.shared.set i (some this1) }
  | .swap i k => do
    let this ← w.getShared i
    let tmp ← w.getShared k
    let (this1, tmp1) := SharedPtr.swap this tmp
    pure { w with shared := (w.shared.set i (some this1)).set k (some tmp1) }
  | .destroy i => do
    let this ← w.getShared i
    let (m, _) ← SharedPtr.destroy w.mem this
    pure { w with mem := m, shared := w.shared.set i none }
  | .weakDefault => pure (w.pushWeak w.mem WeakPtr.default)
  | .weakOfShared i => do
    let s ← w.getShared i
    let (m, h) ← WeakPtr.ofShared w.mem s
    pure (w.pushWeak m h)
  | .weakCopy j => do
    let s ← w.getWeak j
    let (m, h) ← WeakPtr.copy w.mem s
    pure (w.pushWeak m h)
  | .weakMove j => do
    let s ← w.getWeak j
    let (m, h, s1) := WeakPtr.move w.mem s
    pure ({ w with weak := w.weak.set j (some s1) }.pushWeak m h)
  | .weakAssign j k => do
    let this ← w.getWeak j
    let s ← w.getWeak k
    let (m, this1) ← WeakPtr.assign w.mem this s
    pure { w with mem := m, weak := w.weak.set j (some this1) }
  | .weakAssignShared j i => do
    let this ← w.getWeak j
    let s ← w.getShared i
    let (m, this1) ← WeakPtr.assignShared w.mem this s
    pure { w with mem := m, weak := w.weak.set j (some this1) }
  | .weakAssignMove j k => do
    let this ← w.getWeak j
    let s ← w.getWeak k
    let (m, this1, s1) ← WeakPtr.assignMove w.mem this s
    pure { w with mem := m, weak := (w.weak.set j (some this1)).set k (some s1) }
  | .weakDestroy j => do
    let this ← w.getWeak j
    let m ← WeakPtr.destroy w.mem this
    pure { w with mem := m, weak := w.weak.set j none }

/-- Execute a program, one operation after the other. -/
def run (w : World) : List Op → Except Fault World
  | [] => pure w
  | op :: ops => do
    let w1 ← step w op
    run w1 ops

/-- Number of live non-null `SharedPtr` variables whose `cb` is the block at `a`. -/
def World.sharedRefs (w : World) (a : Nat) : Nat :=
  w.shared.countP fun s =>
    match s with
    | some h => !h.ProveDestroyed && h.cb == some a
    | none => false

/-- Number of live non-null `WeakPtr` variables whose `cb` is the block at `a`. -/
def World.weakRefs (w : World) (a : Nat) : Nat :=
  w.weak.countP fun s =>
    match s with
    | some h => !h.ProveDestroyed && h.cb == some a
    | none => false

/-- Number of `UseDeleter` calls logged for the block at `a`. -/
def Memory.deleterCalls (m : Memory) (a : Nat) : Nat :=
  m.trace.count (.UseDeleter a)

/-- Number of `Clean` calls logged for the block at `a`. -/
def Memory.cleanCalls (m : Memory) (a : Nat) : Nat :=
  m.trace.count (.Clean a)

/-- Every handle variable of the program has been destroyed. -/
def World.allDestroyed (w : World) : Bool :=
  w.shared.all Option.isNone && w.weak.all Option.isNone

/-- A memory with one regular block at address `0`, owned twice and observed once. -/
def memTwoOwners : Memory := ⟨[⟨2, 1, .Regular, some 7, true⟩], []⟩

/-- An observer of the block at address `0`. -/
def weakAtZero : WeakPtr := ⟨some 0, some 7⟩

/-- An owner of the block at address `0`. -/
def sharedAtZero : SharedPtr := ⟨some 0, some 7⟩

/-- The world after `SharedPtr<T> s(p, d); WeakPtr<T> w(s);`. -/
def worldOwnerObserver : World :=
  ⟨⟨[⟨1, 1, .Regular, some 7, true⟩], []⟩, [some sharedAtZero], [some weakAtZero]⟩

/-- The program `SharedPtr<T> h(p, d); WeakPtr<T> w(h); h = h;`. -/
def selfAssignProgram : List Op :=
  [.newRaw (some 7), .weakOfShared 0, .assign 0 0]

/-- The program `selfAssignProgram`, followed by the destruction of `h` and of `w`. -/
def selfAssignLifetime : List Op :=
  selfAssignProgram ++ [.destroy 0, .weakDestroy 0]

/-- The program `SharedPtr<T> s(p, d); WeakPtr<T> w(s); s.reset();`: `w` is
expired and keeps the block alive. -/
def expiredProgram : List Op :=
  [.newRaw (some 7), .weakOfShared 0, .reset 0]

/-- The program `SharedPtr<T> h(p, d); h = h;`. -/
def selfAssignSoleOwner : List Op :=
  [.newRaw (some 7), .assign 0 0]

/-- The program `SharedPtr<T> d; SharedPtr<T> s; d = s;`. -/
def assignNullToNull : List Op :=
  [.newDefault, .newDefault, .assign 0 1]

/-- The program `SharedPtr<T> d(p, del); SharedPtr<T> s; d = s;`. -/
def assignNullToOwner : List Op :=
  [.newRaw (some 7), .newDefault, .assign 0 1]

/-- The program `SharedPtr<U> s; SharedPtr<T> t(s);` with `U` other than `T`. -/
def convertNull : List Op :=
  [.newDefault, .copyConv 0]

/-- The program `SharedPtr<T> s; SharedPtr<T> t(s);`. -/
def copyNull : List Op :=
  [.newDefault, .copy 0]

/-- The program `auto p = makeShared<int>(42); SharedPtr<int> q(p);` followed by
the destruction of `q` and of `p`. -/
def makeSharedLifetime : List Op :=
  [.newMakeShared false, .copy 0, .destroy 1, .destroy 0]

/-- One call of the counter interface of `BaseControlBlock`. -/
inductive BlockCall
  | IncreaseShared
  | IncreaseWeak
  | Shared_TryToDeleteThisOne
  | Weak_TryToDeleteThisOne
deriving DecidableEq, Repr

/-- Issue one call through the pointer `cb` (virtual dispatch on the block's kind). -/
def BlockCall.apply (m : Memory) (cb : Option Nat) : BlockCall → Except Fault Memory
  | .IncreaseShared => SharedPtrModel.IncreaseShared m cb
  | .IncreaseWeak => SharedPtrModel.IncreaseWeak m cb
  | .Shared_TryToDeleteThisOne => SharedPtrModel.Shared_TryToDeleteThisOne m cb
  | .Weak_TryToDeleteThisOne => SharedPtrModel.Weak_TryToDeleteThisOne m cb

/-- Issue a sequence of calls through the pointer `cb`, one after the other. -/
def applyCalls (m : Memory) (cb : Option Nat) : List BlockCall → Except Fault Memory
  | [] => pure m
  | c :: cs => do
    let m1 ← c.apply m cb
    applyCalls m1 cb cs

/-- What an observer of the counters sees of a block: `shared_count`,
`weak_count` and whether the storage is allocated (not its kind, not its object). -/
def BaseControlBlock.counters (b : BaseControlBlock) : Nat × Nat × Bool :=
  (b.shared_count, b.weak_count, b.allocated)

/-- What an observer of the counters sees of a memory: the counters of every
block and the log of `UseDeleter` / `Clean` calls. -/
def Memory.observe (m : Memory) : List (Nat × Nat × Bool) × List Event :=
  (m.blocks.map BaseControlBlock.counters, m.trace)

/-- A memory holding one regular block with counters `(2, 1)`. -/
def memRegular : Memory := ⟨[⟨2, 1, .Regular, some 7, true⟩], []⟩

/-- A memory holding one inline block with counters `(2, 1)`. -/
def memInline : Memory := ⟨[⟨2, 1, .MakeShared, some 0, true⟩], []⟩

/-- A sequence of calls that takes a block from `(2, 1)` through both zero crossings. -/
def callsThroughZero : List BlockCall :=
  [.IncreaseShared, .Shared_TryToDeleteThisOne, .IncreaseWeak, .Shared_TryToDeleteThisOne,
    .Weak_TryToDeleteThisOne, .Shared_TryToDeleteThisOne, .Weak_TryToDeleteThisOne]

/-! ## EnableSharedFromThis -/

/-- The base-class subobject `EnableSharedFromThis<T>` of an object: its one
data member. -/
structure EnableSharedFromThis where
  wptr : WeakPtr
deriving DecidableEq, Repr

/-- The implicitly defined default constructor of `EnableSharedFromThis<T>`:
`wptr` is default-constructed.  The class declares no other constructor, and
neither `CreationRegular` nor `allocateShared` nor any other function of the
file writes `wptr`, so this is the value of the subobject at every later time. -/
def EnableSharedFromThis.init : EnableSharedFromThis := ⟨WeakPtr.default⟩

/-- Member `EnableSharedFromThis::shared_from_this`: `wptr.lock()`. -/
def EnableSharedFromThis.shared_from_this (m : Memory) (this : EnableSharedFromThis) :
    Except Fault (Memory × SharedPtr) :=
  WeakPtr.lock m this.wptr

/-- Member `EnableSharedFromThis::weak_from_this`: returns `wptr` by value,
through the copy constructor of `WeakPtr`. -/
def EnableSharedFromThis.weak_from_this (m : Memory) (this : EnableSharedFromThis) :
    Except Fault (Memory × WeakPtr) :=
  WeakPtr.copy m this.wptr

/-- Member `EnableSharedFromThis::operator=`: ignores its argument. -/
def EnableSharedFromThis.assign (this _tmp : EnableSharedFromThis) : EnableSharedFromThis :=
  this

/-! ## The calls a release issues -/

/-- The calls an owner release issues, given the counters `(s1, w)` it sees after
its decrement: `UseDeleter` when `s1 = 0`, followed by `Clean` when also `w = 0`. -/
def owningReleaseCalls (a s1 w : Nat) : List Event :=
  if s1 = 0 then (if w = 0 then [.UseDeleter a, .Clean a] else [.UseDeleter a]) else []

/-- The calls an observer release issues, given the counters `(s, w1)` it sees
after its decrement: `Clean` when both are `0`. -/
def observingReleaseCalls (a s w1 : Nat) : List Event :=
  if w1 = 0 ∧ s = 0 then [.Clean a] else []

end SharedPtrModel

/-!
# Deque (src/Deque/deque.h)

A shallow embedding of `Deque<T>` and of its iterator.  The arrays a deque owns
live in a `Heap`: the chunks (`new char[size_of_chunk_ * sizeof(T)]`, 32 slots
each) and the tables of chunk pointers (`new T*[...]`), both indexed by
address.  An iterator carries its four members: the coordinates `index_` and
`out_index_`, the table pointer `out_it_` and the slot pointer `it_`, which
`operator+=` and `operator-=` recompute by reading the table, a read that is
undefined outside a live table, and which `relocate()` leaves as it is.  `int` values are integers; each conversion between `int` and
`size_t` in the mixed arithmetic of the source is written out (`toSize`,
`toInt`), and an addition or subtraction of two `int` values is exact.  A call
returns `Except Abort`: `std::out_of_range`, or an access that is undefined in
C++.  The loops of `insert` and `erase` take the number of iterations they may
run.  Allocation does not fail and the copy constructor of `T` does not throw.
-/

namespace DequeModel

/-- Conversion of an `int` value to `size_t`: the value modulo `2 ^ 64`. -/
def toSize (x : Int) : Int := x % 18446744073709551616

/-- Conversion of a `size_t` value to `int`: the low 32 bits in two's complement. -/
def toInt (y : Int) : Int := (y + 2147483648) % 4294967296 - 2147483648

/-- The constant `size_of_chunk_`, of type `size_t`. -/
def size_of_chunk_ : Int := 32

/-- How a call can end other than by returning: the exception `std::out_of_range`,
or an access the language leaves undefined (a read outside a table, a pointer
that addresses no slot, a slot that holds no object). -/
inductive Abort
  | out_of_range
  | undefined
deriving DecidableEq, Repr

/-- The arrays a deque owns.  `chunks` lists every array obtained by
`new char[size_of_chunk_ * sizeof(T)]`, by address; a slot is `none` while no
object lives in it.  `tables` lists every array obtained by `new T*[...]`, by
address, each entry the address of a chunk; a table is `none` once
`delete[]` has been applied to it. -/
structure Heap (α : Type) where
  chunks : List (List (Option α))
  tables : List (Option (List Nat))
deriving DecidableEq, Repr

/-- The pointer `&(out_it_[out_index_][index_])`: the chunk address read from the
table `out_it_` at `out_index_`, and the slot number.  It is `none` when
`out_it_` is null or deleted, or the read falls outside the table. -/
def slotAddr (tables : List (Option (List Nat))) (out_it_ : Option Nat)
    (out_index_ index_ : Int) : Option (Nat × Nat) :=
  match out_it_ with
  | none => none
  | some t =>
    match tables[t]? with
    | some (some table) =>
      if 0 ≤ out_index_ ∧ 0 ≤ index_ then
        table[out_index_.toNat]?.map (fun chunk => (chunk, index_.toNat))
      else none
    | _ => none

/-- A `Deque<T>::common_iterator`: the coordinates `index_` and `out_index_` (of
type `int`), the table pointer `out_it_` and the slot pointer `it_`. -/
structure common_iterator where
  index_ : Int
  out_index_ : Int
  out_it_ : Option Nat
  it_ : Option (Nat × Nat)
deriving DecidableEq, Repr

/-- The default constructor `common_iterator()`: both coordinates 0, both
pointers null. -/
def common_iterator.create : common_iterator :=
  { index_ := 0, out_index_ := 0, out_it_ := none, it_ := none }

/-- The last statement of `operator+=` and of `operator-=`,
`it_ = &(out_it_[out_index_][index_])`.  It reads the entry `out_index_` of the
table `out_it_`: the call is undefined when `out_it_` is null or deleted, or the
entry is outside the table. -/
def common_iterator.locate (tables : List (Option (List Nat))) (it : common_iterator) :
    Except Abort common_iterator :=
  match slotAddr tables it.out_it_ it.out_index_ it.index_ with
  | some a => .ok { it with it_ := some a }
  | none => .error .undefined

/-- The non-negative branch of `operator+=(diff)`.  `diff / size_of_chunk_`,
`diff % size_of_chunk_`, `index_ + ...`, `index_ >= size_of_chunk_` and
`index_ - size_of_chunk_` are evaluated in `size_t` and stored back to `int`;
the last statement recomputes `it_` from the table. -/
def common_iterator.plusBody (tables : List (Option (List Nat))) (it : common_iterator)
    (diff : Int) : Except Abort common_iterator :=
  let change := toInt (toSize diff / size_of_chunk_)
  let index1 := toInt (toSize (toSize it.index_ + toSize diff % size_of_chunk_))
  if toSize index1 ≥ size_of_chunk_ then
    let change1 := change + 1
    let index2 := toInt (toSize (toSize index1 - size_of_chunk_))
    let out1 := it.out_index_ + change1
    common_iterator.locate tables { it with index_ := index2, out_index_ := out1 }
  else
    let out1 := it.out_index_ + change
    common_iterator.locate tables { it with index_ := index1, out_index_ := out1 }

/-- The non-negative branch of `operator-=(diff)`; the last statement recomputes
`it_` from the table. -/
def common_iterator.minusBody (tables : List (Option (List Nat))) (it : common_iterator)
    (diff : Int) : Except Abort common_iterator :=
  let out1 := toInt (toSize (toSize it.out_index_ - toSize diff / size_of_chunk_))
  let index1 := toInt (toSize (toSize it.index_ - toSize diff % size_of_chunk_))
  if index1 < 0 then
    let out2 := out1 - 1
    let index2 := toInt (toSize (toSize index1 + size_of_chunk_))
    common_iterator.locate tables { it with index_ := index2, out_index_ := out2 }
  else
    common_iterator.locate tables { it with index_ := index1, out_index_ := out1 }

/-- Member `operator+=(diff)`: for a negative `diff` it is `*this -= -diff`, whose
own test `diff < 0` then fails. -/
def common_iterator.addAssign (tables : List (Option (List Nat))) (it : common_iterator)
    (diff : Int) : Except Abort common_iterator :=
  if diff < 0 then it.minusBody tables (-diff) else it.plusBody tables diff

/-- Member `operator-=(diff)`: for a negative `diff` it is `*this += -diff`, whose
own test `diff < 0` then fails. -/
def common_iterator.subAssign (tables : List (Option (List Nat))) (it : common_iterator)
    (diff : Int) : Except Abort common_iterator :=
  if diff < 0 then it.plusBody tables (-diff) else it.minusBody tables diff

/-- The friend `operator+(it_now, diff)`. -/
def common_iterator.add (tables : List (Option (List Nat))) (it_now : common_iterator)
    (diff : Int) : Except Abort common_iterator :=
  it_now.addAssign tables diff

/-- The friend `operator-(it_now, diff)`. -/
def common_iterator.sub (tables : List (Option (List Nat))) (it_now : common_iterator)
    (diff : Int) : Except Abort common_iterator :=
  it_now.subAssign tables diff

/-- Member `operator-(right)`: the difference is evaluated in `size_t` and
returned as `difference_type`, which is `int`. -/
def common_iterator.diff (this right : common_iterator) : Int :=
  toInt (toSize (toSize (toSize (toSize (this.out_index_ - right.out_index_) * size_of_chunk_)
    + toSize this.index_) - toSize right.index_))

/-- Member `operator==`. -/
def common_iterator.eq (this right : common_iterator) : Bool :=
  this.diff right == 0

/-- Member `operator<`. -/
def common_iterator.lt (this right : common_iterator) : Bool :=
  if this.out_index_ = right.out_index_ then decide (this.index_ < right.index_)
  else decide (this.out_index_ < right.out_index_)

/-- Member `operator>`. -/
def common_iterator.gt (this right : common_iterator) : Bool :=
  right.lt this

/-- The linear position `32 * out_index_ + index_` of an iterator. -/
def common_iterator.pos (it : common_iterator) : Int :=
  32 * it.out_index_ + it.index_

/-- The content of the slot at an address: `none` when the address is outside
every chunk, `some none` for a slot without an object. -/
def Heap.cell {α : Type} (h : Heap α) (a : Nat × Nat) : Option (Option α) :=
  match h.chunks[a.1]? with
  | some chunk => chunk[a.2]?
  | none => none

/-- Replace the content of the slot at an address. -/
def Heap.put {α : Type} (h : Heap α) (a : Nat × Nat) (x : Option α) : Heap α :=
  { h with chunks := h.chunks.set a.1 ((h.chunks.getD a.1 []).set a.2 x) }

/-- Read through a slot pointer, `*it_`. -/
def Heap.load {α : Type} (h : Heap α) (p : Option (Nat × Nat)) : Except Abort α :=
  match p with
  | none => .error .undefined
  | some a =>
    match h.cell a with
    | some (some x) => .ok x
    | _ => .error .undefined

/-- Placement new, `new (p) T(value)`. -/
def Heap.construct {α : Type} (h : Heap α) (p : Option (Nat × Nat)) (value : α) :
    Except Abort (Heap α) :=
  match p with
  | none => .error .undefined
  | some a =>
    match h.cell a with
    | some _ => .ok (h.put a (some value))
    | none => .error .undefined

/-- Destructor call, `p->~T()`. -/
def Heap.destroy {α : Type} (h : Heap α) (p : Option (Nat × Nat)) : Except Abort (Heap α) :=
  match p with
  | none => .error .undefined
  | some a =>
    match h.cell a with
    | some (some _) => .ok (h.put a none)
    | _ => .error .undefined

/-- Member `swap(right)` of an iterator:
`std::swap(out_it_[right.out_index_][right.index_], out_it_[out_index_][index_])`,
both slots through the table of `this`. -/
def common_iterator.swap {α : Type} (h : Heap α) (this right : common_iterator) :
    Except Abort (Heap α) := do
  let a := slotAddr h.tables this.out_it_ right.out_index_ right.index_
  let b := slotAddr h.tables this.out_it_ this.out_index_ this.index_
  let x ← h.load a
  let y ← h.load b
  match a, b with
  | some a1, some b1 => pure ((h.put a1 y).put b1 x)
  | _, _ => .error .undefined

/-- The data members of a `Deque<T>`. -/
structure Deque where
  all_chunks_ : Nat
  begin_ : common_iterator
  end_ : common_iterator
  out_array_ : Option Nat
deriving DecidableEq, Repr

/-- A chunk as `new char[size_of_chunk_ * sizeof(T)]` returns it: 32 slots, no
object in any. -/
def freshChunk (α : Type) : List (Option α) := List.replicate 32 none

/-- The default constructor `Deque()`. -/
def Deque.create {α : Type} (h : Heap α) : Heap α × Deque :=
  let all_chunks_ := 1 / 32 + 1
  let table := (List.range all_chunks_).map (fun i => h.chunks.length + i)
  let out_array_ := h.tables.length
  let h1 : Heap α :=
    { chunks := h.chunks ++ List.replicate all_chunks_ (freshChunk α),
      tables := h.tables ++ [some table] }
  let begin_ : common_iterator :=
    { index_ := 0, out_index_ := 0, out_it_ := some out_array_,
      it_ := table[0]?.map (fun chunk => (chunk, 0)) }
  (h1, { all_chunks_ := all_chunks_, begin_ := begin_, end_ := begin_,
         out_array_ := some out_array_ })

/-- Member `size()`: `end_ - begin_` returned as `size_t`. -/
def Deque.size (d : Deque) : Nat :=
  (toSize (d.end_.diff d.begin_)).toNat

/-- Member `operator[](index)`: `*(begin_ + index)`, the `size_t` index
converted to `difference_type`. -/
def Deque.index {α : Type} (h : Heap α) (d : Deque) (index : Nat) : Except Abort α := do
  let it ← d.begin_.add h.tables (toInt index)
  h.load it.it_

/-- Member `at(index)`.  The test `index < 0` is on a `size_t`. -/
def Deque.at_ {α : Type} (h : Heap α) (d : Deque) (index : Nat) : Except Abort α :=
  if (index : Int) < 0 ∨ index ≥ d.size then .error .out_of_range
  else do
    let it ← d.begin_.add h.tables (toInt index)
    h.load it.it_

/-- Member `relocate()`.  The new table has `index_start` fresh chunks, then the
first `index_start` entries of the old table, then fresh chunks up to
`all_chunks_`; the old table is deleted after the new one is filled.  Only
`out_it_` and `out_index_` of `begin_` and `end_` are assigned. -/
def Deque.relocate {α : Type} (h : Heap α) (d : Deque) : Except Abort (Heap α × Deque) :=
  let all_chunks_ := d.all_chunks_ * 3 % 2 ^ 64
  let index_start := all_chunks_ / 3
  let index_end := 2 * index_start % 2 ^ 64
  match d.out_array_ with
  | none => .error .undefined
  | some old =>
    match h.tables[old]? with
    | some (some table) =>
      if table.length < index_start then .error .undefined
      else
        let base := h.chunks.length
        let front := (List.range index_start).map (fun i => base + i)
        let back := (List.range (all_chunks_ - index_end)).map (fun i => base + index_start + i)
        let new_out_array_ := h.tables.length
        let h1 : Heap α :=
          { chunks := h.chunks
              ++ List.replicate (index_start + (all_chunks_ - index_end)) (freshChunk α),
            tables := (h.tables ++ [some (front ++ table.take index_start ++ back)]).set old none }
        .ok (h1,
          { all_chunks_ := all_chunks_,
            begin_ := { d.begin_ with out_it_ := some new_out_array_,
                                      out_index_ := d.begin_.out_index_ + toInt index_start },
            end_ := { d.end_ with out_index_ := d.end_.out_index_ + toInt index_start,
                                  out_it_ := some new_out_array_ },
            out_array_ := some new_out_array_ })
    | _ => .error .undefined

/-- Member `push_back(value)`. -/
def Deque.push_back {α : Type} (h : Heap α) (d : Deque) (value : α) :
    Except Abort (Heap α × Deque) := do
  let (h1, d1) ←
    if d.end_.out_index_ = toInt d.all_chunks_ - 1 ∧ d.end_.index_ = 31 then d.relocate h
    else pure (h, d)
  let h2 ← h1.construct d1.end_.it_ value
  let end1 ← d1.end_.addAssign h2.tables 1
  pure (h2, { d1 with end_ := end1 })

/-- Member `push_front(value)`. -/
def Deque.push_front {α : Type} (h : Heap α) (d : Deque) (value : α) :
    Except Abort (Heap α × Deque) := do
  let (h1, d1) ←
    if d.begin_.out_index_ = 0 ∧ d.begin_.index_ = 0 then d.relocate h
    else pure (h, d)
  let begin1 ← d1.begin_.subAssign h1.tables 1
  let h2 ← h1.construct begin1.it_ value
  pure (h2, { d1 with begin_ := begin1 })

/-- Member `pop_back()`. -/
def Deque.pop_back {α : Type} (h : Heap α) (d : Deque) : Except Abort (Heap α × Deque) := do
  let end1 ← d.end_.subAssign h.tables 1
  let h1 ← h.destroy end1.it_
  pure (h1, { d with end_ := end1 })

/-- Member `pop_front()`. -/
def Deque.pop_front {α : Type} (h : Heap α) (d : Deque) : Except Abort (Heap α × Deque) := do
  let h1 ← h.destroy d.begin_.it_
  let begin1 ← d.begin_.addAssign h1.tables 1
  pure (h1, { d with begin_ := begin1 })

/-- The loop of `erase`: `for (; i < end_; ++i) i.swap(i - 1);`.  `none` when the
loop is still running after `fuel` iterations. -/
def eraseLoop {α : Type} (end_ : common_iterator) :
    Nat → Heap α → common_iterator → Option (Except Abort (Heap α))
  | 0, _, _ => none
  | fuel + 1, h, i =>
    if i.lt end_ then
      match i.sub h.tables 1 with
      | .error e => some (.error e)
      | .ok j =>
        match i.swap h j with
        | .error e => some (.error e)
        | .ok h1 =>
          match i.addAssign h1.tables 1 with
          | .error e => some (.error e)
          | .ok i1 => eraseLoop end_ fuel h1 i1
    else some (.ok h)

/-- Member `erase(tmp)`. -/
def Deque.erase {α : Type} (fuel : Nat) (h : Heap α) (d : Deque) (tmp : common_iterator) :
    Option (Except Abort (Heap α × Deque)) :=
  match tmp.add h.tables 1 with
  | .error e => some (.error e)
  | .ok i =>
    match eraseLoop d.end_ fuel h i with
    | none => none
    | some (.error e) => some (.error e)
    | some (.ok h1) => some (d.pop_back h1)

/-- The loop of `insert`: `for (; i > tmp; --i) i.swap(i - 1);`. -/
def insertLoop {α : Type} (tmp : common_iterator) :
    Nat → Heap α → common_iterator → Option (Except Abort (Heap α))
  | 0, _, _ => none
  | fuel + 1, h, i =>
    if i.gt tmp then
      match i.sub h.tables 1 with
      | .error e => some (.error e)
      | .ok j =>
        match i.swap h j with
        | .error e => some (.error e)
        | .ok h1 =>
          match i.subAssign h1.tables 1 with
          | .error e => some (.error e)
          | .ok i1 => insertLoop tmp fuel h1 i1
    else some (.ok h)

/-- Member `insert(tmp, value)`. -/
def Deque.insert {α : Type} (fuel : Nat) (h : Heap α) (d : Deque) (tmp : common_iterator)
    (value : α) : Option (Except Abort (Heap α × Deque)) :=
  let x := tmp.diff d.begin_
  match d.push_back h value with
  | .error e => some (.error e)
  | .ok (h1, d1) =>
    match d1.begin_.add h1.tables x with
    | .error e => some (.error e)
    | .ok tmp1 =>
      match d1.end_.sub h1.tables 1 with
      | .error e => some (.error e)
      | .ok i =>
        match insertLoop tmp1 fuel h1 i with
        | none => none
        | some (.error e) => some (.error e)
        | some (.ok h2) => some (.ok (h2, d1))

/-- The elements `d[0]`, ..., `d[n - 1]` read by `operator[]`. -/
def Deque.toList {α : Type} (h : Heap α) (d : Deque) : List (Except Abort α) :=
  (List.range d.size).map (fun i => d.index h i)

/-- The address of the slot at linear position `p` of a table: entry `p / 32`,
slot `p % 32`. -/
def addrAt (table : List Nat) (p : Nat) : Option (Nat × Nat) :=
  table[p / 32]?.map (fun chunk => (chunk, p % 32))

/-- The content of the slot at linear position `p` of a table. -/
def Heap.view {α : Type} (h : Heap α) (table : List Nat) (p : Nat) : Option (Option α) :=
  match addrAt table p with
  | some a => h.cell a
  | none => none

/-- An iterator of the deque whose table is `table`, at address `t`: `index_` is
in `[0, 32)`, `out_index_` is inside the table, `out_it_` is the table and `it_`
is the address of the slot at the coordinates. -/
structure common_iterator.Valid (t : Nat) (table : List Nat) (it : common_iterator) :
    Prop where
  index_lo : 0 ≤ it.index_
  index_hi : it.index_ < 32
  out_lo : 0 ≤ it.out_index_
  out_hi : it.out_index_ < table.length
  out_it : it.out_it_ = some t
  it_eq : it.it_ = addrAt table it.pos.toNat

/-- The deque `d` is well formed in `h`, with its table `table` at address `t`, and
holds the elements `xs`: the table has `all_chunks_` entries, all different, each
a chunk of 32 slots; the number of chunks and the number of elements are values
of `int`; `begin_` and `end_` are valid iterators, `xs.length` positions apart,
and the slot `j` positions after `begin_` holds `xs[j]`. -/
structure HoldsAt {α : Type} (h : Heap α) (d : Deque) (t : Nat) (table : List Nat)
    (xs : List α) : Prop where
  out_array : d.out_array_ = some t
  table_eq : h.tables[t]? = some (some table)
  table_len : table.length = d.all_chunks_
  chunks_range : d.all_chunks_ < 2147483648
  size_range : xs.length < 2147483648
  table_nodup : table.Nodup
  chunk_len : ∀ c ∈ table, (h.chunks[c]?).map List.length = some 32
  begin_valid : d.begin_.Valid t table
  end_valid : d.end_.Valid t table
  length_eq : d.end_.pos = d.begin_.pos + xs.length
  elements : ∀ j < xs.length, h.view table (d.begin_.pos.toNat + j) = some xs[j]?

/-- The deque `d` is well formed in `h` and holds the elements `xs`, first to
last. -/
def Holds {α : Type} (h : Heap α) (d : Deque) (xs : List α) : Prop :=
  ∃ t table, HoldsAt h d t table xs

/-- A heap with one chunk, holding 5 and 6 in slots 29 and 30, and one table. -/
def backHeap : Heap Nat :=
  ⟨[List.replicate 29 none ++ [some 5, some 6, none]], [some [0]]⟩

/-- A deque holding 5, 6 at the end of its only chunk: `end_` is at the last slot,
so the next `push_back` relocates. -/
def backDeque : Deque :=
  ⟨1, ⟨29, 0, some 0, some (0, 29)⟩, ⟨31, 0, some 0, some (0, 31)⟩, some 0⟩

/-- A heap with one chunk, holding 5 and 6 in slots 0 and 1, and one table. -/
def frontHeap : Heap Nat :=
  ⟨[[some 5, some 6] ++ List.replicate 30 none], [some [0]]⟩

/-- A deque holding 5, 6 at the start of its only chunk, as `Deque()` followed by
two `push_back` calls leaves it: the next `push_front` relocates. -/
def frontDeque : Deque :=
  ⟨1, ⟨0, 0, some 0, some (0, 0)⟩, ⟨2, 0, some 0, some (0, 2)⟩, some 0⟩

/-- The elements read by `operator[]` after a call, an empty list if the call
did not return. -/
def elementsAfter {α : Type} (r : Except Abort (Heap α × Deque)) : List (Except Abort α) :=
  match r with
  | .ok (h, d) => d.toList h
  | .error _ => []

/-- The value of `all_chunks_` after a call, 0 if the call did not return. -/
def chunksAfter {α : Type} (r : Except Abort (Heap α × Deque)) : Nat :=
  match r with
  | .ok (_, d) => d.all_chunks_
  | .error _ => 0

end DequeModel

/-!
# StackStorage, StackAllocator and List (src/List/list.h)

`StackStorage<N>` is the address of its array and the member `capacity`;
`StackAllocator<T, N>::allocate` is a function of `sizeof(T)`, `alignof(T)`, the
storage and the count, with the `size_t` arithmetic modulo `2 ^ 64` and
`std::align` as the C++ standard describes it.

`List<T, Alloc>` is embedded for `Alloc = std::allocator<T>`: nodes live in a
memory indexed by address, a deallocated node being `none`; `fakeNode_` is kept
in the same memory and the list object records its address.  Allocation does
not fail and yields an address not in use.  Reading or writing through a
pointer to no live node is undefined in C++ and reported as a `Fault`.  The
range-for loop of `operator=` takes the number of iterations it may run.
-/

namespace ListModel

/-- Modulus of `size_t` arithmetic. -/
def SIZE_T_MOD : Nat := 2 ^ 64

/-- Exceptions thrown by the code. -/
inductive Exception
  | bad_alloc
deriving DecidableEq, Repr

/-- The class `StackStorage<N>`: the template argument `N`, the address of the
array `data_`, and the member `capacity`. -/
structure StackStorage where
  N : Nat
  data_ : Nat
  capacity : Nat
deriving DecidableEq, Repr

/-- The first address at or after `p` that is a multiple of `alignment`. -/
def alignUp (alignment p : Nat) : Nat := (p + alignment - 1) / alignment * alignment

/-- Library function `std::align(alignment, size, ptr, space)` of the C++
standard library ([ptr.align]): when `size` bytes aligned by `alignment` fit
into the `space` bytes starting at `ptr`, the first such aligned address and
`space` decreased by the bytes skipped for alignment; otherwise nothing.
Addresses are natural numbers. -/
def std_align (alignment size ptr space : Nat) : Option (Nat × Nat) :=
  let aligned := alignUp alignment ptr
  let diff := aligned - ptr
  if space < size then none
  else if space - size < diff then none
  else some (aligned, space - diff)

/-- Member `StackAllocator<T, N>::allocate(count)` for a type `T` with
`sizeof(T) = sizeofT` and `alignof(T) = alignofT`, on the storage the allocator
points to.  Returns the pointer or the exception, and the storage afterwards.
The `size_t` expressions are evaluated modulo `2 ^ 64`. -/
def StackAllocator.allocate (sizeofT alignofT : Nat) (storage : StackStorage) (count : Nat) :
    Except Exception Nat × StackStorage :=
  let ptr := storage.capacity + storage.data_
  let mx := (storage.N + SIZE_T_MOD - storage.capacity) % SIZE_T_MOD
  let last_mx := mx
  match std_align alignofT (sizeofT * count % SIZE_T_MOD) ptr mx with
  | some (ptr1, mx1) =>
    let result := ptr1
    (.ok result, { storage with
      capacity := (storage.capacity
        + ((sizeofT * count % SIZE_T_MOD + last_mx) % SIZE_T_MOD + SIZE_T_MOD - mx1)
            % SIZE_T_MOD) % SIZE_T_MOD })
  | none => (.error .bad_alloc, storage)

/-- Member `StackAllocator<T, N>::deallocate(ptr, count)`: ignores both arguments. -/
def StackAllocator.deallocate (storage : StackStorage) (_ptr _count : Nat) : StackStorage :=
  storage

/-- A call on a `StackAllocator` bound to one storage; `allocate` carries
`sizeof(T)` and `alignof(T)` of the allocator's value type. -/
inductive AllocCall
  | allocate (sizeofT alignofT count : Nat)
  | deallocate (ptr count : Nat)
deriving DecidableEq, Repr

/-- The alignment is positive and the byte size `sizeof(T) * count` of the
request is representable in a `size_t` (`count` is at most `max_size()`). -/
def AllocCall.wellFormed : AllocCall → Bool
  | .allocate sizeofT alignofT count =>
    decide (0 < alignofT) && decide (sizeofT * count < SIZE_T_MOD)
  | .deallocate _ _ => true

/-- Issue a sequence of calls on one storage.  Returns the regions
`(address, bytes)` handed out by the calls of `allocate` that returned (the
address returned and the `sizeof(T) * count` bytes asked for), in the order of
the calls, and the storage afterwards. -/
def runCalls (st : StackStorage) : List AllocCall → List (Nat × Nat) × StackStorage
  | [] => ([], st)
  | .allocate sizeofT alignofT count :: cs =>
    match StackAllocator.allocate sizeofT alignofT st count with
    | (.ok p, st1) =>
      ((p, sizeofT * count) :: (runCalls st1 cs).1, (runCalls st1 cs).2)
    | (.error _, st1) => runCalls st1 cs
  | .deallocate ptr count :: cs => runCalls (StackAllocator.deallocate st ptr count) cs

/-- A storage of 16 bytes at address 1000 with 3 bytes in use. -/
def storage16 : StackStorage := ⟨16, 1000, 3⟩

/-- An access the language leaves undefined: reading or writing through a
pointer to no live node, or reading a pointer member that was never set. -/
inductive Fault
  | undefined
deriving DecidableEq, Repr

/-- A `List<T, Alloc>::Node`, or the `BaseNode` a list embeds as `fakeNode_`: the
members `next` and `prev` (`none` while not yet assigned) and, for a `Node`, the
member `value` (`none` for a `BaseNode`). -/
structure Node (α : Type) where
  next : Option Nat
  prev : Option Nat
  value : Option α
deriving DecidableEq, Repr

/-- The node at an address, `none` when there is no live node there.  Memory is
the list of nodes by address, an entry being `none` once deallocated. -/
def lookup {α : Type} (mem : List (Option (Node α))) (p : Nat) : Option (Node α) :=
  match mem[p]? with
  | some (some n) => some n
  | _ => none

/-- The member `p->next`. -/
def nextOf {α : Type} (mem : List (Option (Node α))) (p : Nat) : Option Nat :=
  match lookup mem p with
  | some n => n.next
  | none => none

/-- The member `p->prev`. -/
def prevOf {α : Type} (mem : List (Option (Node α))) (p : Nat) : Option Nat :=
  match lookup mem p with
  | some n => n.prev
  | none => none

/-- The member `static_cast<Node*>(p)->value`. -/
def valueOf {α : Type} (mem : List (Option (Node α))) (p : Nat) : Option α :=
  match lookup mem p with
  | some n => n.value
  | none => none

/-- Reading an optional result where its absence is undefined behaviour. -/
def orUndefined {β : Type} (x : Option β) : Except Fault β :=
  match x with
  | some y => .ok y
  | none => .error .undefined

/-- Apply `f` to the live node at `p`. -/
def update {α : Type} (mem : List (Option (Node α))) (p : Nat) (f : Node α → Node α) :
    Except Fault (List (Option (Node α))) :=
  match lookup mem p with
  | some n => .ok (mem.set p (some (f n)))
  | none => .error .undefined

/-- The assignment `p->next = q`. -/
def setNext {α : Type} (mem : List (Option (Node α))) (p q : Nat) :
    Except Fault (List (Option (Node α))) :=
  update mem p (fun n => { n with next := some q })

/-- The assignment `p->prev = q`. -/
def setPrev {α : Type} (mem : List (Option (Node α))) (p q : Nat) :
    Except Fault (List (Option (Node α))) :=
  update mem p (fun n => { n with prev := some q })

/-- Destroy and deallocate the `Node` at `p`; undefined when `p` addresses no
`Node` (the sentinel is a `BaseNode`). -/
def release {α : Type} (mem : List (Option (Node α))) (p : Nat) :
    Except Fault (List (Option (Node α))) :=
  match valueOf mem p with
  | some _ => .ok (mem.set p none)
  | none => .error .undefined

/-- The data members of a `List<T, Alloc>` with `Alloc = std::allocator<T>`:
`size_`, and the address of the member `fakeNode_`, which is kept in the node
memory. -/
structure LinkedList where
  size_ : Nat
  fakeNode_ : Nat
deriving DecidableEq, Repr

/-- The constructor `List()`: a sentinel linked to itself, size 0. -/
def LinkedList.create {α : Type} (mem : List (Option (Node α))) :
    List (Option (Node α)) × LinkedList :=
  (mem ++ [some ⟨some mem.length, some mem.length, none⟩], ⟨0, mem.length⟩)

/-- Member `end()`: the iterator at `&fakeNode_`. -/
def LinkedList.end_ (l : LinkedList) : Nat := l.fakeNode_

/-- Prefix `operator++` of an iterator: `node = node->next`. -/
def increment {α : Type} (mem : List (Option (Node α))) (node : Nat) : Except Fault Nat :=
  orUndefined (nextOf mem node)

/-- Prefix `operator--` of an iterator: `node = node->prev`. -/
def decrement {α : Type} (mem : List (Option (Node α))) (node : Nat) : Except Fault Nat :=
  orUndefined (prevOf mem node)

/-- Member `begin()`: `end()` incremented once. -/
def LinkedList.begin {α : Type} (mem : List (Option (Node α))) (l : LinkedList) :
    Except Fault Nat :=
  increment mem l.end_

/-- Member `size()`. -/
def LinkedList.size (l : LinkedList) : Nat := l.size_

/-- Member `insert(pos, value)`.  The node comes from `std::allocator`, at an
address not in use (the first one past the memory); allocation does not fail. -/
def LinkedList.insert {α : Type} (mem : List (Option (Node α))) (l : LinkedList) (pos : Nat)
    (value : α) : Except Fault (List (Option (Node α)) × LinkedList) := do
  let tmp := mem.length
  let mem1 := mem ++ [some ⟨none, none, some value⟩]
  let size1 := (l.size_ + 1) % SIZE_T_MOD
  let after := pos
  let pos1 ← decrement mem1 pos
  let before := pos1
  let mem2 ← setNext mem1 before tmp
  let mem3 ← setPrev mem2 after tmp
  let mem4 ← setNext mem3 tmp after
  let mem5 ← setPrev mem4 tmp before
  pure (mem5, { l with size_ := size1 })

/-- Member `erase(pos)`. -/
def LinkedList.erase {α : Type} (mem : List (Option (Node α))) (l : LinkedList) (pos : Nat) :
    Except Fault (List (Option (Node α)) × LinkedList) := do
  let pos1 ← decrement mem pos
  let before := pos1
  let pos2 ← increment mem pos1
  let pos3 ← increment mem pos2
  let after := pos3
  let pos4 ← decrement mem pos3
  let tmp := pos4
  let mem1 ← release mem tmp
  let mem2 ← setNext mem1 before after
  let mem3 ← setPrev mem2 after before
  pure (mem3, { l with size_ := (l.size_ + SIZE_T_MOD - 1) % SIZE_T_MOD })

/-- The iterator `begin()` incremented `k` times. -/
def LinkedList.iteratorAt {α : Type} (mem : List (Option (Node α))) (l : LinkedList) :
    Nat → Except Fault Nat
  | 0 => l.begin mem
  | k + 1 => do
    let it ← l.iteratorAt mem k
    increment mem it

/-- The values met by an iterator going from `node` up to `stop`; `none` when
`stop` is not reached within `fuel` steps or a node on the way is not live. -/
def collect {α : Type} (mem : List (Option (Node α))) (stop : Nat) :
    Nat → Nat → Option (List α)
  | 0, _ => none
  | fuel + 1, node =>
    if node = stop then some []
    else
      match valueOf mem node, nextOf mem node with
      | some v, some q => (collect mem stop fuel q).map (fun vs => v :: vs)
      | _, _ => none

/-- The elements of a list from `begin()` to `end()`. -/
def LinkedList.toList {α : Type} (fuel : Nat) (mem : List (Option (Node α))) (l : LinkedList) :
    Option (List α) :=
  match nextOf mem l.fakeNode_ with
  | some first => collect mem l.fakeNode_ fuel first
  | none => none

/-- The range-for loop of `operator=`:
`for (auto& it : lst) { insert(end(), it); ++new_size; }`, with `node` the
iterator over `lst` and `stop` the node of `lst.end()`.  `none` when the loop is
still running after `fuel` iterations. -/
def copyLoop {α : Type} (stop : Nat) :
    Nat → List (Option (Node α)) → LinkedList → Nat → Nat →
      Option (Except Fault (List (Option (Node α)) × LinkedList × Nat))
  | 0, _, _, _, _ => none
  | fuel + 1, mem, l, new_size, node =>
    if node = stop then some (.ok (mem, l, new_size))
    else
      match valueOf mem node with
      | none => some (.error .undefined)
      | some it =>
        match l.insert mem l.end_ it with
        | .error e => some (.error e)
        | .ok (mem1, l1) =>
          match increment mem1 node with
          | .error e => some (.error e)
          | .ok node1 => copyLoop stop fuel mem1 l1 ((new_size + 1) % SIZE_T_MOD) node1

/-- The loop `for (size_t i = 0; i < last_size; ++i) erase(begin());`. -/
def eraseFront {α : Type} :
    Nat → List (Option (Node α)) → LinkedList → Except Fault (List (Option (Node α)) × LinkedList)
  | 0, mem, l => .ok (mem, l)
  | n + 1, mem, l => do
    let first ← l.begin mem
    let (mem1, l1) ← l.erase mem first
    eraseFront n mem1 l1

/-- Copy assignment `*this = lst`, where `lst` is the list whose `fakeNode_` is
at `lst_fakeNode`; this is `this->fakeNode_` when `lst` is `*this`.  The loop
over `lst` reads `lst` through the node memory only.  `none` when the first
loop is still running after `fuel` iterations. -/
def LinkedList.assign {α : Type} (fuel : Nat) (mem : List (Option (Node α))) (this : LinkedList)
    (lst_fakeNode : Nat) : Option (Except Fault (List (Option (Node α)) × LinkedList)) :=
  let last_size := this.size_
  let new_size := 0
  match increment mem lst_fakeNode with
  | .error e => some (.error e)
  | .ok first =>
    match copyLoop lst_fakeNode fuel mem this new_size first with
    | none => none
    | some (.error e) => some (.error e)
    | some (.ok (mem1, this1, _)) => some (eraseFront last_size mem1 this1)

/-- Node `y` follows node `x`: `x->next == y` and `y->prev == x`. -/
@[reducible] def Linked {α : Type} (mem : List (Option (Node α))) (x y : Nat) : Prop :=
  nextOf mem x = some y ∧ prevOf mem y = some x

/-- The ring of the sentinel `s`: going from `s` along `next` one meets the nodes
at the addresses of `nodes`, in order, holding the values of `nodes`, and then
`s` again; each step is matched by the `prev` link back; the addresses are
different from each other and from `s`. -/
structure Ring {α : Type} (mem : List (Option (Node α))) (s : Nat) (nodes : List (Nat × α)) :
    Prop where
  nodup : (s :: nodes.map Prod.fst).Nodup
  chain : List.Chain' (Linked mem) (s :: nodes.map Prod.fst ++ [s])
  values : ∀ p ∈ nodes, valueOf mem p.1 = some p.2

/-- The list `l` is well formed in `mem` and holds the elements `xs`, first to
last: its ring has one node per element and `size_` is their number. -/
def Holds {α : Type} (mem : List (Option (Node α))) (l : LinkedList) (xs : List α) : Prop :=
  ∃ nodes, Ring mem l.fakeNode_ nodes ∧ nodes.map Prod.snd = xs ∧ l.size_ = xs.length

/-- The ring of a list is well formed: going from the sentinel along `next` one
meets the nodes `ring` and then the sentinel again; for every node `m` on the
way, the sentinel included, `m->next->prev == m` and `m->prev->next == m`; and
`size_` is the number of nodes between the sentinel and itself. -/
def WellFormed {α : Type} (mem : List (Option (Node α))) (l : LinkedList) : Prop :=
  ∃ ring : List Nat,
    List.Chain' (fun x y => nextOf mem x = some y) (l.fakeNode_ :: ring ++ [l.fakeNode_])
    ∧ l.fakeNode_ ∉ ring
    ∧ (∀ m ∈ l.fakeNode_ :: ring,
        (nextOf mem m).bind (prevOf mem) = some m ∧ (prevOf mem m).bind (nextOf mem) = some m)
    ∧ l.size_ = ring.length

/-- A memory holding the sentinel at address 0 and two nodes with the values 5
and 6. -/
def mem56 : List (Option (Node Nat)) :=
  [some ⟨some 1, some 2, none⟩, some ⟨some 2, some 0, some 5⟩, some ⟨some 0, some 1, some 6⟩]

/-- The list in `mem56`. -/
def list56 : LinkedList := ⟨2, 0⟩

/-- A memory holding the sentinel at address 0 and one node with the value 1. -/
def memSingle : List (Option (Node Nat)) :=
  [some ⟨some 1, some 1, none⟩, some ⟨some 0, some 0, some 1⟩]

/-- The list in `memSingle`. -/
def listSingle : LinkedList := ⟨1, 0⟩

/-- The memory `mem56` with a second list at address 3 holding the value 3 in a
node at address 4. -/
def mem563 : List (Option (Node Nat)) :=
  mem56 ++ [some ⟨some 4, some 4, none⟩, some ⟨some 3, some 3, some 3⟩]

end ListModel

namespace SharedPtrModel

/-! ## Basic facts about memory -/

theorem deref_live (m : Memory) (a : Nat) (b : BaseControlBlock)
    (hb : m.blocks[a]? = some b) (halloc : b.allocated = true) :
    m.deref (some a) = .ok (a, b) := by
  simp [Memory.deref, hb, halloc]

theorem write_same (m : Memory) (a : Nat) (b c : BaseControlBlock)
    (hb : m.blocks[a]? = some b) : (m.write a c).blocks[a]? = some c := by
  have hlt : a < m.blocks.length := by
    rcases List.getElem?_eq_some.mp hb with ⟨h, _⟩
    exact h
  simp [Memory.write, List.getElem?_set, hlt]

theorem write_other (m : Memory) (a a1 : Nat) (c : BaseControlBlock) (hne : a1 ≠ a) :
    (m.write a c).blocks[a1]? = m.blocks[a1]? := by
  simp [Memory.write, List.getElem?_set, Ne.symm hne]

theorem IncreaseShared_live (m : Memory) (a : Nat) (b : BaseControlBlock)
    (hb : m.blocks[a]? = some b) (halloc : b.allocated = true) :
    IncreaseShared m (some a)
      = .ok (m.write a { b with shared_count := size_t_inc b.shared_count }) := by
  unfold IncreaseShared
  rw [deref_live m a b hb halloc]
  rcases b with ⟨sc, wc, k, o, al⟩
  cases k <;> rfl

theorem IncreaseWeak_live (m : Memory) (a : Nat) (b : BaseControlBlock)
    (hb : m.blocks[a]? = some b) (halloc : b.allocated = true) :
    IncreaseWeak m (some a)
      = .ok (m.write a { b with weak_count := size_t_inc b.weak_count }) := by
  unfold IncreaseWeak
  rw [deref_live m a b hb halloc]
  rcases b with ⟨sc, wc, k, o, al⟩
  cases k <;> rfl

theorem GiveShared_live (m : Memory) (a : Nat) (b : BaseControlBlock)
    (hb : m.blocks[a]? = some b) (halloc : b.allocated = true) :
    GiveShared m (some a) = .ok b.shared_count := by
  unfold GiveShared
  rw [deref_live m a b hb halloc]
  rfl

theorem GiveWeak_live (m : Memory) (a : Nat) (b : BaseControlBlock)
    (hb : m.blocks[a]? = some b) (halloc : b.allocated = true) :
    GiveWeak m (some a) = .ok b.weak_count := by
  unfold GiveWeak
  rw [deref_live m a b hb halloc]
  rfl

/-- Releasing the last owner while observers remain: the deleter runs, the
block stays allocated with `shared_count = 0`. -/
theorem Shared_TryToDeleteThisOne_last (m : Memory) (a : Nat) (b : BaseControlBlock)
    (hb : m.blocks[a]? = some b) (halloc : b.allocated = true)
    (h1 : b.shared_count = 1) (hw : b.weak_count ≠ 0) :
    Shared_TryToDeleteThisOne m (some a)
      = .ok (UseDeleter (m.write a { b with shared_count := 0 }) a) := by
  have hdec : size_t_dec 1 = 0 := by decide
  unfold Shared_TryToDeleteThisOne
  rw [deref_live m a b hb halloc]
  rcases b with ⟨sc, wc, k, o, al⟩
  simp only at h1 hw
  cases k <;>
    simp [ControlBlockRegular.Shared_TryToDeleteThisOne,
      ControlBlockMakeShared.Shared_TryToDeleteThisOne, h1, hdec, hw, bind, Except.bind,
      pure, Except.pure]

theorem mem_of_getElem_some {α : Type} (l : List α) (i : Nat) (x : α)
    (h : l[i]? = some x) : x ∈ l := by
  rcases List.getElem?_eq_some.mp h with ⟨hlt, hx⟩
  exact hx ▸ List.getElem_mem hlt

theorem sharedRefs_pos (W : World) (i a : Nat) (h : SharedPtr)
    (hi : W.shared[i]? = some (some h)) (hcb : h.cb = some a) : 0 < W.sharedRefs a := by
  unfold World.sharedRefs
  rw [List.countP_pos_iff]
  exact ⟨some h, mem_of_getElem_some _ _ _ hi, by simp [SharedPtr.ProveDestroyed, hcb]⟩

theorem weakRefs_pos (W : World) (j a : Nat) (w : WeakPtr)
    (hj : W.weak[j]? = some (some w)) (hcb : w.cb = some a) : 0 < W.weakRefs a := by
  unfold World.weakRefs
  rw [List.countP_pos_iff]
  exact ⟨some w, mem_of_getElem_some _ _ _ hj, by simp [WeakPtr.ProveDestroyed, hcb]⟩

/-! ## The claims -/

/-- C5: for a `WeakPtr` `w` whose control block is allocated and has
`shared_count = n` with `n ≥ 1`, `w.lock()` returns a non-null `SharedPtr` with
the `cb` and the `ptr` of `w`; afterwards `use_count()` is `n + 1` (the
`size_t` sum, which is `n + 1` itself whenever that fits in a `size_t`),
`weak_count` is unchanged and neither `UseDeleter` nor `Clean` has been called. -/
theorem lock_live (m : Memory) (w : WeakPtr) (a n : Nat) (b : BaseControlBlock)
    (hcb : w.cb = some a) (hb : m.blocks[a]? = some b) (halloc : b.allocated = true)
    (hn : b.shared_count = n) (_h1 : 1 ≤ n) :
    ∃ m1 r, WeakPtr.lock m w = .ok (m1, r)
      ∧ r.cb = w.cb ∧ r.ptr = w.ptr ∧ r.ProveDestroyed = false
      ∧ SharedPtr.use_count m1 r = .ok ((n + 1) % SIZE_T_MOD)
      ∧ (n + 1 < SIZE_T_MOD → SharedPtr.use_count m1 r = .ok (n + 1))
      ∧ GiveWeak m1 r.cb = .ok b.weak_count
      ∧ m1.trace = m.trace := by
  have hlock : WeakPtr.lock m w
      = .ok (m.write a { b with shared_count := size_t_inc b.shared_count }, ⟨w.cb, w.ptr⟩) := by
    unfold WeakPtr.lock SharedPtr.ofBlock
    rw [hcb, IncreaseShared_live m a b hb halloc]
    rfl
  have huse : SharedPtr.use_count
      (m.write a { b with shared_count := size_t_inc b.shared_count }) ⟨w.cb, w.ptr⟩
      = .ok ((n + 1) % SIZE_T_MOD) := by
    unfold SharedPtr.use_count
    simp only [hcb]
    rw [GiveShared_live _ a { b with shared_count := size_t_inc b.shared_count }
      (write_same m a b _ hb) halloc]
    simp [size_t_inc, hn]
  refine ⟨_, _, hlock, rfl, rfl, ?_, huse, ?_, ?_, rfl⟩
  · simp [SharedPtr.ProveDestroyed, hcb]
  · intro hlt
    rw [huse, Nat.mod_eq_of_lt hlt]
  · simp only [hcb]
    rw [GiveWeak_live _ a { b with shared_count := size_t_inc b.shared_count }
      (write_same m a b _ hb) halloc]

/-- Witness for C5: locking the observer of a block owned twice gives `use_count() = 3`. -/
theorem lock_live_witness :
    ∃ m1 r, WeakPtr.lock memTwoOwners weakAtZero = .ok (m1, r)
      ∧ r.cb = weakAtZero.cb ∧ r.ptr = weakAtZero.ptr ∧ r.ProveDestroyed = false
      ∧ SharedPtr.use_count m1 r = .ok ((2 + 1) % SIZE_T_MOD)
      ∧ (2 + 1 < SIZE_T_MOD → SharedPtr.use_count m1 r = .ok (2 + 1))
      ∧ GiveWeak m1 r.cb = .ok 1
      ∧ m1.trace = memTwoOwners.trace :=
  lock_live memTwoOwners weakAtZero 0 2 ⟨2, 1, .Regular, some 7, true⟩ rfl rfl rfl rfl
    (by decide)

/-- C9: same-type copy construction from a source `s` yields a handle with
the `cb` and the `ptr` of `s`.  When `s` is null the result is the null handle
and the memory is untouched.  When `s` refers to an allocated block, that
block's `shared_count` goes up by one (the `size_t` increment, `+ 1` itself
whenever that fits in a `size_t`), its `weak_count` and every other field stay
as they were, no other block changes and nothing is added to the call log. -/
theorem copy_spec (m : Memory) (s : SharedPtr) :
    (s.ProveDestroyed = true →
      SharedPtr.copy m s = .ok (m, SharedPtr.default) ∧ s = SharedPtr.default) ∧
    (∀ a b, s.cb = some a → m.blocks[a]? = some b → b.allocated = true →
      ∃ m1 r, SharedPtr.copy m s = .ok (m1, r) ∧ r.cb = s.cb ∧ r.ptr = s.ptr
        ∧ m1.blocks[a]? = some { b with shared_count := (b.shared_count + 1) % SIZE_T_MOD }
        ∧ (b.shared_count + 1 < SIZE_T_MOD →
            GiveShared m1 s.cb = .ok (b.shared_count + 1))
        ∧ GiveWeak m1 s.cb = .ok b.weak_count
        ∧ (∀ a1, a1 ≠ a → m1.blocks[a1]? = m.blocks[a1]?)
        ∧ m1.trace = m.trace) := by
  constructor
  · intro hnull
    rcases s with ⟨cb, ptr⟩
    cases cb <;> cases ptr <;> simp [SharedPtr.ProveDestroyed] at hnull
    exact ⟨rfl, rfl⟩
  · intro a b hcb hb halloc
    rcases s with ⟨cb, ptr⟩
    simp only at hcb
    subst hcb
    have hb1 := write_same m a b { b with shared_count := size_t_inc b.shared_count } hb
    refine ⟨m.write a { b with shared_count := size_t_inc b.shared_count }, ⟨some a, ptr⟩,
      ?_, rfl, rfl, hb1, ?_, ?_, ?_, rfl⟩
    · simp [SharedPtr.copy, SharedPtr.ProveDestroyed, IncreaseShared_live m a b hb halloc,
        bind, Except.bind, pure, Except.pure]
    · intro hlt
      rw [GiveShared_live _ a _ hb1 halloc]
      simp [size_t_inc, Nat.mod_eq_of_lt hlt]
    · rw [GiveWeak_live _ a _ hb1 halloc]
    · intro a1 hne
      exact write_other m a a1 _ hne

/-- Witness for C9: copying the null handle, and copying an owner of a block owned twice. -/
theorem copy_spec_witness :
    (SharedPtr.copy memTwoOwners SharedPtr.default = .ok (memTwoOwners, SharedPtr.default)
      ∧ SharedPtr.default = SharedPtr.default) ∧
    (∃ m1 r, SharedPtr.copy memTwoOwners sharedAtZero = .ok (m1, r)
        ∧ r.cb = sharedAtZero.cb ∧ r.ptr = sharedAtZero.ptr
        ∧ m1.blocks[0]? = some ⟨(2 + 1) % SIZE_T_MOD, 1, .Regular, some 7, true⟩
        ∧ (2 + 1 < SIZE_T_MOD → GiveShared m1 sharedAtZero.cb = .ok (2 + 1))
        ∧ GiveWeak m1 sharedAtZero.cb = .ok 1
        ∧ (∀ a1, a1 ≠ 0 → m1.blocks[a1]? = memTwoOwners.blocks[a1]?)
        ∧ m1.trace = memTwoOwners.trace) :=
  ⟨(copy_spec memTwoOwners SharedPtr.default).1 rfl,
   (copy_spec memTwoOwners sharedAtZero).2 0 ⟨2, 1, .Regular, some 7, true⟩ rfl rfl rfl⟩

/-- C10: move construction of a `SharedPtr` (resp. `WeakPtr`) from the variable
`s` creates a handle holding exactly the `cb` and `ptr` that `s` held, leaves
`s` equal to a default-constructed (null/null) handle, and leaves the memory,
hence both counters of every control block and the call log, unchanged. -/
theorem move_spec (W : World) :
    (∀ i s, W.shared[i]? = some (some s) →
      SharedPtr.move W.mem s = (W.mem, s, SharedPtr.default) ∧
      step W (.move i)
        = .ok ⟨W.mem, W.shared.set i (some SharedPtr.default) ++ [some s], W.weak⟩) ∧
    (∀ j t, W.weak[j]? = some (some t) →
      WeakPtr.move W.mem t = (W.mem, t, WeakPtr.default) ∧
      step W (.weakMove j)
        = .ok ⟨W.mem, W.shared, W.weak.set j (some WeakPtr.default) ++ [some t]⟩) := by
  constructor
  · intro i s hs
    refine ⟨rfl, ?_⟩
    simp [step, World.getShared, hs, SharedPtr.move, World.pushShared, SharedPtr.default,
      bind, Except.bind, pure, Except.pure]
  · intro j t ht
    refine ⟨rfl, ?_⟩
    simp [step, World.getWeak, ht, WeakPtr.move, World.pushWeak, WeakPtr.default,
      bind, Except.bind, pure, Except.pure]

/-- Witness for C10: moving from the owner and from the observer of one block. -/
theorem move_spec_witness :
    (SharedPtr.move worldOwnerObserver.mem sharedAtZero
        = (worldOwnerObserver.mem, sharedAtZero, SharedPtr.default) ∧
      step worldOwnerObserver (.move 0)
        = .ok ⟨worldOwnerObserver.mem, [some SharedPtr.default, some sharedAtZero],
            [some weakAtZero]⟩) ∧
    (WeakPtr.move worldOwnerObserver.mem weakAtZero
        = (worldOwnerObserver.mem, weakAtZero, WeakPtr.default) ∧
      step worldOwnerObserver (.weakMove 0)
        = .ok ⟨worldOwnerObserver.mem, [some sharedAtZero],
            [some WeakPtr.default, some weakAtZero]⟩) :=
  ⟨(move_spec worldOwnerObserver).1 0 sharedAtZero rfl,
   (move_spec worldOwnerObserver).2 0 weakAtZero rfl⟩

/-- What `expired()` answers where the counters account for the handles.  For a
live non-null `WeakPtr` variable `w` on an allocated block, `w.expired()` returns
`true` iff the block's `shared_count` is `0`.  In a world where the block's
`shared_count` is the number of `SharedPtr` variables on it, `expired()` is
`false` while such a variable exists; and when exactly one is left (the block's
`weak_count` accounting for its observers, among them `w`), `expired()` is `true`
right after that variable is destroyed or reset. -/
theorem expired_spec (W : World) (j a : Nat) (w : WeakPtr) (b : BaseControlBlock)
    (hw : W.weak[j]? = some (some w)) (hcb : w.cb = some a)
    (hb : W.mem.blocks[a]? = some b) (halloc : b.allocated = true) :
    WeakPtr.expired W.mem w = .ok (b.shared_count == 0) ∧
    (b.shared_count = W.sharedRefs a →
      (∃ (i : Nat) (h : SharedPtr), W.shared[i]? = some (some h) ∧ h.cb = some a) →
      WeakPtr.expired W.mem w = .ok false) ∧
    (b.shared_count = W.sharedRefs a → b.weak_count = W.weakRefs a →
      ∀ (i : Nat) (h : SharedPtr),
        W.shared[i]? = some (some h) → h.cb = some a → W.sharedRefs a = 1 →
        (∃ W1, step W (.destroy i) = .ok W1 ∧ W1.weak = W.weak
          ∧ WeakPtr.expired W1.mem w = .ok true) ∧
        (∃ W2, step W (.reset i) = .ok W2 ∧ W2.weak = W.weak
          ∧ WeakPtr.expired W2.mem w = .ok true)) := by
  have hexp : WeakPtr.expired W.mem w = .ok (b.shared_count == 0) := by
    unfold WeakPtr.expired
    rw [hcb, GiveShared_live W.mem a b hb halloc]
    rfl
  refine ⟨hexp, ?_, ?_⟩
  · rintro hs ⟨i, h, hi, hh⟩
    have hpos := sharedRefs_pos W i a h hi hh
    rw [hexp]
    have hne : b.shared_count ≠ 0 := by omega
    simp [hne]
  · intro hs hwk i h hi hh hone
    have hwpos := weakRefs_pos W j a w hw hcb
    have h1 : b.shared_count = 1 := by omega
    have hw0 : b.weak_count ≠ 0 := by omega
    have hrel := Shared_TryToDeleteThisOne_last W.mem a b hb halloc h1 hw0
    have hlive : h.ProveDestroyed = false := by simp [SharedPtr.ProveDestroyed, hh]
    have hafter : WeakPtr.expired
        (UseDeleter (W.mem.write a { b with shared_count := 0 }) a) w = .ok true := by
      unfold WeakPtr.expired
      rw [hcb, GiveShared_live (UseDeleter (W.mem.write a { b with shared_count := 0 }) a) a
        { b with shared_count := 0 } (write_same W.mem a b _ hb) halloc]
      rfl
    constructor
    · refine ⟨⟨UseDeleter (W.mem.write a { b with shared_count := 0 }) a,
        W.shared.set i none, W.weak⟩, ?_, rfl, hafter⟩
      simp [step, World.getShared, hi, SharedPtr.destroy, hlive, hh, hrel,
        bind, Except.bind, pure, Except.pure]
    · refine ⟨⟨UseDeleter (W.mem.write a { b with shared_count := 0 }) a,
        W.shared.set i (some ⟨none, none⟩), W.weak⟩, ?_, rfl, hafter⟩
      simp [step, World.getShared, hi, SharedPtr.reset, hlive, hh, hrel,
        bind, Except.bind, pure, Except.pure]

/-- One owner and one observer of the block at address `0`: `expired()` is
`false`, and `true` after the owner is destroyed or reset. -/
theorem expired_spec_witness :
    WeakPtr.expired worldOwnerObserver.mem weakAtZero = .ok ((1 : Nat) == 0) ∧
    WeakPtr.expired worldOwnerObserver.mem weakAtZero = .ok false ∧
    (∃ W1, step worldOwnerObserver (.destroy 0) = .ok W1 ∧ W1.weak = worldOwnerObserver.weak
      ∧ WeakPtr.expired W1.mem weakAtZero = .ok true) ∧
    (∃ W2, step worldOwnerObserver (.reset 0) = .ok W2 ∧ W2.weak = worldOwnerObserver.weak
      ∧ WeakPtr.expired W2.mem weakAtZero = .ok true) :=
  have h := expired_spec worldOwnerObserver 0 0 weakAtZero ⟨1, 1, .Regular, some 7, true⟩
    rfl rfl rfl rfl
  ⟨h.1, h.2.1 (by decide) ⟨0, sharedAtZero, rfl, rfl⟩,
    h.2.2 (by decide) (by decide) 0 sharedAtZero rfl rfl (by decide)⟩

/-- C1 (failing run): `SharedPtr<T> h(p, d); WeakPtr<T> w(h); h = h;` followed by
the destruction of `h` and `w`.  The self-assignment releases the only owner
first, so `UseDeleter` runs while `h` is still alive, and the assignment then
raises `shared_count` from `0` back to `1`; destroying `h` runs `UseDeleter`
again.  All handles are destroyed and the deleter has been called twice. -/
theorem selfAssign_deleter_twice :
    run World.empty selfAssignLifetime
      = .ok ⟨⟨[⟨0, 0, .Regular, some 7, false⟩], [.UseDeleter 0, .UseDeleter 0, .Clean 0]⟩,
          [none], [none]⟩ ∧
    (run World.empty selfAssignLifetime).map
        (fun W => (W.allDestroyed, W.mem.deleterCalls 0, W.mem.cleanCalls 0))
      = .ok (true, 2, 1) :=
  ⟨rfl, rfl⟩

/-- C4 (failing run): after `SharedPtr<T> s(p, d); WeakPtr<T> w(s); s.reset();` the
observer `w` is expired (`shared_count = 0`, the deleter has run, the block is
kept by `w`).  Both `w.lock()` and `SharedPtr<T>(w)` then return the non-null
handle with the `cb` and `ptr` of `w` and raise `shared_count` to `1`. -/
theorem lock_expired_not_null :
    run World.empty expiredProgram
      = .ok ⟨⟨[⟨0, 1, .Regular, some 7, true⟩], [.UseDeleter 0]⟩,
          [some ⟨none, none⟩], [some ⟨some 0, some 7⟩]⟩ ∧
    WeakPtr.expired ⟨[⟨0, 1, .Regular, some 7, true⟩], [.UseDeleter 0]⟩ ⟨some 0, some 7⟩
      = .ok true ∧
    WeakPtr.lock ⟨[⟨0, 1, .Regular, some 7, true⟩], [.UseDeleter 0]⟩ ⟨some 0, some 7⟩
      = .ok (⟨[⟨1, 1, .Regular, some 7, true⟩], [.UseDeleter 0]⟩, ⟨some 0, some 7⟩) ∧
    SharedPtr.ofWeak ⟨[⟨0, 1, .Regular, some 7, true⟩], [.UseDeleter 0]⟩ ⟨some 0, some 7⟩
      = .ok (⟨[⟨1, 1, .Regular, some 7, true⟩], [.UseDeleter 0]⟩, ⟨some 0, some 7⟩) ∧
    run World.empty (expiredProgram ++ [.lock 0])
      = .ok ⟨⟨[⟨1, 1, .Regular, some 7, true⟩], [.UseDeleter 0]⟩,
          [some ⟨none, none⟩, some ⟨some 0, some 7⟩], [some ⟨some 0, some 7⟩]⟩ :=
  ⟨rfl, rfl, rfl, rfl, rfl⟩

/-- C7 (failing run): `SharedPtr<T> h(p, d); WeakPtr<T> w(h); h = h;`.  The handle
ends with the `cb`, `ptr` and `use_count() = 1` it had, but `UseDeleter` has run
on its block: the object `h` points to has been destroyed.  With no observer
(`use_count() = 1`, `weak_count = 0`) the release inside `operator=` also calls
`Clean`, and the following `cb->IncreaseShared()` goes through a deallocated
block. -/
theorem selfAssign_runs_deleter :
    run World.empty selfAssignProgram
      = .ok ⟨⟨[⟨1, 1, .Regular, some 7, true⟩], [.UseDeleter 0]⟩,
          [some ⟨some 0, some 7⟩], [some ⟨some 0, some 7⟩]⟩ ∧
    SharedPtr.assign ⟨[⟨1, 1, .Regular, some 7, true⟩], []⟩ ⟨some 0, some 7⟩ ⟨some 0, some 7⟩
      = .ok (⟨[⟨1, 1, .Regular, some 7, true⟩], [.UseDeleter 0]⟩, ⟨some 0, some 7⟩) ∧
    Shared_TryToDeleteThisOne ⟨[⟨1, 0, .Regular, some 7, true⟩], []⟩ (some 0)
      = .ok ⟨[⟨0, 0, .Regular, some 7, false⟩], [.UseDeleter 0, .Clean 0]⟩ ∧
    SharedPtr.assign ⟨[⟨1, 0, .Regular, some 7, true⟩], []⟩ ⟨some 0, some 7⟩ ⟨some 0, some 7⟩
      = .error .Dangling ∧
    run World.empty selfAssignSoleOwner = .error .Dangling :=
  ⟨rfl, rfl, rfl, rfl, rfl⟩

/-- C8 (failing run): when the object's constructor throws inside
`allocateShared`, the handler deallocates the block and the exception is not
rethrown: execution goes on to `SharedPtr<T>(new_cb, ptr)`, whose
`cb->IncreaseShared()` goes through the block that was just deallocated. -/
theorem allocateShared_ctor_throws (m : Memory) :
    (allocateShared.construct m true).2 = m.blocks.length ∧
    (allocateShared.construct m true).1.trace = m.trace ++ [.Deallocate m.blocks.length] ∧
    (allocateShared.construct m true).1.blocks
      = m.blocks ++ [⟨0, 0, .MakeShared, some m.blocks.length, false⟩] ∧
    allocateShared m true
      = SharedPtr.ofBlock (allocateShared.construct m true).1 (some m.blocks.length)
          (some m.blocks.length) ∧
    allocateShared m true = .error .Dangling ∧
    makeShared m true = .error .Dangling := by
  have hblocks : (allocateShared.construct m true).1.blocks
      = m.blocks ++ [⟨0, 0, .MakeShared, some m.blocks.length, false⟩] := by
    simp [allocateShared.construct, Memory.allocate, Memory.write, Memory.log]
  have hfault : allocateShared m true = .error .Dangling := by
    have hcell : (allocateShared.construct m true).1.blocks[m.blocks.length]?
        = some ⟨0, 0, .MakeShared, some m.blocks.length, false⟩ := by
      rw [hblocks]
      simp
    have hderef : (allocateShared.construct m true).1.deref (some m.blocks.length)
        = .error .Dangling := by
      simp [Memory.deref, hcell]
    show SharedPtr.ofBlock (allocateShared.construct m true).1 (some m.blocks.length)
      (some m.blocks.length) = .error .Dangling
    unfold SharedPtr.ofBlock IncreaseShared
    rw [hderef]
    rfl
  exact ⟨rfl, rfl, hblocks, rfl, hfault, hfault⟩

/-! ## The two release operations in closed form -/

theorem sharedRelease_eq (m : Memory) (a : Nat) (b : BaseControlBlock) :
    ControlBlockRegular.Shared_TryToDeleteThisOne m a b
      = ⟨m.blocks.set a { b with
            shared_count := size_t_dec b.shared_count
            allocated := if size_t_dec b.shared_count = 0 ∧ b.weak_count = 0 then false
              else b.allocated },
          m.trace ++ owningReleaseCalls a (size_t_dec b.shared_count) b.weak_count⟩ := by
  unfold ControlBlockRegular.Shared_TryToDeleteThisOne owningReleaseCalls
  by_cases h0 : size_t_dec b.shared_count = 0
  · by_cases hw : b.weak_count = 0
    · simp [h0, hw, Memory.write, Memory.log, UseDeleter, Clean, List.set_set]
    · simp [h0, hw, Memory.write, Memory.log, UseDeleter]
  · simp [h0, Memory.write]

theorem weakRelease_eq (m : Memory) (a : Nat) (b : BaseControlBlock) :
    ControlBlockRegular.Weak_TryToDeleteThisOne m a b
      = ⟨m.blocks.set a { b with
            weak_count := size_t_dec b.weak_count
            allocated := if size_t_dec b.weak_count = 0 ∧ b.shared_count = 0 then false
              else b.allocated },
          m.trace ++ observingReleaseCalls a b.shared_count (size_t_dec b.weak_count)⟩ := by
  unfold ControlBlockRegular.Weak_TryToDeleteThisOne observingReleaseCalls
  by_cases h0 : size_t_dec b.weak_count = 0 ∧ b.shared_count = 0
  · simp [h0, Memory.write, Memory.log, Clean, List.set_set]
  · simp [h0, Memory.write]

theorem Shared_TryToDeleteThisOne_live (m : Memory) (a : Nat) (b : BaseControlBlock)
    (hb : m.blocks[a]? = some b) (halloc : b.allocated = true) :
    Shared_TryToDeleteThisOne m (some a)
      = .ok (ControlBlockRegular.Shared_TryToDeleteThisOne m a b) := by
  unfold Shared_TryToDeleteThisOne
  rw [deref_live m a b hb halloc]
  rcases b with ⟨sc, wc, k, o, al⟩
  cases k <;> rfl

theorem Weak_TryToDeleteThisOne_live (m : Memory) (a : Nat) (b : BaseControlBlock)
    (hb : m.blocks[a]? = some b) (halloc : b.allocated = true) :
    Weak_TryToDeleteThisOne m (some a)
      = .ok (ControlBlockRegular.Weak_TryToDeleteThisOne m a b) := by
  unfold Weak_TryToDeleteThisOne
  rw [deref_live m a b hb halloc]
  rcases b with ⟨sc, wc, k, o, al⟩
  cases k <;> rfl

theorem size_t_dec_pos (s : Nat) (h1 : 1 ≤ s) (hs : s < SIZE_T_MOD) :
    size_t_dec s = s - 1 := by
  unfold size_t_dec
  unfold SIZE_T_MOD at hs ⊢
  omega

theorem set_getElem?_same {α : Type} (l : List α) (a : Nat) (x y : α)
    (h : l[a]? = some x) : (l.set a y)[a]? = some y := by
  have hlt : a < l.length := (List.getElem?_eq_some.mp h).1
  simp [List.getElem?_set, hlt]

/-- C19: the zero-crossing rule, for both block variants.  From counters
`(s, w)` with `s ≥ 1`, `Shared_TryToDeleteThisOne` sets `shared_count` to
`s - 1`, calls `UseDeleter` iff `s = 1` and then `Clean` iff also `w = 0`, and
calls nothing else.  From counters `(s, w)` with `w ≥ 1`,
`Weak_TryToDeleteThisOne` sets `weak_count` to `w - 1`, never calls
`UseDeleter`, and calls `Clean` iff `w = 1` and `s = 0`.  In both, the block is
deallocated exactly when `Clean` is called, the other counter and every other
block are unchanged. -/
theorem zero_crossing (m : Memory) (a s w : Nat) (b : BaseControlBlock)
    (hb : m.blocks[a]? = some b) (halloc : b.allocated = true)
    (hs : b.shared_count = s) (hw : b.weak_count = w)
    (hsr : s < SIZE_T_MOD) (hwr : w < SIZE_T_MOD) :
    (1 ≤ s →
      ∃ m1, Shared_TryToDeleteThisOne m (some a) = .ok m1
        ∧ ControlBlockRegular.Shared_TryToDeleteThisOne m a b = m1
        ∧ ControlBlockMakeShared.Shared_TryToDeleteThisOne m a b = m1
        ∧ m1.blocks[a]? = some { b with
            shared_count := s - 1
            allocated := !(decide (s = 1) && decide (w = 0)) }
        ∧ (∀ a1, a1 ≠ a → m1.blocks[a1]? = m.blocks[a1]?)
        ∧ m1.trace = m.trace ++
            (if s = 1 then (if w = 0 then [.UseDeleter a, .Clean a] else [.UseDeleter a])
             else [])) ∧
    (1 ≤ w →
      ∃ m1, Weak_TryToDeleteThisOne m (some a) = .ok m1
        ∧ ControlBlockRegular.Weak_TryToDeleteThisOne m a b = m1
        ∧ ControlBlockMakeShared.Weak_TryToDeleteThisOne m a b = m1
        ∧ m1.blocks[a]? = some { b with
            weak_count := w - 1
            allocated := !(decide (w = 1) && decide (s = 0)) }
        ∧ (∀ a1, a1 ≠ a → m1.blocks[a1]? = m.blocks[a1]?)
        ∧ m1.trace = m.trace ++ (if w = 1 ∧ s = 0 then [.Clean a] else [])) := by
  constructor
  · intro h1
    have hdec : size_t_dec b.shared_count = s - 1 := by
      rw [hs]
      exact size_t_dec_pos s h1 hsr
    have hz : s - 1 = 0 ↔ s = 1 := by omega
    refine ⟨_, Shared_TryToDeleteThisOne_live m a b hb halloc, rfl, rfl, ?_, ?_, ?_⟩
    · rw [sharedRelease_eq]
      simp only
      rw [set_getElem?_same _ a b _ hb, hdec, hw, halloc]
      by_cases hs1 : s = 1 <;> by_cases hw0 : w = 0 <;> simp [hz, hs1, hw0]
    · intro a1 hne
      rw [sharedRelease_eq]
      simp [List.getElem?_set, Ne.symm hne]
    · rw [sharedRelease_eq]
      simp only [owningReleaseCalls, hdec, hw, hz]
  · intro h1
    have hdec : size_t_dec b.weak_count = w - 1 := by
      rw [hw]
      exact size_t_dec_pos w h1 hwr
    have hz : w - 1 = 0 ↔ w = 1 := by omega
    refine ⟨_, Weak_TryToDeleteThisOne_live m a b hb halloc, rfl, rfl, ?_, ?_, ?_⟩
    · rw [weakRelease_eq]
      simp only
      rw [set_getElem?_same _ a b _ hb, hdec, hs, halloc]
      by_cases hw1 : w = 1 <;> by_cases hs0 : s = 0 <;> simp [hz, hw1, hs0]
    · intro a1 hne
      rw [weakRelease_eq]
      simp [List.getElem?_set, Ne.symm hne]
    · rw [weakRelease_eq]
      simp only [observingReleaseCalls, hdec, hs, hz]

theorem sharedRelease_facts (m : Memory) (a : Nat) (b : BaseControlBlock)
    (hb : m.blocks[a]? = some b) (halloc : b.allocated = true) :
    ∃ m1, Shared_TryToDeleteThisOne m (some a) = .ok m1
      ∧ m1.blocks[a]? = some { b with
          shared_count := size_t_dec b.shared_count
          allocated := !(decide (size_t_dec b.shared_count = 0) && decide (b.weak_count = 0)) }
      ∧ (∀ a1, a1 ≠ a → m1.blocks[a1]? = m.blocks[a1]?)
      ∧ m1.trace = m.trace ++ owningReleaseCalls a (size_t_dec b.shared_count) b.weak_count := by
  refine ⟨_, Shared_TryToDeleteThisOne_live m a b hb halloc, ?_, ?_, ?_⟩
  · rw [sharedRelease_eq]
    simp only
    rw [set_getElem?_same _ a b _ hb, halloc]
    by_cases h0 : size_t_dec b.shared_count = 0 <;> by_cases hw0 : b.weak_count = 0 <;>
      simp [h0, hw0]
  · intro a1 hne
    rw [sharedRelease_eq]
    simp [List.getElem?_set, Ne.symm hne]
  · rw [sharedRelease_eq]

/-- C13 (failing run): copy assignment from a null source.  After releasing the
destination, `operator=` stores the null `cb` of the source and calls
`cb->IncreaseShared()` through it, for a null and for a non-null destination and
for both the same-type and the converting operator; copy construction from the
same source returns the null handle. -/
theorem assign_from_null_faults (m : Memory) :
    SharedPtr.assign m SharedPtr.default SharedPtr.default = .error .NullDeref ∧
    SharedPtr.assignConv m SharedPtr.default SharedPtr.default = .error .NullDeref ∧
    SharedPtr.copy m SharedPtr.default = .ok (m, SharedPtr.default) ∧
    run World.empty assignNullToNull = .error .NullDeref ∧
    run World.empty assignNullToOwner = .error .NullDeref ∧
    SharedPtr.assign ⟨[⟨1, 0, .Regular, some 7, true⟩], []⟩ ⟨some 0, some 7⟩ SharedPtr.default
      = .error .NullDeref ∧
    Shared_TryToDeleteThisOne ⟨[⟨1, 0, .Regular, some 7, true⟩], []⟩ (some 0)
      = .ok ⟨[⟨0, 0, .Regular, some 7, false⟩], [.UseDeleter 0, .Clean 0]⟩ :=
  ⟨rfl, rfl, rfl, rfl, rfl, rfl, rfl⟩

/-- C15 (failing run): no function of the file ever writes the `wptr` member of
`EnableSharedFromThis`, so after the object is wrapped by the raw-pointer
constructor (`use_count() = 1`) or by `makeShared`, `wptr` is still the
default-constructed null observer: `shared_from_this()` is `wptr.lock()`, which
calls `cb->IncreaseShared()` through the null `cb`, and `weak_from_this()`
copies `wptr`, which calls `cb->IncreaseWeak()` through it. -/
theorem shared_from_this_faults (m : Memory) :
    EnableSharedFromThis.init.wptr = WeakPtr.default ∧
    EnableSharedFromThis.shared_from_this m EnableSharedFromThis.init = .error .NullDeref ∧
    EnableSharedFromThis.weak_from_this m EnableSharedFromThis.init = .error .NullDeref ∧
    SharedPtr.use_count (SharedPtr.ofRaw Memory.empty (some 7)).1
        (SharedPtr.ofRaw Memory.empty (some 7)).2 = .ok 1 ∧
    EnableSharedFromThis.shared_from_this (SharedPtr.ofRaw Memory.empty (some 7)).1
        EnableSharedFromThis.init = .error .NullDeref ∧
    (makeShared Memory.empty false).map
        (fun r => (SharedPtr.use_count r.1 r.2,
          EnableSharedFromThis.shared_from_this r.1 EnableSharedFromThis.init))
      = .ok (.ok 1, .error .NullDeref) :=
  ⟨rfl, rfl, rfl, rfl, rfl, rfl⟩

/-- The converting copy constructor agrees with the same-type one on every
source whose `cb` is not null. -/
theorem copyConv_eq_copy (m : Memory) (s : SharedPtr) (a : Nat) (hcb : s.cb = some a) :
    SharedPtr.copyConv m s = SharedPtr.copy m s := by
  rcases s with ⟨cb, ptr⟩
  simp only at hcb
  subst hcb
  simp [SharedPtr.copyConv, SharedPtr.copy, SharedPtr.ProveDestroyed]

/-- C20 (failing run): the converting copy constructor from a null source.
`SharedPtr(const SharedPtr<U>&)` calls `cb->IncreaseShared()` without the
`ProveDestroyed` test of the same-type copy constructor, so on a null source it
goes through the null `cb`, where the same-type constructor returns the null
handle and leaves the memory as it is. -/
theorem copyConv_null_faults (m : Memory) :
    SharedPtr.copyConv m SharedPtr.default = .error .NullDeref ∧
    SharedPtr.copy m SharedPtr.default = .ok (m, SharedPtr.default) ∧
    run World.empty convertNull = .error .NullDeref ∧
    run World.empty copyNull
      = .ok ⟨Memory.empty, [some SharedPtr.default, some SharedPtr.default], []⟩ :=
  ⟨rfl, rfl, rfl, rfl⟩

/-- C16: `h.reset()` on a null `h` leaves the memory as it is; on an `h` that
refers to an allocated block it performs exactly one
`Shared_TryToDeleteThisOne` on that block (decrement of `shared_count`, the
calls that release prescribes, nothing else).  Either way `h` ends null/null,
and a second `reset()` changes neither `h` nor the memory. -/
theorem reset_spec (m : Memory) (h : SharedPtr) :
    (h.ProveDestroyed = true → SharedPtr.reset m h = .ok (m, SharedPtr.default)) ∧
    (∀ a b, h.cb = some a → m.blocks[a]? = some b → b.allocated = true →
      ∃ m1, Shared_TryToDeleteThisOne m (some a) = .ok m1
        ∧ SharedPtr.reset m h = .ok (m1, SharedPtr.default)
        ∧ m1.blocks[a]? = some { b with
            shared_count := size_t_dec b.shared_count
            allocated := !(decide (size_t_dec b.shared_count = 0) && decide (b.weak_count = 0)) }
        ∧ (∀ a1, a1 ≠ a → m1.blocks[a1]? = m.blocks[a1]?)
        ∧ m1.trace = m.trace ++ owningReleaseCalls a (size_t_dec b.shared_count) b.weak_count
        ∧ SharedPtr.reset m1 SharedPtr.default = .ok (m1, SharedPtr.default)) ∧
    (∀ m1, SharedPtr.reset m1 SharedPtr.default = .ok (m1, SharedPtr.default)) := by
  refine ⟨?_, ?_, fun m1 => rfl⟩
  · intro hnull
    simp [SharedPtr.reset, hnull, SharedPtr.default, bind, Except.bind, pure, Except.pure]
  · intro a b hcb hb halloc
    obtain ⟨m1, hrel, hblock, hother, htrace⟩ := sharedRelease_facts m a b hb halloc
    have hlive : h.ProveDestroyed = false := by simp [SharedPtr.ProveDestroyed, hcb]
    refine ⟨m1, hrel, ?_, hblock, hother, htrace, rfl⟩
    simp [SharedPtr.reset, hlive, hcb, hrel, SharedPtr.default, bind, Except.bind, pure,
      Except.pure]

/-- Witness for C16: resetting the null handle, and resetting one of the two
owners of the block at address `0`. -/
theorem reset_spec_witness :
    SharedPtr.reset memTwoOwners SharedPtr.default = .ok (memTwoOwners, SharedPtr.default) ∧
    (∃ m1, Shared_TryToDeleteThisOne memTwoOwners (some 0) = .ok m1
        ∧ SharedPtr.reset memTwoOwners sharedAtZero = .ok (m1, SharedPtr.default)
        ∧ m1.blocks[0]? = some ⟨size_t_dec 2, 1, .Regular, some 7,
            !(decide (size_t_dec 2 = 0) && decide (1 = 0))⟩
        ∧ (∀ a1, a1 ≠ 0 → m1.blocks[a1]? = memTwoOwners.blocks[a1]?)
        ∧ m1.trace = memTwoOwners.trace ++ owningReleaseCalls 0 (size_t_dec 2) 1
        ∧ SharedPtr.reset m1 SharedPtr.default = .ok (m1, SharedPtr.default)) :=
  ⟨(reset_spec memTwoOwners SharedPtr.default).1 rfl,
   (reset_spec memTwoOwners sharedAtZero).2.1 0 ⟨2, 1, .Regular, some 7, true⟩ rfl rfl rfl⟩

/-- The state the raw-pointer constructor produces: `ptr` is the raw pointer,
`cb` is a fresh address holding a regular block with counters `(1, 0)` and
`object` the raw pointer; nothing else changes. -/
theorem ofRaw_facts (m : Memory) (p : Option Nat) :
    (SharedPtr.ofRaw m p).2 = ⟨some m.blocks.length, p⟩ ∧
    (SharedPtr.ofRaw m p).1.blocks[m.blocks.length]? = some ⟨1, 0, .Regular, p, true⟩ ∧
    m.blocks[m.blocks.length]? = none ∧
    (∀ a1, a1 ≠ m.blocks.length → (SharedPtr.ofRaw m p).1.blocks[a1]? = m.blocks[a1]?) ∧
    (SharedPtr.ofRaw m p).1.trace = m.trace := by
  refine ⟨rfl, ?_, ?_, ?_, rfl⟩
  · simp [SharedPtr.ofRaw, SharedPtr.CreationRegular, Memory.allocate]
  · simp
  · intro a1 hne
    simp only [SharedPtr.ofRaw, SharedPtr.CreationRegular, Memory.allocate]
    by_cases hlt : a1 < m.blocks.length
    · rw [List.getElem?_append_left hlt]
    · have hgt : m.blocks.length < a1 := by omega
      rw [List.getElem?_eq_none (by simp; omega), List.getElem?_eq_none (by omega)]

/-- The release and the block of `h.reset(p)`: the call first performs exactly
one `Shared_TryToDeleteThisOne` on the former block of `h` when `h` referred to
an allocated block (none when `h` was null), and then leaves `cb` a fresh
regular block holding `p` with `shared_count = 1` and `weak_count = 0`, and
`ptr` the address `p`: the state the constructor `SharedPtr(T* tmp, Deleter)`
produces from a `T*` of that address. -/
theorem resetRaw_spec (m : Memory) (h : SharedPtr) (p : Option Nat) :
    (h.ProveDestroyed = true →
      SharedPtr.resetRaw m h p = .ok (SharedPtr.ofRaw m p)
      ∧ (SharedPtr.ofRaw m p).2 = ⟨some m.blocks.length, p⟩
      ∧ (SharedPtr.ofRaw m p).1.blocks[m.blocks.length]? = some ⟨1, 0, .Regular, p, true⟩
      ∧ m.blocks[m.blocks.length]? = none) ∧
    (∀ a b, h.cb = some a → m.blocks[a]? = some b → b.allocated = true →
      ∃ m1, Shared_TryToDeleteThisOne m (some a) = .ok m1
        ∧ m1.blocks[a]? = some { b with
            shared_count := size_t_dec b.shared_count
            allocated := !(decide (size_t_dec b.shared_count = 0) && decide (b.weak_count = 0)) }
        ∧ (∀ a1, a1 ≠ a → m1.blocks[a1]? = m.blocks[a1]?)
        ∧ m1.trace = m.trace ++ owningReleaseCalls a (size_t_dec b.shared_count) b.weak_count
        ∧ SharedPtr.resetRaw m h p = .ok (SharedPtr.ofRaw m1 p)
        ∧ (SharedPtr.ofRaw m1 p).2 = ⟨some m1.blocks.length, p⟩
        ∧ (SharedPtr.ofRaw m1 p).1.blocks[m1.blocks.length]? = some ⟨1, 0, .Regular, p, true⟩
        ∧ m1.blocks[m1.blocks.length]? = none
        ∧ (∀ a1, a1 ≠ m1.blocks.length →
            (SharedPtr.ofRaw m1 p).1.blocks[a1]? = m1.blocks[a1]?)
        ∧ (SharedPtr.ofRaw m1 p).1.trace = m1.trace) := by
  constructor
  · intro hnull
    obtain ⟨h1, h2, h3, _, _⟩ := ofRaw_facts m p
    refine ⟨?_, h1, h2, h3⟩
    simp [SharedPtr.resetRaw, reinterpret_cast, hnull, SharedPtr.ofRaw,
      SharedPtr.CreationRegular, bind, Except.bind, pure, Except.pure]
  · intro a b hcb hb halloc
    obtain ⟨m1, hrel, hblock, hother, htrace⟩ := sharedRelease_facts m a b hb halloc
    obtain ⟨h1, h2, h3, h4, h5⟩ := ofRaw_facts m1 p
    have hlive : h.ProveDestroyed = false := by simp [SharedPtr.ProveDestroyed, hcb]
    refine ⟨m1, hrel, hblock, hother, htrace, ?_, h1, h2, h3, h4, h5⟩
    simp [SharedPtr.resetRaw, reinterpret_cast, hlive, hcb, hrel, SharedPtr.ofRaw,
      SharedPtr.CreationRegular, bind, Except.bind, pure, Except.pure]

/-- The call `reset(p)` on the null handle, and on one of the two owners of the
block at address `0`. -/
theorem resetRaw_spec_witness :
    (SharedPtr.resetRaw memTwoOwners SharedPtr.default (some 9)
        = .ok (SharedPtr.ofRaw memTwoOwners (some 9))
      ∧ (SharedPtr.ofRaw memTwoOwners (some 9)).2 = ⟨some memTwoOwners.blocks.length, some 9⟩
      ∧ (SharedPtr.ofRaw memTwoOwners (some 9)).1.blocks[memTwoOwners.blocks.length]?
          = some ⟨1, 0, .Regular, some 9, true⟩
      ∧ memTwoOwners.blocks[memTwoOwners.blocks.length]? = none) ∧
    (∃ m1, Shared_TryToDeleteThisOne memTwoOwners (some 0) = .ok m1
        ∧ m1.blocks[0]? = some ⟨size_t_dec 2, 1, .Regular, some 7,
            !(decide (size_t_dec 2 = 0) && decide (1 = 0))⟩
        ∧ (∀ a1, a1 ≠ 0 → m1.blocks[a1]? = memTwoOwners.blocks[a1]?)
        ∧ m1.trace = memTwoOwners.trace ++ owningReleaseCalls 0 (size_t_dec 2) 1
        ∧ SharedPtr.resetRaw memTwoOwners sharedAtZero (some 9)
            = .ok (SharedPtr.ofRaw m1 (some 9))
        ∧ (SharedPtr.ofRaw m1 (some 9)).2 = ⟨some m1.blocks.length, some 9⟩
        ∧ (SharedPtr.ofRaw m1 (some 9)).1.blocks[m1.blocks.length]?
            = some ⟨1, 0, .Regular, some 9, true⟩
        ∧ m1.blocks[m1.blocks.length]? = none
        ∧ (∀ a1, a1 ≠ m1.blocks.length →
            (SharedPtr.ofRaw m1 (some 9)).1.blocks[a1]? = m1.blocks[a1]?)
        ∧ (SharedPtr.ofRaw m1 (some 9)).1.trace = m1.trace) :=
  ⟨(resetRaw_spec memTwoOwners SharedPtr.default (some 9)).1 rfl,
   (resetRaw_spec memTwoOwners sharedAtZero (some 9)).2 0 ⟨2, 1, .Regular, some 7, true⟩
     rfl rfl rfl⟩

/-- The state the constructor `SharedPtr(U* tmp, Deleter, Alloc)` produces: `ptr`
is the converted pointer, `cb` is a fresh address holding a regular block with
counters `(1, 0)` and `object` the raw pointer. -/
theorem ofRawConv_facts (m : Memory) (offset : Nat) (p : Option Nat) :
    (SharedPtr.ofRawConv m offset p).2 = ⟨some m.blocks.length, static_cast offset p⟩ ∧
    (SharedPtr.ofRawConv m offset p).1 = (SharedPtr.ofRaw m p).1 ∧
    SharedPtr.ofRawConv m 0 p = SharedPtr.ofRaw m p := by
  refine ⟨rfl, rfl, ?_⟩
  cases p <;> rfl

/-- The overloads `reset(p, deleter)` and `reset(p, deleter, alloc)` are the
release of the former block followed by the result of the constructor
`SharedPtr(U* tmp, Deleter, Alloc)`: `ptr` is `static_cast<T*>(p)`.  The overload
`reset(p)` gives the same memory and the same `cb`, with `ptr` the address `p`
itself; the three agree when the `T` subobject is at offset 0 or `p` is null. -/
theorem resetRaw_overloads (m : Memory) (h : SharedPtr) (offset : Nat) (p : Option Nat) :
    SharedPtr.resetRawAlloc m h offset p = SharedPtr.resetRawDeleter m h offset p ∧
    (h.ProveDestroyed = true →
      SharedPtr.resetRawDeleter m h offset p = .ok (SharedPtr.ofRawConv m offset p)) ∧
    (∀ a b, h.cb = some a → m.blocks[a]? = some b → b.allocated = true →
      ∃ m1, Shared_TryToDeleteThisOne m (some a) = .ok m1
        ∧ SharedPtr.resetRawDeleter m h offset p = .ok (SharedPtr.ofRawConv m1 offset p)) ∧
    (SharedPtr.resetRaw m h p).map
        (fun r => (r.1, ({ r.2 with ptr := static_cast offset p } : SharedPtr)))
      = SharedPtr.resetRawDeleter m h offset p ∧
    SharedPtr.resetRawDeleter m h 0 p = SharedPtr.resetRaw m h p ∧
    SharedPtr.resetRawDeleter m h offset none = SharedPtr.resetRaw m h none := by
  refine ⟨rfl, ?_, ?_, ?_, ?_, rfl⟩
  · intro hnull
    simp [SharedPtr.resetRawDeleter, hnull, SharedPtr.ofRawConv, SharedPtr.CreationRegular,
      bind, Except.bind, pure, Except.pure]
  · intro a b hcb hb halloc
    obtain ⟨m1, hrel, _, _, _⟩ := sharedRelease_facts m a b hb halloc
    have hlive : h.ProveDestroyed = false := by simp [SharedPtr.ProveDestroyed, hcb]
    refine ⟨m1, hrel, ?_⟩
    simp [SharedPtr.resetRawDeleter, hlive, hcb, hrel, SharedPtr.ofRawConv,
      SharedPtr.CreationRegular, bind, Except.bind, pure, Except.pure]
  · by_cases hd : h.ProveDestroyed = true
    · simp [SharedPtr.resetRaw, SharedPtr.resetRawDeleter, hd, SharedPtr.CreationRegular,
        bind, Except.bind, pure, Except.pure, Except.map]
    · cases hrel : Shared_TryToDeleteThisOne m h.cb <;>
        simp [SharedPtr.resetRaw, SharedPtr.resetRawDeleter, hd, hrel,
          SharedPtr.CreationRegular, bind, Except.bind, pure, Except.pure, Except.map]
  · have h0 : static_cast 0 p = reinterpret_cast p := by
      cases p <;> rfl
    unfold SharedPtr.resetRaw SharedPtr.resetRawDeleter
    rw [h0]

/-- C17 (failing call): `h.reset(p)` with `p` a `U*` stores
`reinterpret_cast<T*>(p)`, the address of the `U` object, where the raw-pointer
constructor and the overloads `reset(p, deleter)` and `reset(p, deleter, alloc)`
store `static_cast<T*>(p)`, the address of its `T` subobject.  For a `U` object
at address 100 whose base `T` is 4 bytes into it: the constructor leaves `ptr`
104 and a fresh regular block `(1, 0)` holding `p`; `reset(p)` on a null handle
leaves the same block and `ptr` 100, not the state of the constructor; the two
other overloads leave the state of the constructor. -/
theorem reset_one_arg_wrong_ptr :
    SharedPtr.ofRawConv Memory.empty 4 (some 100)
      = (⟨[⟨1, 0, .Regular, some 100, true⟩], []⟩, ⟨some 0, some 104⟩) ∧
    SharedPtr.resetRaw Memory.empty SharedPtr.default (some 100)
      = .ok (⟨[⟨1, 0, .Regular, some 100, true⟩], []⟩, ⟨some 0, some 100⟩) ∧
    SharedPtr.resetRaw Memory.empty SharedPtr.default (some 100)
      ≠ .ok (SharedPtr.ofRawConv Memory.empty 4 (some 100)) ∧
    SharedPtr.resetRawDeleter Memory.empty SharedPtr.default 4 (some 100)
      = .ok (SharedPtr.ofRawConv Memory.empty 4 (some 100)) ∧
    SharedPtr.resetRawAlloc Memory.empty SharedPtr.default 4 (some 100)
      = .ok (SharedPtr.ofRawConv Memory.empty 4 (some 100)) :=
  ⟨rfl, rfl,
    fun hc => by
      have hp : (some 100 : Option Nat) = some 104 :=
        congrArg (fun r => (r.toOption.map (fun x => x.2.ptr)).getD none) hc
      exact absurd hp (by decide),
    rfl, rfl⟩

theorem weakRelease_facts (m : Memory) (a : Nat) (b : BaseControlBlock)
    (hb : m.blocks[a]? = some b) (halloc : b.allocated = true) :
    ∃ m1, Weak_TryToDeleteThisOne m (some a) = .ok m1
      ∧ m1.blocks[a]? = some { b with
          weak_count := size_t_dec b.weak_count
          allocated := !(decide (size_t_dec b.weak_count = 0) && decide (b.shared_count = 0)) }
      ∧ (∀ a1, a1 ≠ a → m1.blocks[a1]? = m.blocks[a1]?)
      ∧ m1.trace = m.trace ++ observingReleaseCalls a b.shared_count (size_t_dec b.weak_count) := by
  refine ⟨_, Weak_TryToDeleteThisOne_live m a b hb halloc, ?_, ?_, ?_⟩
  · rw [weakRelease_eq]
    simp only
    rw [set_getElem?_same _ a b _ hb, halloc]
    by_cases h0 : size_t_dec b.weak_count = 0 <;> by_cases hs0 : b.shared_count = 0 <;>
      simp [h0, hs0]
  · intro a1 hne
    rw [weakRelease_eq]
    simp [List.getElem?_set, Ne.symm hne]
  · rw [weakRelease_eq]

/-- Incrementing `weak_count` of the block at `a` changes no `use_count()`. -/
theorem GiveShared_write_weak (m : Memory) (a n : Nat) (b : BaseControlBlock)
    (hb : m.blocks[a]? = some b) (cb : Option Nat) :
    GiveShared (m.write a { b with weak_count := n }) cb = GiveShared m cb := by
  cases cb with
  | none => rfl
  | some a1 =>
    by_cases hne : a1 = a
    · subst hne
      simp only [GiveShared, Memory.deref, write_same m a1 b _ hb, hb]
      cases b.allocated <;> rfl
    · simp [GiveShared, Memory.deref, write_other m a a1 _ hne]

/-- The common content of C18 for a source whose `cb` is `some a`: the effect of
`cb->IncreaseWeak()` on the block and of destroying the new observer. -/
theorem weak_copy_effect (m : Memory) (a : Nat) (b : BaseControlBlock) (ptr : Option Nat)
    (hb : m.blocks[a]? = some b) (halloc : b.allocated = true) :
    ∃ m1, IncreaseWeak m (some a) = .ok m1
      ∧ m1.blocks[a]? = some { b with weak_count := (b.weak_count + 1) % SIZE_T_MOD }
      ∧ (b.weak_count + 1 < SIZE_T_MOD → GiveWeak m1 (some a) = .ok (b.weak_count + 1))
      ∧ (∀ h : SharedPtr, SharedPtr.use_count m1 h = SharedPtr.use_count m h)
      ∧ (∀ a1, a1 ≠ a → m1.blocks[a1]? = m.blocks[a1]?)
      ∧ m1.trace = m.trace
      ∧ (∀ m2, WeakPtr.destroy m2 ⟨some a, ptr⟩ = Weak_TryToDeleteThisOne m2 (some a))
      ∧ ∃ m2, WeakPtr.destroy m1 ⟨some a, ptr⟩ = .ok m2
          ∧ m2.blocks[a]? = some { b with
              weak_count := size_t_dec ((b.weak_count + 1) % SIZE_T_MOD)
              allocated := !(decide (size_t_dec ((b.weak_count + 1) % SIZE_T_MOD) = 0)
                && decide (b.shared_count = 0)) }
          ∧ m2.trace = m.trace ++ observingReleaseCalls a b.shared_count
              (size_t_dec ((b.weak_count + 1) % SIZE_T_MOD)) := by
  have hb1 := write_same m a b { b with weak_count := size_t_inc b.weak_count } hb
  have hdestroy : ∀ m2, WeakPtr.destroy m2 ⟨some a, ptr⟩ = Weak_TryToDeleteThisOne m2 (some a) := by
    intro m2
    simp [WeakPtr.destroy, WeakPtr.ProveDestroyed]
  refine ⟨_, IncreaseWeak_live m a b hb halloc, hb1, ?_, ?_, ?_, rfl, hdestroy, ?_⟩
  · intro hlt
    rw [GiveWeak_live _ a _ hb1 halloc]
    simp [size_t_inc, Nat.mod_eq_of_lt hlt]
  · intro h
    exact GiveShared_write_weak m a _ b hb h.cb
  · intro a1 hne
    exact write_other m a a1 _ hne
  · obtain ⟨m2, hrel, hblock, _, htrace⟩ := weakRelease_facts _ a _ hb1 halloc
    refine ⟨m2, ?_, hblock, htrace⟩
    rw [hdestroy]
    exact hrel

/-- C18: constructing a `WeakPtr` by copy from a `SharedPtr` `s`, or from a
`WeakPtr` `t`, that refers to the allocated block `a` yields an observer with
the `cb` and `ptr` of its source, raises the `weak_count` of `a` by one (the
`size_t` increment), changes no `shared_count` (so no `use_count()`), no other
block and issues no call.  Destroying that observer is exactly one
`Weak_TryToDeleteThisOne` on `a`. -/
theorem weak_copy_spec (m : Memory) (a : Nat) (b : BaseControlBlock)
    (hb : m.blocks[a]? = some b) (halloc : b.allocated = true) :
    (∀ s : SharedPtr, s.cb = some a →
      ∃ m1 w, WeakPtr.ofShared m s = .ok (m1, w) ∧ w.cb = s.cb ∧ w.ptr = s.ptr
        ∧ m1.blocks[a]? = some { b with weak_count := (b.weak_count + 1) % SIZE_T_MOD }
        ∧ (b.weak_count + 1 < SIZE_T_MOD → GiveWeak m1 (some a) = .ok (b.weak_count + 1))
        ∧ (∀ h : SharedPtr, SharedPtr.use_count m1 h = SharedPtr.use_count m h)
        ∧ (∀ a1, a1 ≠ a → m1.blocks[a1]? = m.blocks[a1]?)
        ∧ m1.trace = m.trace
        ∧ (∀ m2, WeakPtr.destroy m2 w = Weak_TryToDeleteThisOne m2 (some a))
        ∧ ∃ m2, WeakPtr.destroy m1 w = .ok m2
            ∧ m2.trace = m.trace ++ observingReleaseCalls a b.shared_count
                (size_t_dec ((b.weak_count + 1) % SIZE_T_MOD))) ∧
    (∀ t : WeakPtr, t.cb = some a →
      ∃ m1 w, WeakPtr.copy m t = .ok (m1, w) ∧ w.cb = t.cb ∧ w.ptr = t.ptr
        ∧ m1.blocks[a]? = some { b with weak_count := (b.weak_count + 1) % SIZE_T_MOD }
        ∧ (b.weak_count + 1 < SIZE_T_MOD → GiveWeak m1 (some a) = .ok (b.weak_count + 1))
        ∧ (∀ h : SharedPtr, SharedPtr.use_count m1 h = SharedPtr.use_count m h)
        ∧ (∀ a1, a1 ≠ a → m1.blocks[a1]? = m.blocks[a1]?)
        ∧ m1.trace = m.trace
        ∧ (∀ m2, WeakPtr.destroy m2 w = Weak_TryToDeleteThisOne m2 (some a))
        ∧ ∃ m2, WeakPtr.destroy m1 w = .ok m2
            ∧ m2.trace = m.trace ++ observingReleaseCalls a b.shared_count
                (size_t_dec ((b.weak_count + 1) % SIZE_T_MOD))) := by
  constructor
  · intro s hcb
    obtain ⟨m1, hinc, h1, h2, h3, h4, h5, h6, m2, h7, _, h9⟩ :=
      weak_copy_effect m a b s.ptr hb halloc
    refine ⟨m1, ⟨some a, s.ptr⟩, ?_, hcb.symm, rfl, h1, h2, h3, h4, h5, h6, m2, h7, h9⟩
    simp [WeakPtr.ofShared, hcb, hinc, bind, Except.bind, pure, Except.pure]
  · intro t hcb
    obtain ⟨m1, hinc, h1, h2, h3, h4, h5, h6, m2, h7, _, h9⟩ :=
      weak_copy_effect m a b t.ptr hb halloc
    refine ⟨m1, ⟨some a, t.ptr⟩, ?_, hcb.symm, rfl, h1, h2, h3, h4, h5, h6, m2, h7, h9⟩
    simp [WeakPtr.copy, hcb, hinc, bind, Except.bind, pure, Except.pure]

/-- Witness for C18: observers copied from the owner and from the observer of
the block at address `0` of `memTwoOwners`. -/
theorem weak_copy_spec_witness :
    (∃ m1 w, WeakPtr.ofShared memTwoOwners sharedAtZero = .ok (m1, w)
        ∧ w.cb = sharedAtZero.cb ∧ w.ptr = sharedAtZero.ptr
        ∧ m1.blocks[0]? = some ⟨2, (1 + 1) % SIZE_T_MOD, .Regular, some 7, true⟩
        ∧ (1 + 1 < SIZE_T_MOD → GiveWeak m1 (some 0) = .ok (1 + 1))
        ∧ (∀ h : SharedPtr, SharedPtr.use_count m1 h = SharedPtr.use_count memTwoOwners h)
        ∧ (∀ a1, a1 ≠ 0 → m1.blocks[a1]? = memTwoOwners.blocks[a1]?)
        ∧ m1.trace = memTwoOwners.trace
        ∧ (∀ m2, WeakPtr.destroy m2 w = Weak_TryToDeleteThisOne m2 (some 0))
        ∧ ∃ m2, WeakPtr.destroy m1 w = .ok m2
            ∧ m2.trace = memTwoOwners.trace ++ observingReleaseCalls 0 2
                (size_t_dec ((1 + 1) % SIZE_T_MOD))) ∧
    (∃ m1 w, WeakPtr.copy memTwoOwners weakAtZero = .ok (m1, w)
        ∧ w.cb = weakAtZero.cb ∧ w.ptr = weakAtZero.ptr
        ∧ m1.blocks[0]? = some ⟨2, (1 + 1) % SIZE_T_MOD, .Regular, some 7, true⟩
        ∧ (1 + 1 < SIZE_T_MOD → GiveWeak m1 (some 0) = .ok (1 + 1))
        ∧ (∀ h : SharedPtr, SharedPtr.use_count m1 h = SharedPtr.use_count memTwoOwners h)
        ∧ (∀ a1, a1 ≠ 0 → m1.blocks[a1]? = memTwoOwners.blocks[a1]?)
        ∧ m1.trace = memTwoOwners.trace
        ∧ (∀ m2, WeakPtr.destroy m2 w = Weak_TryToDeleteThisOne m2 (some 0))
        ∧ ∃ m2, WeakPtr.destroy m1 w = .ok m2
            ∧ m2.trace = memTwoOwners.trace ++ observingReleaseCalls 0 2
                (size_t_dec ((1 + 1) % SIZE_T_MOD))) :=
  have h := weak_copy_spec memTwoOwners 0 ⟨2, 1, .Regular, some 7, true⟩ rfl rfl
  ⟨h.1 sharedAtZero rfl, h.2 weakAtZero rfl⟩

theorem destroy_live (m : Memory) (a : Nat) (b : BaseControlBlock) (ptr : Option Nat)
    (hb : m.blocks[a]? = some b) (halloc : b.allocated = true) :
    ∃ m1, SharedPtr.destroy m ⟨some a, ptr⟩ = .ok (m1, SharedPtr.default)
      ∧ m1.blocks[a]? = some { b with
          shared_count := size_t_dec b.shared_count
          allocated := !(decide (size_t_dec b.shared_count = 0) && decide (b.weak_count = 0)) }
      ∧ m1.trace = m.trace ++ owningReleaseCalls a (size_t_dec b.shared_count) b.weak_count := by
  obtain ⟨m1, hrel, hblock, _, htrace⟩ := sharedRelease_facts m a b hb halloc
  refine ⟨m1, ?_, hblock, htrace⟩
  simp [SharedPtr.destroy, SharedPtr.ProveDestroyed, hrel, SharedPtr.default,
    bind, Except.bind, pure, Except.pure]

/-- C14: the life cycle of a handle `p` returned by `makeShared` /
`allocateShared` when the constructor does not throw, from any memory.  The
inline block is created at a fresh address with counters `(0, 0)`; on return
`p.use_count()` is `1`; after copy-constructing `q` from `p` both report `2`;
after destroying `q`, `p.use_count()` is `1` and nothing has been called; after
destroying `p` the calls issued are exactly `UseDeleter` (the in-place
destructor) followed by `Clean`, and the block is deallocated. -/
theorem makeShared_lifecycle (m : Memory) :
    run World.empty makeSharedLifetime
      = .ok ⟨⟨[⟨0, 0, .MakeShared, some 0, false⟩], [.UseDeleter 0, .Clean 0]⟩,
          [none, none], []⟩ ∧
    ∃ m1 p m2 q m3 m4,
      (allocateShared.construct m false).2 = m.blocks.length
      ∧ (allocateShared.construct m false).1.blocks[m.blocks.length]?
          = some ⟨0, 0, .MakeShared, some m.blocks.length, true⟩
      ∧ m.blocks[m.blocks.length]? = none
      ∧ makeShared m false = .ok (m1, p) ∧ allocateShared m false = .ok (m1, p)
      ∧ p = ⟨some m.blocks.length, some m.blocks.length⟩
      ∧ SharedPtr.use_count m1 p = .ok 1 ∧ GiveWeak m1 p.cb = .ok 0
      ∧ SharedPtr.copy m1 p = .ok (m2, q) ∧ q = p
      ∧ SharedPtr.use_count m2 p = .ok 2 ∧ SharedPtr.use_count m2 q = .ok 2
      ∧ SharedPtr.destroy m2 q = .ok (m3, SharedPtr.default)
      ∧ SharedPtr.use_count m3 p = .ok 1 ∧ m3.trace = m.trace
      ∧ SharedPtr.destroy m3 p = .ok (m4, SharedPtr.default)
      ∧ m4.trace = m.trace ++ [.UseDeleter m.blocks.length, .Clean m.blocks.length]
      ∧ m4.blocks[m.blocks.length]?
          = some ⟨0, 0, .MakeShared, some m.blocks.length, false⟩ := by
  have hinc0 : size_t_inc 0 = 1 := by decide
  have hinc1 : size_t_inc 1 = 2 := by decide
  have hdec2 : size_t_dec 2 = 1 := by decide
  have hdec1 : size_t_dec 1 = 0 := by decide
  have hcell0 : (allocateShared.construct m false).1.blocks[m.blocks.length]?
      = some ⟨0, 0, .MakeShared, some m.blocks.length, true⟩ := by
    simp [allocateShared.construct, Memory.allocate]
  have hmake : allocateShared m false
      = .ok ((allocateShared.construct m false).1.write m.blocks.length
          ⟨1, 0, .MakeShared, some m.blocks.length, true⟩,
          ⟨some m.blocks.length, some m.blocks.length⟩) := by
    show SharedPtr.ofBlock (allocateShared.construct m false).1 (some m.blocks.length)
      (some m.blocks.length) = _
    unfold SharedPtr.ofBlock
    rw [IncreaseShared_live _ _ _ hcell0 rfl]
    simp only [hinc0]
    rfl
  have hcell1 := write_same (allocateShared.construct m false).1 m.blocks.length _
    ⟨1, 0, .MakeShared, some m.blocks.length, true⟩ hcell0
  have hcopy := IncreaseShared_live _ _ _ hcell1 rfl
  simp only [hinc1] at hcopy
  have hcell2 := write_same _ m.blocks.length _
    ⟨2, 0, .MakeShared, some m.blocks.length, true⟩ hcell1
  obtain ⟨m3, hd3, hcell3, htrace3⟩ := destroy_live _ m.blocks.length _
    (some m.blocks.length) hcell2 rfl
  simp only [hdec2] at hcell3 htrace3
  have hcell3' : m3.blocks[m.blocks.length]?
      = some ⟨1, 0, .MakeShared, some m.blocks.length, true⟩ := by
    rw [hcell3]
    rfl
  obtain ⟨m4, hd4, hcell4, htrace4⟩ := destroy_live m3 m.blocks.length _
    (some m.blocks.length) hcell3' rfl
  simp only [hdec1] at hcell4 htrace4
  refine ⟨rfl, _, _, _, _, m3, m4, rfl, hcell0, by simp, hmake, hmake, rfl, ?_, ?_, ?_, rfl,
    ?_, ?_, hd3, ?_, ?_, hd4, ?_, ?_⟩
  · exact GiveShared_live _ _ _ hcell1 rfl
  · exact GiveWeak_live _ _ _ hcell1 rfl
  · simp [SharedPtr.copy, SharedPtr.ProveDestroyed, hcopy, bind, Except.bind, pure,
      Except.pure]
  · exact GiveShared_live _ _ _ hcell2 rfl
  · exact GiveShared_live _ _ _ hcell2 rfl
  · exact GiveShared_live _ _ _ hcell3' rfl
  · rw [htrace3]
    simp [owningReleaseCalls, Memory.write, allocateShared.construct, Memory.allocate]
  · rw [htrace4, htrace3]
    simp [owningReleaseCalls, Memory.write, allocateShared.construct, Memory.allocate]
  · rw [hcell4]
    rfl

/-- Witness for C19: the block with counters `(1, 1)` of `worldOwnerObserver`. -/
theorem zero_crossing_witness :
    (∃ m1, Shared_TryToDeleteThisOne worldOwnerObserver.mem (some 0) = .ok m1
        ∧ ControlBlockRegular.Shared_TryToDeleteThisOne worldOwnerObserver.mem 0
            ⟨1, 1, .Regular, some 7, true⟩ = m1
        ∧ ControlBlockMakeShared.Shared_TryToDeleteThisOne worldOwnerObserver.mem 0
            ⟨1, 1, .Regular, some 7, true⟩ = m1
        ∧ m1.blocks[0]? = some ⟨1 - 1, 1, .Regular, some 7,
            !(decide (1 = 1) && decide (1 = 0))⟩
        ∧ (∀ a1, a1 ≠ 0 → m1.blocks[a1]? = worldOwnerObserver.mem.blocks[a1]?)
        ∧ m1.trace = worldOwnerObserver.mem.trace ++
            (if 1 = 1 then (if 1 = 0 then [.UseDeleter 0, .Clean 0] else [.UseDeleter 0])
             else [])) ∧
    (∃ m1, Weak_TryToDeleteThisOne worldOwnerObserver.mem (some 0) = .ok m1
        ∧ ControlBlockRegular.Weak_TryToDeleteThisOne worldOwnerObserver.mem 0
            ⟨1, 1, .Regular, some 7, true⟩ = m1
        ∧ ControlBlockMakeShared.Weak_TryToDeleteThisOne worldOwnerObserver.mem 0
            ⟨1, 1, .Regular, some 7, true⟩ = m1
        ∧ m1.blocks[0]? = some ⟨1, 1 - 1, .Regular, some 7,
            !(decide (1 = 1) && decide (1 = 0))⟩
        ∧ (∀ a1, a1 ≠ 0 → m1.blocks[a1]? = worldOwnerObserver.mem.blocks[a1]?)
        ∧ m1.trace = worldOwnerObserver.mem.trace ++
            (if 1 = 1 ∧ 1 = 0 then [.Clean 0] else [])) :=
  have h := zero_crossing worldOwnerObserver.mem 0 1 1 ⟨1, 1, .Regular, some 7, true⟩
    rfl rfl rfl rfl (by decide) (by decide)
  ⟨h.1 (by decide), h.2 (by decide)⟩

theorem observe_getElem? (m1 m2 : Memory) (hobs : m1.observe = m2.observe) (a : Nat) :
    (m1.blocks[a]?).map BaseControlBlock.counters
      = (m2.blocks[a]?).map BaseControlBlock.counters := by
  have h : m1.blocks.map BaseControlBlock.counters = m2.blocks.map BaseControlBlock.counters :=
    congrArg Prod.fst hobs
  rw [← List.getElem?_map, ← List.getElem?_map, h]

theorem observe_set (m1 m2 : Memory) (hobs : m1.observe = m2.observe) (a : Nat)
    (c1 c2 : BaseControlBlock) (hc : c1.counters = c2.counters) (es : List Event) :
    Memory.observe ⟨m1.blocks.set a c1, m1.trace ++ es⟩
      = Memory.observe ⟨m2.blocks.set a c2, m2.trace ++ es⟩ := by
  have h : m1.blocks.map BaseControlBlock.counters = m2.blocks.map BaseControlBlock.counters :=
    congrArg Prod.fst hobs
  have ht : m1.trace = m2.trace := congrArg Prod.snd hobs
  simp only [Memory.observe, List.map_set, h, hc, ht]

theorem deref_observe (m1 m2 : Memory) (hobs : m1.observe = m2.observe) (cb : Option Nat) :
    (∃ e, m1.deref cb = .error e ∧ m2.deref cb = .error e) ∨
    (∃ a b1 b2, m1.deref cb = .ok (a, b1) ∧ m2.deref cb = .ok (a, b2)
      ∧ b1.counters = b2.counters) := by
  cases cb with
  | none => exact Or.inl ⟨_, rfl, rfl⟩
  | some a =>
    have h := observe_getElem? m1 m2 hobs a
    cases h1 : m1.blocks[a]? with
    | none =>
      rw [h1] at h
      cases h2 : m2.blocks[a]? with
      | none => exact Or.inl ⟨.Dangling, by simp [Memory.deref, h1], by simp [Memory.deref, h2]⟩
      | some b2 => rw [h2] at h; simp at h
    | some b1 =>
      rw [h1] at h
      cases h2 : m2.blocks[a]? with
      | none => rw [h2] at h; simp at h
      | some b2 =>
        rw [h2] at h
        simp only [Option.map_some', Option.some.injEq] at h
        have hal : b1.allocated = b2.allocated := congrArg (fun c => c.2.2) h
        cases hb : b1.allocated with
        | false =>
          left
          exact ⟨.Dangling, by simp [Memory.deref, h1, hb], by simp [Memory.deref, h2, ← hal, hb]⟩
        | true =>
          right
          exact ⟨a, b1, b2, by simp [Memory.deref, h1, hb], by simp [Memory.deref, h2, ← hal, hb], h⟩

theorem apply_of_deref_error (m : Memory) (cb : Option Nat) (e : Fault)
    (h : m.deref cb = .error e) (c : BlockCall) : c.apply m cb = .error e := by
  cases c <;>
    simp [BlockCall.apply, IncreaseShared, IncreaseWeak, Shared_TryToDeleteThisOne,
      Weak_TryToDeleteThisOne, h, bind, Except.bind]

theorem apply_of_deref_ok (m : Memory) (cb : Option Nat) (a : Nat) (b : BaseControlBlock)
    (h : m.deref cb = .ok (a, b)) (c : BlockCall) :
    c.apply m cb = .ok (match c with
      | .IncreaseShared =>
        ⟨m.blocks.set a { b with shared_count := size_t_inc b.shared_count }, m.trace ++ []⟩
      | .IncreaseWeak =>
        ⟨m.blocks.set a { b with weak_count := size_t_inc b.weak_count }, m.trace ++ []⟩
      | .Shared_TryToDeleteThisOne =>
        ⟨m.blocks.set a { b with
            shared_count := size_t_dec b.shared_count
            allocated := if size_t_dec b.shared_count = 0 ∧ b.weak_count = 0 then false
              else b.allocated },
          m.trace ++ owningReleaseCalls a (size_t_dec b.shared_count) b.weak_count⟩
      | .Weak_TryToDeleteThisOne =>
        ⟨m.blocks.set a { b with
            weak_count := size_t_dec b.weak_count
            allocated := if size_t_dec b.weak_count = 0 ∧ b.shared_count = 0 then false
              else b.allocated },
          m.trace ++ observingReleaseCalls a b.shared_count (size_t_dec b.weak_count)⟩) := by
  rcases b with ⟨sc, wc, k, o, al⟩
  cases c
  · cases k <;>
      simp [BlockCall.apply, IncreaseShared, h, bind, Except.bind, pure, Except.pure,
        ControlBlockRegular.IncreaseShared, ControlBlockMakeShared.IncreaseShared, Memory.write]
  · cases k <;>
      simp [BlockCall.apply, IncreaseWeak, h, bind, Except.bind, pure, Except.pure,
        ControlBlockRegular.IncreaseWeak, ControlBlockMakeShared.IncreaseWeak, Memory.write]
  · have hr := sharedRelease_eq m a ⟨sc, wc, k, o, al⟩
    have hm : ControlBlockMakeShared.Shared_TryToDeleteThisOne m a ⟨sc, wc, k, o, al⟩
        = ControlBlockRegular.Shared_TryToDeleteThisOne m a ⟨sc, wc, k, o, al⟩ := rfl
    cases k <;>
      simp only [BlockCall.apply, Shared_TryToDeleteThisOne, h, bind, Except.bind, pure,
        Except.pure, hm, hr]
  · have hr := weakRelease_eq m a ⟨sc, wc, k, o, al⟩
    have hm : ControlBlockMakeShared.Weak_TryToDeleteThisOne m a ⟨sc, wc, k, o, al⟩
        = ControlBlockRegular.Weak_TryToDeleteThisOne m a ⟨sc, wc, k, o, al⟩ := rfl
    cases k <;>
      simp only [BlockCall.apply, Weak_TryToDeleteThisOne, h, bind, Except.bind, pure,
        Except.pure, hm, hr]

theorem apply_observe (m1 m2 : Memory) (hobs : m1.observe = m2.observe) (cb : Option Nat)
    (c : BlockCall) :
    (∃ e, c.apply m1 cb = .error e ∧ c.apply m2 cb = .error e) ∨
    (∃ r1 r2, c.apply m1 cb = .ok r1 ∧ c.apply m2 cb = .ok r2 ∧ r1.observe = r2.observe) := by
  rcases deref_observe m1 m2 hobs cb with ⟨e, h1, h2⟩ | ⟨a, b1, b2, h1, h2, hc⟩
  · exact Or.inl ⟨e, apply_of_deref_error m1 cb e h1 c, apply_of_deref_error m2 cb e h2 c⟩
  · right
    refine ⟨_, _, apply_of_deref_ok m1 cb a b1 h1 c, apply_of_deref_ok m2 cb a b2 h2 c, ?_⟩
    have hs : b1.shared_count = b2.shared_count := congrArg (fun c => c.1) hc
    have hw : b1.weak_count = b2.weak_count := congrArg (fun c => c.2.1) hc
    have hal : b1.allocated = b2.allocated := congrArg (fun c => c.2.2) hc
    cases c <;>
      · simp only [hs, hw]
        apply observe_set m1 m2 hobs
        simp [BaseControlBlock.counters, hs, hw, hal]

theorem applyCalls_observe (cb : Option Nat) (cs : List BlockCall) :
    ∀ m1 m2 : Memory, m1.observe = m2.observe →
      (applyCalls m1 cb cs).map Memory.observe = (applyCalls m2 cb cs).map Memory.observe := by
  induction cs with
  | nil =>
    intro m1 m2 hobs
    simp [applyCalls, pure, Except.pure, Except.map, hobs]
  | cons c cs ih =>
    intro m1 m2 hobs
    rcases apply_observe m1 m2 hobs cb c with ⟨e, h1, h2⟩ | ⟨r1, r2, h1, h2, hr⟩
    · simp [applyCalls, h1, h2, bind, Except.bind, Except.map]
    · have := ih r1 r2 hr
      simpa [applyCalls, h1, h2, bind, Except.bind] using this

/-- C26: the regular and the inline control block are observationally
equivalent on the counters.  Take a `ControlBlockRegular` in one memory and a
`ControlBlockMakeShared` at the same address in another, the two memories
agreeing on every block's `(shared_count, weak_count)`, on which blocks are
allocated and on the call log so far.  Then every sequence of `IncreaseShared`,
`IncreaseWeak`, `Shared_TryToDeleteThisOne` and `Weak_TryToDeleteThisOne` calls
through that address has the same outcome on both: the same counters, the same
sequence of `UseDeleter` and `Clean` events, the same blocks deallocated (or
the same fault, when a call goes through a block that `Clean` has already
deallocated).  The four member functions of the two variants coincide. -/
theorem variants_equivalent (m1 m2 : Memory) (a : Nat) (b1 b2 : BaseControlBlock)
    (_h1 : m1.blocks[a]? = some b1) (_h2 : m2.blocks[a]? = some b2)
    (_hk1 : b1.kind = .Regular) (_hk2 : b2.kind = .MakeShared)
    (hobs : m1.observe = m2.observe) (cs : List BlockCall) :
    (applyCalls m1 (some a) cs).map Memory.observe
      = (applyCalls m2 (some a) cs).map Memory.observe ∧
    ControlBlockMakeShared.IncreaseShared = ControlBlockRegular.IncreaseShared ∧
    ControlBlockMakeShared.IncreaseWeak = ControlBlockRegular.IncreaseWeak ∧
    ControlBlockMakeShared.Shared_TryToDeleteThisOne
      = ControlBlockRegular.Shared_TryToDeleteThisOne ∧
    ControlBlockMakeShared.Weak_TryToDeleteThisOne
      = ControlBlockRegular.Weak_TryToDeleteThisOne :=
  ⟨applyCalls_observe (some a) cs m1 m2 hobs, rfl, rfl, rfl, rfl⟩

/-- Witness for C26: a regular and an inline block with counters `(2, 1)`, taken
through both zero crossings. -/
theorem variants_equivalent_witness :
    ((applyCalls memRegular (some 0) callsThroughZero).map Memory.observe
      = (applyCalls memInline (some 0) callsThroughZero).map Memory.observe ∧
    ControlBlockMakeShared.IncreaseShared = ControlBlockRegular.IncreaseShared ∧
    ControlBlockMakeShared.IncreaseWeak = ControlBlockRegular.IncreaseWeak ∧
    ControlBlockMakeShared.Shared_TryToDeleteThisOne
      = ControlBlockRegular.Shared_TryToDeleteThisOne ∧
    ControlBlockMakeShared.Weak_TryToDeleteThisOne
      = ControlBlockRegular.Weak_TryToDeleteThisOne) ∧
    (applyCalls memRegular (some 0) callsThroughZero).map Memory.observe
      = .ok ([(0, 0, false)], [.UseDeleter 0, .Clean 0]) ∧
    (applyCalls memInline (some 0) callsThroughZero).map Memory.observe
      = .ok ([(0, 0, false)], [.UseDeleter 0, .Clean 0]) :=
  ⟨variants_equivalent memRegular memInline 0 ⟨2, 1, .Regular, some 7, true⟩
      ⟨2, 1, .MakeShared, some 0, true⟩ rfl rfl rfl rfl rfl callsThroughZero, rfl, rfl⟩

end SharedPtrModel

namespace DequeModel
/-! ## Deque: iterator arithmetic -/

theorem locate_ok (tables : List (Option (List Nat))) (it r : common_iterator)
    (h : it.locate tables = .ok r) :
    r.index_ = it.index_ ∧ r.out_index_ = it.out_index_ ∧ r.out_it_ = it.out_it_
      ∧ r.it_ = slotAddr tables it.out_it_ it.out_index_ it.index_ := by
  unfold common_iterator.locate at h
  split at h
  · rename_i a ha
    injection h with h
    subst h
    exact ⟨rfl, rfl, rfl, ha.symm⟩
  · cases h

theorem slotAddr_eq (tables : List (Option (List Nat))) (t : Nat) (table : List Nat)
    (htab : tables[t]? = some (some table)) (o i : Int)
    (ho : 0 ≤ o) (hi0 : 0 ≤ i) (hi1 : i < 32) :
    slotAddr tables (some t) o i = addrAt table (32 * o + i).toNat := by
  have h1 : (32 * o + i).toNat / 32 = o.toNat := by omega
  have h2 : (32 * o + i).toNat % 32 = i.toNat := by omega
  simp [slotAddr, htab, ho, hi0, addrAt, h1, h2]

/-- The read `out_it_[out_index_]` inside a live table is defined. -/
theorem locate_defined (tables : List (Option (List Nat))) (t : Nat) (table : List Nat)
    (htab : tables[t]? = some (some table)) (it : common_iterator)
    (ho : it.out_it_ = some t) (h0 : 0 ≤ it.out_index_) (h1 : it.out_index_ < table.length)
    (hi : 0 ≤ it.index_) : ∃ r, it.locate tables = .ok r := by
  have hlt : it.out_index_.toNat < table.length := by omega
  unfold common_iterator.locate
  simp [slotAddr, ho, htab, h0, hi, List.getElem?_eq_getElem hlt]

theorem plusBody_spec (tables : List (Option (List Nat))) (it r : common_iterator) (n : Int)
    (hr : it.plusBody tables n = .ok r)
    (hi0 : 0 ≤ it.index_) (hi1 : it.index_ < 32)
    (hn0 : 0 ≤ n) (hn1 : n < 2147483648) :
    0 ≤ r.index_ ∧ r.index_ < 32 ∧ r.pos = it.pos + n ∧ r.out_it_ = it.out_it_
      ∧ r.it_ = slotAddr tables it.out_it_ r.out_index_ r.index_ := by
  unfold common_iterator.plusBody at hr
  simp only at hr
  split_ifs at hr with hc <;>
  · obtain ⟨e1, e2, e3, e4⟩ := locate_ok _ _ _ hr
    simp only at e1 e2 e3 e4
    have hpr : r.pos = 32 * r.out_index_ + r.index_ := rfl
    have hpi : it.pos = 32 * it.out_index_ + it.index_ := rfl
    refine ⟨?_, ?_, ?_, e3, by rw [e1, e2]; exact e4⟩ <;>
    · unfold toInt toSize size_of_chunk_ at *
      omega

theorem minusBody_spec (tables : List (Option (List Nat))) (it r : common_iterator) (n : Int)
    (hr : it.minusBody tables n = .ok r)
    (hi0 : 0 ≤ it.index_) (hi1 : it.index_ < 32)
    (hn0 : 0 ≤ n) (hn1 : n < 2147483648)
    (ho1 : it.out_index_ < 2147483648) (hq0 : -2147483648 ≤ (it.pos - n) / 32) :
    0 ≤ r.index_ ∧ r.index_ < 32 ∧ r.pos = it.pos - n ∧ r.out_it_ = it.out_it_
      ∧ r.it_ = slotAddr tables it.out_it_ r.out_index_ r.index_ := by
  unfold common_iterator.minusBody at hr
  simp only at hr
  split_ifs at hr with hc <;>
  · obtain ⟨e1, e2, e3, e4⟩ := locate_ok _ _ _ hr
    simp only at e1 e2 e3 e4
    have hpr : r.pos = 32 * r.out_index_ + r.index_ := rfl
    have hpi : it.pos = 32 * it.out_index_ + it.index_ := rfl
    refine ⟨?_, ?_, ?_, e3, by rw [e1, e2]; exact e4⟩ <;>
    · unfold toInt toSize size_of_chunk_ at *
      omega

theorem addAssign_spec (tables : List (Option (List Nat))) (it r : common_iterator) (n : Int)
    (hr : it.addAssign tables n = .ok r)
    (hi0 : 0 ≤ it.index_) (hi1 : it.index_ < 32)
    (hn0 : -2147483648 < n) (hn1 : n < 2147483648)
    (ho1 : it.out_index_ < 2147483648) (hq0 : -2147483648 ≤ (it.pos + n) / 32) :
    0 ≤ r.index_ ∧ r.index_ < 32 ∧ r.pos = it.pos + n ∧ r.out_it_ = it.out_it_
      ∧ r.it_ = slotAddr tables it.out_it_ r.out_index_ r.index_ := by
  unfold common_iterator.addAssign at hr
  by_cases hneg : n < 0
  · rw [if_pos hneg] at hr
    obtain ⟨h0, h1, hp, hptr⟩ := minusBody_spec tables it r (-n) hr hi0 hi1 (by omega)
      (by omega) ho1 (by rw [sub_neg_eq_add]; exact hq0)
    exact ⟨h0, h1, by omega, hptr⟩
  · rw [if_neg hneg] at hr
    exact plusBody_spec tables it r n hr hi0 hi1 (by omega) hn1

theorem subAssign_spec (tables : List (Option (List Nat))) (it r : common_iterator) (n : Int)
    (hr : it.subAssign tables n = .ok r)
    (hi0 : 0 ≤ it.index_) (hi1 : it.index_ < 32)
    (hn0 : -2147483648 < n) (hn1 : n < 2147483648)
    (ho1 : it.out_index_ < 2147483648) (hq0 : -2147483648 ≤ (it.pos - n) / 32) :
    0 ≤ r.index_ ∧ r.index_ < 32 ∧ r.pos = it.pos - n ∧ r.out_it_ = it.out_it_
      ∧ r.it_ = slotAddr tables it.out_it_ r.out_index_ r.index_ := by
  unfold common_iterator.subAssign at hr
  by_cases hneg : n < 0
  · rw [if_pos hneg] at hr
    obtain ⟨h0, h1, hp, hptr⟩ := plusBody_spec tables it r (-n) hr hi0 hi1 (by omega)
      (by omega)
    exact ⟨h0, h1, by omega, hptr⟩
  · rw [if_neg hneg] at hr
    exact minusBody_spec tables it r n hr hi0 hi1 (by omega) hn1 ho1 hq0

/-- The non-negative branch of `operator+=` returns when the chunk index it
reaches is inside the live table of the iterator. -/
theorem plusBody_defined (tables : List (Option (List Nat))) (t : Nat) (table : List Nat)
    (htab : tables[t]? = some (some table)) (hcap : table.length < 2147483648)
    (it : common_iterator) (ho : it.out_it_ = some t)
    (hi0 : 0 ≤ it.index_) (hi1 : it.index_ < 32) (n : Int)
    (hn0 : 0 ≤ n) (hn1 : n < 2147483648)
    (hq0 : 0 ≤ it.pos + n) (hq1 : it.pos + n < 32 * table.length) :
    ∃ r, it.plusBody tables n = .ok r := by
  unfold common_iterator.pos at hq0 hq1
  unfold common_iterator.plusBody
  simp only
  split_ifs with hc <;>
  · refine locate_defined tables t table htab _ (by exact ho) ?_ ?_ ?_ <;>
    · simp only
      unfold toInt toSize size_of_chunk_ at *
      omega

/-- The non-negative branch of `operator-=` returns when the chunk index it
reaches is inside the live table of the iterator. -/
theorem minusBody_defined (tables : List (Option (List Nat))) (t : Nat) (table : List Nat)
    (htab : tables[t]? = some (some table)) (hcap : table.length < 2147483648)
    (it : common_iterator) (ho : it.out_it_ = some t)
    (hi0 : 0 ≤ it.index_) (hi1 : it.index_ < 32) (n : Int)
    (hn0 : 0 ≤ n) (hn1 : n < 2147483648)
    (hq0 : 0 ≤ it.pos - n) (hq1 : it.pos - n < 32 * table.length) :
    ∃ r, it.minusBody tables n = .ok r := by
  unfold common_iterator.pos at hq0 hq1
  unfold common_iterator.minusBody
  simp only
  split_ifs with hc <;>
  · refine locate_defined tables t table htab _ (by exact ho) ?_ ?_ ?_ <;>
    · simp only
      unfold toInt toSize size_of_chunk_ at *
      omega

/-- An iterator with `index_` in `[0, 32)` whose `out_it_` is a live table,
moved by `n` to a position inside that table: `operator+=` returns an iterator of
the table, `n` positions further. -/
theorem addAssign_inside (tables : List (Option (List Nat))) (t : Nat) (table : List Nat)
    (htab : tables[t]? = some (some table)) (hcap : table.length < 2147483648)
    (it : common_iterator) (ho : it.out_it_ = some t)
    (hi0 : 0 ≤ it.index_) (hi1 : it.index_ < 32)
    (hout1 : it.out_index_ < 2147483648) (n : Int)
    (hn0 : -2147483648 < n) (hn1 : n < 2147483648)
    (hq0 : 0 ≤ it.pos + n) (hq1 : it.pos + n < 32 * table.length) :
    ∃ r, it.addAssign tables n = .ok r ∧ r.Valid t table ∧ r.pos = it.pos + n := by
  obtain ⟨r, hr⟩ : ∃ r, it.addAssign tables n = .ok r := by
    unfold common_iterator.addAssign
    by_cases hneg : n < 0
    · rw [if_pos hneg]
      exact minusBody_defined tables t table htab hcap it ho hi0 hi1 (-n)
        (by omega) (by omega) (by omega) (by omega)
    · rw [if_neg hneg]
      exact plusBody_defined tables t table htab hcap it ho hi0 hi1 n
        (by omega) hn1 hq0 hq1
  obtain ⟨h0, h1, hp, p1, p2⟩ := addAssign_spec tables it r n hr hi0 hi1 hn0 hn1 hout1
    (by omega)
  have hpos : r.pos = 32 * r.out_index_ + r.index_ := rfl
  have ho0 : 0 ≤ r.out_index_ := by omega
  refine ⟨r, hr, ⟨h0, h1, ho0, by omega, by rw [p1, ho], ?_⟩, hp⟩
  rw [p2, ho, slotAddr_eq tables t table htab _ _ ho0 h0 h1, ← hpos]

/-- The same for `operator-=`. -/
theorem subAssign_inside (tables : List (Option (List Nat))) (t : Nat) (table : List Nat)
    (htab : tables[t]? = some (some table)) (hcap : table.length < 2147483648)
    (it : common_iterator) (ho : it.out_it_ = some t)
    (hi0 : 0 ≤ it.index_) (hi1 : it.index_ < 32)
    (hout1 : it.out_index_ < 2147483648) (n : Int)
    (hn0 : -2147483648 < n) (hn1 : n < 2147483648)
    (hq0 : 0 ≤ it.pos - n) (hq1 : it.pos - n < 32 * table.length) :
    ∃ r, it.subAssign tables n = .ok r ∧ r.Valid t table ∧ r.pos = it.pos - n := by
  obtain ⟨r, hr⟩ : ∃ r, it.subAssign tables n = .ok r := by
    unfold common_iterator.subAssign
    by_cases hneg : n < 0
    · rw [if_pos hneg]
      exact plusBody_defined tables t table htab hcap it ho hi0 hi1 (-n)
        (by omega) (by omega) (by omega) (by omega)
    · rw [if_neg hneg]
      exact minusBody_defined tables t table htab hcap it ho hi0 hi1 n
        (by omega) hn1 hq0 hq1
  obtain ⟨h0, h1, hp, p1, p2⟩ := subAssign_spec tables it r n hr hi0 hi1 hn0 hn1 hout1
    (by omega)
  have hpos : r.pos = 32 * r.out_index_ + r.index_ := rfl
  have ho0 : 0 ≤ r.out_index_ := by omega
  refine ⟨r, hr, ⟨h0, h1, ho0, by omega, by rw [p1, ho], ?_⟩, hp⟩
  rw [p2, ho, slotAddr_eq tables t table htab _ _ ho0 h0 h1, ← hpos]

theorem diff_spec (a b : common_iterator)
    (hd0 : -2147483648 ≤ a.pos - b.pos) (hd1 : a.pos - b.pos < 2147483648) :
    a.diff b = a.pos - b.pos := by
  unfold common_iterator.pos at *
  unfold common_iterator.diff toInt toSize size_of_chunk_
  omega

theorem lt_spec (a b : common_iterator)
    (ha0 : 0 ≤ a.index_) (ha1 : a.index_ < 32) (hb0 : 0 ≤ b.index_) (hb1 : b.index_ < 32) :
    a.lt b = true ↔ a.pos < b.pos := by
  unfold common_iterator.pos common_iterator.lt
  split_ifs with h
  · rw [decide_eq_true_iff, h]
    omega
  · rw [decide_eq_true_iff]
    omega

theorem coords_of_pos (a b : common_iterator)
    (ha0 : 0 ≤ a.index_) (ha1 : a.index_ < 32) (hb0 : 0 ≤ b.index_) (hb1 : b.index_ < 32)
    (h : a.pos = b.pos) : a.index_ = b.index_ ∧ a.out_index_ = b.out_index_ := by
  unfold common_iterator.pos at h
  omega

/-- Moving a valid iterator by `n` inside the table: `operator+=` returns a valid
iterator `n` positions further. -/
theorem addAssign_valid (tables : List (Option (List Nat))) (t : Nat) (table : List Nat)
    (htab : tables[t]? = some (some table)) (hcap : table.length < 2147483648)
    (it : common_iterator) (hv : it.Valid t table) (n : Int)
    (hn0 : -2147483648 < n) (hn1 : n < 2147483648)
    (hq0 : 0 ≤ it.pos + n) (hq1 : it.pos + n < 32 * table.length) :
    ∃ r, it.addAssign tables n = .ok r ∧ r.Valid t table ∧ r.pos = it.pos + n :=
  addAssign_inside tables t table htab hcap it hv.out_it hv.index_lo hv.index_hi
    (by have := hv.out_hi; omega) n hn0 hn1 hq0 hq1

theorem subAssign_valid (tables : List (Option (List Nat))) (t : Nat) (table : List Nat)
    (htab : tables[t]? = some (some table)) (hcap : table.length < 2147483648)
    (it : common_iterator) (hv : it.Valid t table) (n : Int)
    (hn0 : -2147483648 < n) (hn1 : n < 2147483648)
    (hq0 : 0 ≤ it.pos - n) (hq1 : it.pos - n < 32 * table.length) :
    ∃ r, it.subAssign tables n = .ok r ∧ r.Valid t table ∧ r.pos = it.pos - n :=
  subAssign_inside tables t table htab hcap it hv.out_it hv.index_lo hv.index_hi
    (by have := hv.out_hi; omega) n hn0 hn1 hq0 hq1

/-! ## Deque: slots and linear positions -/

theorem cell_put_same {α : Type} (h : Heap α) (a : Nat × Nat) (x y : Option α)
    (hy : h.cell a = some y) : (h.put a x).cell a = some x := by
  unfold Heap.cell at hy ⊢
  unfold Heap.put
  cases hc : h.chunks[a.1]? with
  | none => rw [hc] at hy; cases hy
  | some chunk =>
    rw [hc] at hy
    have h1 : a.1 < h.chunks.length := (List.getElem?_eq_some.mp hc).1
    have h2 : a.2 < chunk.length := (List.getElem?_eq_some.mp hy).1
    simp [List.getElem?_set, h1, List.getD, hc, h2]

theorem cell_put_other {α : Type} (h : Heap α) (a b : Nat × Nat) (x : Option α)
    (hab : a ≠ b) : (h.put a x).cell b = h.cell b := by
  unfold Heap.cell Heap.put
  simp only
  by_cases h1 : a.1 = b.1
  · cases hc : h.chunks[a.1]? with
    | none =>
      have : h.chunks.length ≤ a.1 := List.getElem?_eq_none_iff.mp hc
      rw [List.set_eq_of_length_le this]
    | some chunk =>
      have hlt : a.1 < h.chunks.length := (List.getElem?_eq_some.mp hc).1
      have h2 : a.2 ≠ b.2 := fun h2 => hab (Prod.ext h1 h2)
      rw [← h1, hc]
      simp [List.getElem?_set, hlt, List.getD, hc, h2]
  · rw [List.getElem?_set_ne h1]

theorem put_chunk_len {α : Type} (h : Heap α) (a : Nat × Nat) (x : Option α) (c : Nat) :
    ((h.put a x).chunks[c]?).map List.length = (h.chunks[c]?).map List.length := by
  unfold Heap.put
  simp only
  by_cases h1 : a.1 = c
  · subst h1
    cases hc : h.chunks[a.1]? with
    | none =>
      have : h.chunks.length ≤ a.1 := List.getElem?_eq_none_iff.mp hc
      rw [List.set_eq_of_length_le this, hc]
    | some chunk =>
      have hlt : a.1 < h.chunks.length := (List.getElem?_eq_some.mp hc).1
      simp [List.getElem?_set, hlt, List.getD, hc]
  · rw [List.getElem?_set_ne h1]

theorem addrAt_inj (table : List Nat) (hnd : table.Nodup) (p q : Nat) (a : Nat × Nat)
    (hp : addrAt table p = some a) (hq : addrAt table q = some a) : p = q := by
  unfold addrAt at hp hq
  cases h1 : table[p / 32]? with
  | none => rw [h1] at hp; cases hp
  | some c1 =>
    cases h2 : table[q / 32]? with
    | none => rw [h2] at hq; cases hq
    | some c2 =>
      rw [h1] at hp
      rw [h2] at hq
      simp only [Option.map_some', Option.some.injEq] at hp hq
      have e1 : c1 = c2 := by rw [← hq] at hp; exact (Prod.mk.inj hp).1
      have e2 : p % 32 = q % 32 := by rw [← hq] at hp; exact (Prod.mk.inj hp).2
      have hlt : p / 32 < table.length := (List.getElem?_eq_some.mp h1).1
      have e3 : p / 32 = q / 32 :=
        List.getElem?_inj hlt hnd (by rw [h1, h2, e1])
      omega

/-- Writing the slot at position `p` changes the view at `p` and nowhere else. -/
theorem view_put {α : Type} (h : Heap α) (table : List Nat) (hnd : table.Nodup)
    (p : Nat) (a : Nat × Nat) (x y : Option α)
    (hp : addrAt table p = some a) (hy : h.cell a = some y) (q : Nat) :
    (h.put a x).view table q = if q = p then some x else h.view table q := by
  unfold Heap.view
  by_cases hqp : q = p
  · subst hqp
    rw [hp, if_pos rfl]
    exact cell_put_same h a x y hy
  · rw [if_neg hqp]
    cases hq : addrAt table q with
    | none => rfl
    | some b =>
      have hab : a ≠ b := by
        intro hab
        subst hab
        exact hqp (addrAt_inj table hnd q p a hq hp)
      exact cell_put_other h a b x hab

/-- Every position inside a table of 32-slot chunks addresses a slot. -/
theorem addrAt_some {α : Type} (h : Heap α) (table : List Nat)
    (hch : ∀ c ∈ table, (h.chunks[c]?).map List.length = some 32)
    (p : Nat) (hp : p < 32 * table.length) :
    ∃ a y, addrAt table p = some a ∧ h.cell a = some y ∧ h.view table p = some y := by
  have hlt : p / 32 < table.length := by omega
  have hc := hch (table[p / 32]) (List.getElem_mem hlt)
  cases hk : h.chunks[table[p / 32]]? with
  | none => rw [hk] at hc; cases hc
  | some chunk =>
    rw [hk] at hc
    simp only [Option.map_some', Option.some.injEq] at hc
    have h32 : p % 32 < chunk.length := by omega
    refine ⟨(table[p / 32], p % 32), chunk[p % 32], ?_, ?_, ?_⟩
    · simp [addrAt, List.getElem?_eq_getElem hlt]
    · simp [Heap.cell, hk, List.getElem?_eq_getElem h32]
    · simp [Heap.view, addrAt, List.getElem?_eq_getElem hlt, Heap.cell, hk,
        List.getElem?_eq_getElem h32]

/-! ## Deque: what a well-formed deque answers -/

theorem HoldsAt.bounds {α : Type} {h : Heap α} {d : Deque} {t : Nat} {table : List Nat}
    {xs : List α} (H : HoldsAt h d t table xs) :
    0 ≤ d.begin_.pos ∧ d.end_.pos < 32 * table.length
      ∧ table.length < 2147483648 ∧ 0 < table.length := by
  have hb := H.begin_valid
  have he := H.end_valid
  have h1 := hb.index_lo
  have h2 := hb.out_lo
  have h3 := he.index_hi
  have h4 := he.out_hi
  have h5 := he.out_lo
  have h6 := H.chunks_range
  have h7 := H.table_len
  unfold common_iterator.pos
  omega

theorem load_of_view {α : Type} (h : Heap α) (table : List Nat) (p : Nat) (x : α)
    (hv : h.view table p = some (some x)) : h.load (addrAt table p) = .ok x := by
  unfold Heap.view at hv
  cases ha : addrAt table p with
  | none => rw [ha] at hv; cases hv
  | some a =>
    rw [ha] at hv
    simp only at hv
    simp [Heap.load, hv]

theorem size_of_holds {α : Type} {h : Heap α} {d : Deque} {t : Nat} {table : List Nat}
    {xs : List α} (H : HoldsAt h d t table xs) : d.size = xs.length := by
  obtain ⟨b0, e1, cap, _⟩ := H.bounds
  have hl := H.length_eq
  have hn := H.size_range
  unfold Deque.size
  rw [diff_spec _ _ (by omega) (by omega)]
  unfold toSize
  omega

theorem index_of_holds {α : Type} {h : Heap α} {d : Deque} {t : Nat} {table : List Nat}
    {xs : List α} (H : HoldsAt h d t table xs) (i : Nat) (hi : i < xs.length) :
    d.index h i = .ok xs[i] := by
  obtain ⟨b0, e1, cap, _⟩ := H.bounds
  have hl := H.length_eq
  have hn := H.size_range
  have hti : toInt (i : Int) = i := by
    unfold toInt
    omega
  obtain ⟨r, hr, hv, hp⟩ := addAssign_valid h.tables t table H.table_eq cap d.begin_
    H.begin_valid i (by omega) (by omega) (by omega) (by omega)
  unfold Deque.index common_iterator.add
  rw [hti, hr]
  show h.load r.it_ = .ok xs[i]
  rw [hv.it_eq, hp]
  have e : (d.begin_.pos + (i : Int)).toNat = d.begin_.pos.toNat + i := by omega
  rw [e]
  apply load_of_view
  rw [H.elements i hi, List.getElem?_eq_getElem hi]

theorem at_eq_index {α : Type} (h : Heap α) (d : Deque) (i : Nat) (hi : i < d.size) :
    d.at_ h i = d.index h i := by
  have hc : ¬ ((i : Int) < 0 ∨ i ≥ d.size) := by
    intro hc
    rcases hc with hc | hc
    · exact absurd hc (by exact_mod_cast Nat.not_lt_zero i)
    · exact absurd hi (Nat.not_lt.mpr hc)
  unfold Deque.at_ Deque.index
  rw [if_neg hc]

theorem load_ne_out_of_range {α : Type} (h : Heap α) (p : Option (Nat × Nat)) :
    h.load p ≠ .error .out_of_range := by
  unfold Heap.load
  cases p with
  | none => simp
  | some a =>
    simp only
    cases h.cell a with
    | none => simp
    | some y =>
      cases y with
      | none => simp
      | some x => simp

theorem locate_ne_out_of_range (tables : List (Option (List Nat))) (it : common_iterator) :
    it.locate tables ≠ .error .out_of_range := by
  unfold common_iterator.locate
  split <;> simp

theorem add_ne_out_of_range (tables : List (Option (List Nat))) (it : common_iterator)
    (n : Int) : it.add tables n ≠ .error .out_of_range := by
  unfold common_iterator.add common_iterator.addAssign common_iterator.plusBody
    common_iterator.minusBody
  simp only
  split_ifs <;> exact locate_ne_out_of_range _ _

theorem index_ne_out_of_range {α : Type} (h : Heap α) (d : Deque) (i : Nat) :
    d.index h i ≠ .error .out_of_range := by
  unfold Deque.index
  cases hr : d.begin_.add h.tables (toInt i) with
  | error e =>
    intro hc
    have : e = .out_of_range := by
      simpa [bind, Except.bind] using hc
    exact add_ne_out_of_range _ _ _ (by rw [hr, this])
  | ok r => exact load_ne_out_of_range h _

theorem at_out_of_range {α : Type} (h : Heap α) (d : Deque) (i : Nat) :
    d.at_ h i = .error .out_of_range ↔ d.size ≤ i := by
  constructor
  · intro hthrow
    by_contra hlt
    rw [at_eq_index h d i (Nat.lt_of_not_le hlt)] at hthrow
    exact index_ne_out_of_range h d i hthrow
  · intro hge
    unfold Deque.at_
    rw [if_pos (Or.inr hge)]

/-! ## Deque: push and pop -/

theorem construct_end {α : Type} {h : Heap α} {d : Deque} {t : Nat} {table : List Nat}
    {xs : List α} (H : HoldsAt h d t table xs) (v : α)
    (hroom : d.end_.pos + 1 < 32 * table.length) (hn : xs.length + 1 < 2147483648) :
    ∃ h2 end1, h.construct d.end_.it_ v = .ok h2 ∧ h2.tables = h.tables
      ∧ d.end_.addAssign h.tables 1 = .ok end1
      ∧ HoldsAt h2 { d with end_ := end1 } t table (xs ++ [v]) := by
  obtain ⟨b0, e1, cap, _⟩ := H.bounds
  have hl := H.length_eq
  obtain ⟨a, y, ha, hy, _⟩ := addrAt_some h table H.chunk_len d.end_.pos.toNat (by omega)
  obtain ⟨end1, hr, hv, hp⟩ := addAssign_valid h.tables t table H.table_eq cap d.end_
    H.end_valid 1 (by omega) (by omega) (by omega) (by omega)
  refine ⟨h.put a (some v), end1, ?_, rfl, hr, ?_⟩
  · rw [H.end_valid.it_eq, ha]
    simp [Heap.construct, hy]
  · refine ⟨H.out_array, H.table_eq, H.table_len, H.chunks_range,
      by rw [List.length_append, List.length_singleton]; exact hn, H.table_nodup, ?_,
      H.begin_valid, hv, ?_, ?_⟩
    · intro c hc
      rw [put_chunk_len]
      exact H.chunk_len c hc
    · show end1.pos = d.begin_.pos + ((xs ++ [v]).length : Nat)
      simp only [List.length_append, List.length_singleton]
      rw [hp, hl]
      push_cast
      ring
    · intro j hj
      simp only [List.length_append, List.length_singleton] at hj
      show (h.put a (some v)).view table (d.begin_.pos.toNat + j) = some (xs ++ [v])[j]?
      rw [view_put h table H.table_nodup d.end_.pos.toNat a (some v) y ha hy]
      by_cases hjn : j = xs.length
      · rw [if_pos (by omega)]
        subst hjn
        simp
      · rw [if_neg (by omega), H.elements j (by omega),
          List.getElem?_append_left (by omega)]

theorem range_map_nodup (base k : Nat) : ((List.range k).map (fun i => base + i)).Nodup :=
  (List.nodup_range k).map (fun _ _ hab => Nat.add_left_cancel hab)

theorem relocate_table_nodup (table : List Nat) (base k : Nat) (hnd : table.Nodup)
    (hlt : ∀ c ∈ table, c < base) :
    ((List.range k).map (fun i => base + i) ++ table
      ++ (List.range k).map (fun i => base + k + i)).Nodup := by
  rw [List.nodup_append, List.nodup_append]
  refine ⟨⟨range_map_nodup base k, hnd, ?_⟩, range_map_nodup (base + k) k, ?_⟩
  · intro c hc1 hc2
    obtain ⟨i, _, rfl⟩ := List.mem_map.mp hc1
    have := hlt _ hc2
    omega
  · intro c hc1 hc2
    obtain ⟨j, hj, rfl⟩ := List.mem_map.mp hc2
    rcases List.mem_append.mp hc1 with hc | hc
    · obtain ⟨i, hi, hij⟩ := List.mem_map.mp hc
      have := List.mem_range.mp hi
      omega
    · have := hlt _ hc
      omega

/-- The address of position `p + 32 * k` in the relocated table is the address
of position `p` in the old one. -/
theorem relocate_addrAt (table front back : List Nat) (p : Nat)
    (hp : p < 32 * table.length) :
    addrAt (front ++ table ++ back) (p + 32 * front.length) = addrAt table p := by
  unfold addrAt
  have h1 : (p + 32 * front.length) / 32 = front.length + p / 32 := by omega
  have h2 : (p + 32 * front.length) % 32 = p % 32 := by omega
  have h3 : p / 32 < table.length := by omega
  rw [h1, h2, List.append_assoc, List.getElem?_append_right (by omega),
    Nat.add_sub_cancel_left, List.getElem?_append_left h3]

theorem cell_append {α : Type} (h : Heap α) (extra : List (List (Option α)))
    (tables : List (Option (List Nat))) (a : Nat × Nat) (y : Option α)
    (hy : h.cell a = some y) :
    Heap.cell { chunks := h.chunks ++ extra, tables := tables } a = some y := by
  unfold Heap.cell at hy ⊢
  cases hc : h.chunks[a.1]? with
  | none => rw [hc] at hy; cases hy
  | some chunk =>
    have hlt : a.1 < h.chunks.length := (List.getElem?_eq_some.mp hc).1
    rw [hc] at hy
    simp only
    rw [List.getElem?_append_left hlt, hc]
    exact hy

theorem view_relocate {α : Type} (h : Heap α) (extra : List (List (Option α)))
    (tables : List (Option (List Nat))) (table front back : List Nat) (p : Nat)
    (y : Option α) (hp : p < 32 * table.length) (hv : h.view table p = some y) :
    Heap.view { chunks := h.chunks ++ extra, tables := tables } (front ++ table ++ back)
      (p + 32 * front.length) = some y := by
  unfold Heap.view at hv ⊢
  rw [relocate_addrAt table front back p hp]
  cases ha : addrAt table p with
  | none => rw [ha] at hv; cases hv
  | some a =>
    rw [ha] at hv
    exact cell_append h extra tables a y hv

theorem valid_relocate (t t1 : Nat) (table front back : List Nat) (it : common_iterator)
    (hv : it.Valid t table) :
    common_iterator.Valid t1 (front ++ table ++ back)
      { it with out_it_ := some t1, out_index_ := it.out_index_ + front.length } := by
  have h1 := hv.index_lo
  have h2 := hv.index_hi
  have h3 := hv.out_lo
  have h4 := hv.out_hi
  refine ⟨h1, h2, ?_, ?_, rfl, ?_⟩
  · show 0 ≤ it.out_index_ + front.length
    omega
  · show it.out_index_ + front.length < ((front ++ table ++ back).length : Nat)
    simp only [List.length_append]
    push_cast
    omega
  · show it.it_ = addrAt (front ++ table ++ back)
      (32 * (it.out_index_ + front.length) + it.index_).toNat
    have e : (32 * (it.out_index_ + front.length) + it.index_).toNat
        = it.pos.toNat + 32 * front.length := by
      unfold common_iterator.pos
      omega
    rw [e, relocate_addrAt table front back it.pos.toNat
      (by unfold common_iterator.pos; omega)]
    exact hv.it_eq

/-- Member `relocate()` on a well-formed deque: the deque holds the same elements
in a table three times as long, `begin_` and `end_` moved `all_chunks_` chunks
up. -/
theorem relocate_holds {α : Type} {h : Heap α} {d : Deque} {t : Nat} {table : List Nat}
    {xs : List α} (H : HoldsAt h d t table xs) (hroom : 3 * d.all_chunks_ < 2147483648) :
    ∃ h1 d1 table1, d.relocate h = .ok (h1, d1) ∧ HoldsAt h1 d1 h.tables.length table1 xs
      ∧ d1.begin_.pos = d.begin_.pos + 32 * d.all_chunks_
      ∧ d1.end_.pos = d.end_.pos + 32 * d.all_chunks_
      ∧ table1.length = 3 * d.all_chunks_ := by
  obtain ⟨b0, e1, cap, kpos⟩ := H.bounds
  have hlen := H.table_len
  have hl := H.length_eq
  have a1 : d.all_chunks_ * 3 % 2 ^ 64 = 3 * d.all_chunks_ := by omega
  have a2 : 3 * d.all_chunks_ / 3 = d.all_chunks_ := by omega
  have a3 : 2 * d.all_chunks_ % 2 ^ 64 = 2 * d.all_chunks_ := by omega
  have a4 : 3 * d.all_chunks_ - 2 * d.all_chunks_ = d.all_chunks_ := by omega
  have a5 : toInt (d.all_chunks_ : Int) = d.all_chunks_ := by
    unfold toInt
    omega
  have a6 : List.take d.all_chunks_ table = table := List.take_of_length_le (by omega)
  have htl : t < h.tables.length := (List.getElem?_eq_some.mp H.table_eq).1
  have hbase : ∀ c ∈ table, c < h.chunks.length := by
    intro c hc
    have := H.chunk_len c hc
    by_contra hge
    rw [List.getElem?_eq_none (by omega)] at this
    cases this
  have hfl : ((List.range d.all_chunks_).map (fun i => h.chunks.length + i)).length
      = d.all_chunks_ := by simp
  unfold Deque.relocate
  simp only [H.out_array, H.table_eq, a1, a2, a3, a4, a5, a6]
  rw [if_neg (by omega)]
  refine ⟨_, _, (List.range d.all_chunks_).map (fun i => h.chunks.length + i) ++ table
    ++ (List.range d.all_chunks_).map (fun i => h.chunks.length + d.all_chunks_ + i),
    rfl, ?_, ?_, ?_, ?_⟩
  · refine ⟨rfl, ?_, ?_, ?_, ?_, ?_, ?_, ?_, ?_, ?_, ?_⟩
    · show ((h.tables ++ [some _]).set t none)[h.tables.length]? = some (some _)
      rw [List.getElem?_set_ne (by omega), List.getElem?_append_right (le_refl _)]
      simp
    · simp only [List.length_append, List.length_map, List.length_range]
      omega
    · show 3 * d.all_chunks_ < 2147483648
      omega
    · exact H.size_range
    · exact relocate_table_nodup table h.chunks.length d.all_chunks_ H.table_nodup hbase
    · intro c hc
      show ((h.chunks ++ List.replicate (d.all_chunks_ + d.all_chunks_) (freshChunk α))[c]?).map
        List.length = some 32
      rcases List.mem_append.mp hc with hc1 | hc1
      · rcases List.mem_append.mp hc1 with hc2 | hc2
        · obtain ⟨i, hi, rfl⟩ := List.mem_map.mp hc2
          have := List.mem_range.mp hi
          rw [List.getElem?_append_right (by omega), List.getElem?_replicate,
            if_pos (by omega)]
          rfl
        · rw [List.getElem?_append_left (hbase c hc2)]
          exact H.chunk_len c hc2
      · obtain ⟨i, hi, rfl⟩ := List.mem_map.mp hc1
        have := List.mem_range.mp hi
        rw [List.getElem?_append_right (by omega), List.getElem?_replicate,
          if_pos (by omega)]
        rfl
    · have hv := valid_relocate t h.tables.length table
        ((List.range d.all_chunks_).map (fun i => h.chunks.length + i))
        ((List.range d.all_chunks_).map (fun i => h.chunks.length + d.all_chunks_ + i))
        d.begin_ H.begin_valid
      rw [hfl] at hv
      exact hv
    · have hv := valid_relocate t h.tables.length table
        ((List.range d.all_chunks_).map (fun i => h.chunks.length + i))
        ((List.range d.all_chunks_).map (fun i => h.chunks.length + d.all_chunks_ + i))
        d.end_ H.end_valid
      rw [hfl] at hv
      exact hv
    · show 32 * (d.end_.out_index_ + d.all_chunks_) + d.end_.index_
        = 32 * (d.begin_.out_index_ + d.all_chunks_) + d.begin_.index_ + xs.length
      unfold common_iterator.pos at hl
      omega
    · intro j hj
      have hb0 : 0 ≤ 32 * d.begin_.out_index_ + d.begin_.index_ := b0
      have e : (32 * (d.begin_.out_index_ + (d.all_chunks_ : Int)) + d.begin_.index_).toNat + j
          = ((32 * d.begin_.out_index_ + d.begin_.index_).toNat + j) + 32 * d.all_chunks_ := by
        omega
      have hel := H.elements j hj
      have hv := view_relocate h
        (List.replicate (d.all_chunks_ + d.all_chunks_) (freshChunk α))
        ((h.tables ++ [some ((List.range d.all_chunks_).map (fun i => h.chunks.length + i)
          ++ table ++ (List.range d.all_chunks_).map
            (fun i => h.chunks.length + d.all_chunks_ + i))]).set t none)
        table ((List.range d.all_chunks_).map (fun i => h.chunks.length + i))
        ((List.range d.all_chunks_).map (fun i => h.chunks.length + d.all_chunks_ + i))
        (d.begin_.pos.toNat + j) xs[j]? (by omega) hel
      rw [hfl] at hv
      simp only [common_iterator.pos] at hv ⊢
      rw [e]
      exact hv
  · show 32 * (d.begin_.out_index_ + d.all_chunks_) + d.begin_.index_ = _
    unfold common_iterator.pos
    omega
  · show 32 * (d.end_.out_index_ + d.all_chunks_) + d.end_.index_ = _
    unfold common_iterator.pos
    omega
  · simp only [List.length_append, List.length_map, List.length_range]
    omega

theorem toInt_chunks {α : Type} {h : Heap α} {d : Deque} {t : Nat} {table : List Nat}
    {xs : List α} (H : HoldsAt h d t table xs) :
    toInt (d.all_chunks_ : Int) = d.all_chunks_ := by
  have := H.chunks_range
  unfold toInt
  omega

/-- Member `push_back(value)` on a well-formed deque, whether or not it
relocates. -/
theorem push_back_holds {α : Type} {h : Heap α} {d : Deque} {t : Nat} {table : List Nat}
    {xs : List α} (H : HoldsAt h d t table xs) (hroom : 3 * d.all_chunks_ < 2147483648)
    (hn : xs.length + 1 < 2147483648) (v : α) :
    ∃ h1 d1 t1 table1, d.push_back h v = .ok (h1, d1) ∧ HoldsAt h1 d1 t1 table1 (xs ++ [v]) := by
  obtain ⟨b0, e1, cap, kpos⟩ := H.bounds
  have hlen := H.table_len
  have a5 := toInt_chunks H
  unfold Deque.push_back
  by_cases hc : d.end_.out_index_ = toInt d.all_chunks_ - 1 ∧ d.end_.index_ = 31
  · rw [if_pos hc]
    obtain ⟨h1, d1, table1, hrel, H1, _, hend, hlen1⟩ := relocate_holds H hroom
    have room : d1.end_.pos + 1 < 32 * table1.length := by
      rw [hend, hlen1]
      push_cast
      omega
    obtain ⟨h2, end1, hcons, htabs, hend1, H2⟩ := construct_end H1 v room hn
    refine ⟨h2, { d1 with end_ := end1 }, _, table1, ?_, H2⟩
    rw [hrel]
    simp only [bind, Except.bind, hcons, htabs, hend1, pure, Except.pure]
  · rw [if_neg hc]
    have room : d.end_.pos + 1 < 32 * table.length := by
      have h3 := H.end_valid.index_hi
      have h4 := H.end_valid.out_hi
      rw [a5] at hc
      unfold common_iterator.pos
      omega
    obtain ⟨h2, end1, hcons, htabs, hend1, H2⟩ := construct_end H v room hn
    refine ⟨h2, { d with end_ := end1 }, t, table, ?_, H2⟩
    simp only [bind, Except.bind, hcons, htabs, hend1, pure, Except.pure]

theorem construct_before_begin {α : Type} {h : Heap α} {d : Deque} {t : Nat}
    {table : List Nat} {xs : List α} (H : HoldsAt h d t table xs) (v : α)
    (hroom : 0 < d.begin_.pos) (hn : xs.length + 1 < 2147483648) :
    ∃ h2 begin1, d.begin_.subAssign h.tables 1 = .ok begin1
      ∧ h.construct begin1.it_ v = .ok h2
      ∧ HoldsAt h2 { d with begin_ := begin1 } t table (v :: xs) := by
  obtain ⟨b0, e1, cap, _⟩ := H.bounds
  have hl := H.length_eq
  obtain ⟨begin1, hr, hv, hp⟩ := subAssign_valid h.tables t table H.table_eq cap d.begin_
    H.begin_valid 1 (by omega) (by omega) (by omega) (by omega)
  obtain ⟨a, y, ha, hy, _⟩ := addrAt_some h table H.chunk_len (d.begin_.pos.toNat - 1)
    (by omega)
  have hpn : begin1.pos.toNat = d.begin_.pos.toNat - 1 := by
    rw [hp]
    omega
  refine ⟨h.put a (some v), begin1, hr, ?_, ?_⟩
  · rw [hv.it_eq, hpn, ha]
    simp [Heap.construct, hy]
  · refine ⟨H.out_array, H.table_eq, H.table_len, H.chunks_range,
      by rw [List.length_cons]; exact hn, H.table_nodup, ?_,
      hv, H.end_valid, ?_, ?_⟩
    · intro c hc
      rw [put_chunk_len]
      exact H.chunk_len c hc
    · show d.end_.pos = begin1.pos + ((v :: xs).length : Nat)
      rw [hp, hl, List.length_cons]
      push_cast
      ring
    · intro j hj
      show (h.put a (some v)).view table (begin1.pos.toNat + j) = some (v :: xs)[j]?
      rw [hpn, view_put h table H.table_nodup (d.begin_.pos.toNat - 1) a (some v) y ha hy]
      cases j with
      | zero => simp
      | succ i =>
        simp only [List.length_cons] at hj
        rw [if_neg (by omega), List.getElem?_cons_succ]
        have e : d.begin_.pos.toNat - 1 + (i + 1) = d.begin_.pos.toNat + i := by omega
        rw [e]
        exact H.elements i (by omega)

/-- Member `push_front(value)` on a well-formed deque, whether or not it
relocates. -/
theorem push_front_holds {α : Type} {h : Heap α} {d : Deque} {t : Nat} {table : List Nat}
    {xs : List α} (H : HoldsAt h d t table xs) (hroom : 3 * d.all_chunks_ < 2147483648)
    (hn : xs.length + 1 < 2147483648) (v : α) :
    ∃ h1 d1 t1 table1, d.push_front h v = .ok (h1, d1) ∧ HoldsAt h1 d1 t1 table1 (v :: xs) := by
  obtain ⟨b0, e1, cap, kpos⟩ := H.bounds
  have hlen := H.table_len
  unfold Deque.push_front
  by_cases hc : d.begin_.out_index_ = 0 ∧ d.begin_.index_ = 0
  · rw [if_pos hc]
    obtain ⟨h1, d1, table1, hrel, H1, hbeg, _, hlen1⟩ := relocate_holds H hroom
    have room : 0 < d1.begin_.pos := by
      rw [hbeg]
      omega
    obtain ⟨h2, begin1, hbegin1, hcons, H2⟩ := construct_before_begin H1 v room hn
    refine ⟨h2, { d1 with begin_ := begin1 }, _, table1, ?_, H2⟩
    rw [hrel]
    simp only [bind, Except.bind, hbegin1, hcons, pure, Except.pure]
  · rw [if_neg hc]
    have room : 0 < d.begin_.pos := by
      have h3 := H.begin_valid.index_lo
      have h4 := H.begin_valid.out_lo
      unfold common_iterator.pos
      omega
    obtain ⟨h2, begin1, hbegin1, hcons, H2⟩ := construct_before_begin H v room hn
    refine ⟨h2, { d with begin_ := begin1 }, t, table, ?_, H2⟩
    simp only [bind, Except.bind, hbegin1, hcons, pure, Except.pure]

/-- Member `pop_back()` on a well-formed deque that is not empty. -/
theorem pop_back_holds {α : Type} {h : Heap α} {d : Deque} {t : Nat} {table : List Nat}
    {xs : List α} {v : α} (H : HoldsAt h d t table (xs ++ [v])) :
    ∃ h1 d1, d.pop_back h = .ok (h1, d1) ∧ HoldsAt h1 d1 t table xs
      ∧ h1.tables = h.tables ∧ d1.all_chunks_ = d.all_chunks_ := by
  obtain ⟨b0, e1, cap, _⟩ := H.bounds
  have hl := H.length_eq
  simp only [List.length_append, List.length_singleton] at hl
  push_cast at hl
  obtain ⟨end1, hr, hv, hp⟩ := subAssign_valid h.tables t table H.table_eq cap d.end_
    H.end_valid 1 (by omega) (by omega) (by omega) (by omega)
  have hpn : end1.pos.toNat = d.begin_.pos.toNat + xs.length := by
    rw [hp]
    omega
  have hlast := H.elements xs.length (by simp)
  have hget : (xs ++ [v])[xs.length]? = some v := by simp
  rw [hget] at hlast
  obtain ⟨a, y, ha, hy, hview⟩ := addrAt_some h table H.chunk_len
    (d.begin_.pos.toNat + xs.length) (by omega)
  rw [hlast] at hview
  have hy1 : h.cell a = some (some v) := by rw [hy, ← Option.some.inj hview]
  refine ⟨h.put a none, { d with end_ := end1 }, ?_, ?_, rfl, rfl⟩
  · have hd : h.destroy end1.it_ = .ok (h.put a none) := by
      rw [hv.it_eq, hpn, ha]
      simp [Heap.destroy, hy1]
    unfold Deque.pop_back
    simp only [hr, hd, bind, Except.bind, pure, Except.pure]
  · refine ⟨H.out_array, H.table_eq, H.table_len, H.chunks_range,
      by have := H.size_range; rw [List.length_append, List.length_singleton] at this; omega,
      H.table_nodup, ?_, H.begin_valid, hv, ?_, ?_⟩
    · intro c hc
      rw [put_chunk_len]
      exact H.chunk_len c hc
    · show end1.pos = d.begin_.pos + (xs.length : Nat)
      rw [hp, hl]
      ring
    · intro j hj
      show (h.put a none).view table (d.begin_.pos.toNat + j) = some xs[j]?
      rw [view_put h table H.table_nodup (d.begin_.pos.toNat + xs.length) a none _ ha hy1,
        if_neg (by omega)]
      have := H.elements j (by simp; omega)
      rw [List.getElem?_append_left hj] at this
      exact this

/-- Member `pop_front()` on a well-formed deque that is not empty. -/
theorem pop_front_holds {α : Type} {h : Heap α} {d : Deque} {t : Nat} {table : List Nat}
    {xs : List α} {v : α} (H : HoldsAt h d t table (v :: xs)) :
    ∃ h1 d1, d.pop_front h = .ok (h1, d1) ∧ HoldsAt h1 d1 t table xs := by
  obtain ⟨b0, e1, cap, _⟩ := H.bounds
  have hl := H.length_eq
  simp only [List.length_cons] at hl
  push_cast at hl
  obtain ⟨begin1, hr, hv, hp⟩ := addAssign_valid h.tables t table H.table_eq cap d.begin_
    H.begin_valid 1 (by omega) (by omega) (by omega) (by omega)
  have hfirst := H.elements 0 (by simp)
  simp only [Nat.add_zero, List.getElem?_cons_zero] at hfirst
  obtain ⟨a, y, ha, hy, hview⟩ := addrAt_some h table H.chunk_len d.begin_.pos.toNat
    (by omega)
  rw [hfirst] at hview
  have hy1 : h.cell a = some (some v) := by rw [hy, ← Option.some.inj hview]
  refine ⟨h.put a none, { d with begin_ := begin1 }, ?_, ?_⟩
  · have hd : h.destroy d.begin_.it_ = .ok (h.put a none) := by
      rw [H.begin_valid.it_eq, ha]
      simp [Heap.destroy, hy1]
    have hr1 : d.begin_.addAssign (h.put a none).tables 1 = .ok begin1 := hr
    unfold Deque.pop_front
    simp only [hd, hr1, bind, Except.bind, pure, Except.pure]
  · refine ⟨H.out_array, H.table_eq, H.table_len, H.chunks_range,
      by have := H.size_range; rw [List.length_cons] at this; omega,
      H.table_nodup, ?_, hv, H.end_valid, ?_, ?_⟩
    · intro c hc
      rw [put_chunk_len]
      exact H.chunk_len c hc
    · show d.end_.pos = begin1.pos + (xs.length : Nat)
      rw [hp, hl]
      ring
    · intro j hj
      show (h.put a none).view table (begin1.pos.toNat + j) = some xs[j]?
      have e : begin1.pos.toNat + j = d.begin_.pos.toNat + (j + 1) := by
        rw [hp]
        omega
      rw [e, view_put h table H.table_nodup d.begin_.pos.toNat a none _ ha hy1,
        if_neg (by omega)]
      have := H.elements (j + 1) (by simp; omega)
      rw [List.getElem?_cons_succ] at this
      exact this

/-! ## Deque: the loops of `insert` and `erase` -/

theorem getElem?_swapped {α : Type} (l1 l2 : List α) (x y : α) (j : Nat) :
    (l1 ++ y :: x :: l2)[j]? = if j = l1.length + 1 then some x
      else if j = l1.length then some y else (l1 ++ x :: y :: l2)[j]? := by
  by_cases h1 : j < l1.length
  · rw [if_neg (by omega), if_neg (by omega), List.getElem?_append_left h1,
      List.getElem?_append_left h1]
  · obtain ⟨m, rfl⟩ : ∃ m, j = l1.length + m := ⟨j - l1.length, by omega⟩
    rw [List.getElem?_append_right (by omega), List.getElem?_append_right (by omega),
      Nat.add_sub_cancel_left]
    match m with
    | 0 => simp
    | 1 => simp
    | m + 2 =>
      rw [if_neg (by omega), if_neg (by omega)]
      simp

/-- The call `i.swap(i - 1)` inside a well-formed deque exchanges the elements at
the position of `i` and the one before. -/
theorem swap_holds {α : Type} {h : Heap α} {d : Deque} {t : Nat} {table : List Nat}
    (l1 l2 : List α) (x y : α) (H : HoldsAt h d t table (l1 ++ x :: y :: l2))
    (i : common_iterator) (hi : i.Valid t table)
    (hip : i.pos = d.begin_.pos + l1.length + 1) :
    ∃ j h1, i.sub h.tables 1 = .ok j ∧ i.swap h j = .ok h1 ∧ h1.tables = h.tables
      ∧ HoldsAt h1 d t table (l1 ++ y :: x :: l2) := by
  obtain ⟨b0, e1, cap, _⟩ := H.bounds
  have hl := H.length_eq
  simp only [List.length_append, List.length_cons] at hl
  push_cast at hl
  obtain ⟨j, hr, hv, hp⟩ := subAssign_valid h.tables t table H.table_eq cap i hi 1
    (by omega) (by omega) (by omega) (by omega)
  have hx := H.elements l1.length (by simp)
  have hy := H.elements (l1.length + 1) (by simp)
  have gx : (l1 ++ x :: y :: l2)[l1.length]? = some x := by
    rw [List.getElem?_append_right (le_refl _)]
    simp
  have gy : (l1 ++ x :: y :: l2)[l1.length + 1]? = some y := by
    rw [List.getElem?_append_right (by omega)]
    simp
  rw [gx] at hx
  rw [gy] at hy
  obtain ⟨a1, y1, ha1, hc1, hv1⟩ := addrAt_some h table H.chunk_len
    (d.begin_.pos.toNat + l1.length) (by omega)
  obtain ⟨a2, y2, ha2, hc2, hv2⟩ := addrAt_some h table H.chunk_len
    (d.begin_.pos.toNat + (l1.length + 1)) (by omega)
  rw [hx] at hv1
  rw [hy] at hv2
  have hc1x : h.cell a1 = some (some x) := by rw [hc1, ← Option.some.inj hv1]
  have hc2y : h.cell a2 = some (some y) := by rw [hc2, ← Option.some.inj hv2]
  have hne : a1 ≠ a2 := by
    intro heq
    rw [← heq] at ha2
    have := addrAt_inj table H.table_nodup _ _ a1 ha1 ha2
    omega
  have s1 : slotAddr h.tables i.out_it_ j.out_index_ j.index_ = some a1 := by
    rw [hi.out_it, slotAddr_eq h.tables t table H.table_eq _ _ hv.out_lo hv.index_lo hv.index_hi,
      ← ha1]
    congr 1
    have : j.pos = 32 * j.out_index_ + j.index_ := rfl
    omega
  have s2 : slotAddr h.tables i.out_it_ i.out_index_ i.index_ = some a2 := by
    rw [hi.out_it, slotAddr_eq h.tables t table H.table_eq _ _ hi.out_lo hi.index_lo hi.index_hi,
      ← ha2]
    congr 1
    have : i.pos = 32 * i.out_index_ + i.index_ := rfl
    omega
  have hc2' : (h.put a1 (some y)).cell a2 = some (some y) := by
    rw [cell_put_other h a1 a2 _ hne]
    exact hc2y
  refine ⟨j, (h.put a1 (some y)).put a2 (some x), hr, ?_, rfl, ?_⟩
  · unfold common_iterator.swap
    simp only [s1, s2]
    simp [Heap.load, hc1x, hc2y, bind, Except.bind, pure, Except.pure]
  · refine ⟨H.out_array, H.table_eq, H.table_len, H.chunks_range,
      by have := H.size_range; simpa using this, H.table_nodup, ?_,
      H.begin_valid, H.end_valid, ?_, ?_⟩
    · intro c hc
      rw [put_chunk_len, put_chunk_len]
      exact H.chunk_len c hc
    · rw [H.length_eq]
      simp
    · intro j hj
      have hj1 : j < (l1 ++ x :: y :: l2).length := by
        simp only [List.length_append, List.length_cons] at hj ⊢
        exact hj
      rw [view_put (h.put a1 (some y)) table H.table_nodup _ a2 (some x) _ ha2 hc2',
        view_put h table H.table_nodup _ a1 (some y) _ ha1 hc1x, getElem?_swapped]
      by_cases c1 : j = l1.length + 1
      · rw [if_pos (by omega), if_pos c1]
      · rw [if_neg (by omega), if_neg c1]
        by_cases c2 : j = l1.length
        · rw [if_pos (by omega), if_pos c2]
        · rw [if_neg (by omega), if_neg c2]
          exact H.elements j hj1

/-- The loop of `erase` started one past an element `a` moves `a` to the back and
every later element one position down; it ends within `l2.length + 1`
iterations. -/
theorem eraseLoop_holds {α : Type} {d : Deque} {t : Nat} {table : List Nat} (a : α)
    (l2 : List α) :
    ∀ (l1 : List α) (h : Heap α) (i : common_iterator) (fuel : Nat),
      HoldsAt h d t table (l1 ++ a :: l2) → i.Valid t table →
      i.pos = d.begin_.pos + l1.length + 1 → l2.length < fuel →
      ∃ h1, eraseLoop d.end_ fuel h i = some (.ok h1) ∧ h1.tables = h.tables
        ∧ HoldsAt h1 d t table (l1 ++ l2 ++ [a]) := by
  induction l2 with
  | nil =>
    intro l1 h i fuel H hi hip hf
    obtain ⟨f, rfl⟩ : ∃ f, fuel = f + 1 := ⟨fuel - 1, by simp at hf; omega⟩
    have hl := H.length_eq
    simp only [List.length_append, List.length_cons, List.length_nil] at hl
    push_cast at hl
    have hlt : i.lt d.end_ = false := by
      rw [Bool.eq_false_iff]
      intro hc
      have := (lt_spec i d.end_ hi.index_lo hi.index_hi H.end_valid.index_lo
        H.end_valid.index_hi).mp hc
      omega
    refine ⟨h, ?_, rfl, ?_⟩
    · simp [eraseLoop, hlt]
    · simpa using H
  | cons c l2 ih =>
    intro l1 h i fuel H hi hip hf
    obtain ⟨f, rfl⟩ : ∃ f, fuel = f + 1 := ⟨fuel - 1, by simp at hf; omega⟩
    obtain ⟨b0, e1, cap, _⟩ := H.bounds
    have hl := H.length_eq
    simp only [List.length_append, List.length_cons] at hl
    push_cast at hl
    have hlt : i.lt d.end_ = true :=
      (lt_spec i d.end_ hi.index_lo hi.index_hi H.end_valid.index_lo
        H.end_valid.index_hi).mpr (by omega)
    obtain ⟨j, h1, hj, hsw, htab, H1⟩ := swap_holds l1 l2 a c H i hi hip
    obtain ⟨i1, hr, hv, hp⟩ := addAssign_valid h1.tables t table H1.table_eq cap i hi 1
      (by omega) (by omega) (by omega) (by omega)
    have H1' : HoldsAt h1 d t table ((l1 ++ [c]) ++ a :: l2) := by
      simpa using H1
    obtain ⟨h2, hloop, htab2, H2⟩ := ih (l1 ++ [c]) h1 i1 f H1' hv
      (by rw [hp, hip]; simp; ring) (by simp at hf; omega)
    refine ⟨h2, ?_, by rw [htab2, htab], ?_⟩
    · simp only [eraseLoop, hlt, if_true, hj, hsw, hr]
      exact hloop
    · simpa using H2

/-- The loop of `insert` started at an element `a` moves `a` down to the position
of `tmp` and every element in between one position up; it ends within
`l2.length + 1` iterations. -/
theorem insertLoop_holds {α : Type} {d : Deque} {t : Nat} {table : List Nat} (a : α)
    (l1 : List α) (tmp : common_iterator) (htmp : tmp.Valid t table)
    (htp : tmp.pos = d.begin_.pos + l1.length) (l2 : List α) :
    ∀ (l3 : List α) (h : Heap α) (i : common_iterator) (fuel : Nat),
      HoldsAt h d t table (l1 ++ l2 ++ a :: l3) → i.Valid t table →
      i.pos = d.begin_.pos + l1.length + l2.length → l2.length < fuel →
      ∃ h1, insertLoop tmp fuel h i = some (.ok h1) ∧ h1.tables = h.tables
        ∧ HoldsAt h1 d t table (l1 ++ a :: l2 ++ l3) := by
  induction l2 using List.reverseRecOn with
  | nil =>
    intro l3 h i fuel H hi hip hf
    obtain ⟨f, rfl⟩ : ∃ f, fuel = f + 1 := ⟨fuel - 1, by simp at hf; omega⟩
    have hgt : i.gt tmp = false := by
      rw [Bool.eq_false_iff]
      intro hc
      have := (lt_spec tmp i htmp.index_lo htmp.index_hi hi.index_lo hi.index_hi).mp hc
      simp at hip
      omega
    refine ⟨h, ?_, rfl, ?_⟩
    · simp [insertLoop, hgt]
    · simpa using H
  | append_singleton l2 c ih =>
    intro l3 h i fuel H hi hip hf
    obtain ⟨f, rfl⟩ : ∃ f, fuel = f + 1 := ⟨fuel - 1, by simp at hf; omega⟩
    obtain ⟨b0, e1, cap, _⟩ := H.bounds
    simp only [List.length_append, List.length_singleton] at hip hf
    push_cast at hip
    have hgt : i.gt tmp = true :=
      (lt_spec tmp i htmp.index_lo htmp.index_hi hi.index_lo hi.index_hi).mpr (by omega)
    have H0 : HoldsAt h d t table ((l1 ++ l2) ++ c :: a :: l3) := by
      simpa using H
    obtain ⟨j, h1, hj, hsw, htab, H1⟩ := swap_holds (l1 ++ l2) l3 c a H0 i hi
      (by rw [hip]; simp; ring)
    have hpi : 0 ≤ i.pos := by
      have := hi.index_lo
      have := hi.out_lo
      unfold common_iterator.pos
      omega
    have hpi1 : i.pos < 32 * table.length := by
      have := hi.index_hi
      have := hi.out_hi
      unfold common_iterator.pos
      omega
    obtain ⟨i1, hr, hv, hp⟩ := subAssign_valid h1.tables t table H1.table_eq cap i hi 1
      (by omega) (by omega) (by omega) (by omega)
    have H1' : HoldsAt h1 d t table (l1 ++ l2 ++ a :: (c :: l3)) := by
      simpa using H1
    obtain ⟨h2, hloop, htab2, H2⟩ := ih (c :: l3) h1 i1 f H1' hv
      (by rw [hp, hip]; ring) (by omega)
    refine ⟨h2, ?_, by rw [htab2, htab], ?_⟩
    · simp only [insertLoop, hgt, if_true, hj, hsw, hr]
      exact hloop
    · simpa using H2

/-! ## Deque: `insert`, `erase` and the sequence read by `operator[]` -/

theorem toList_of_holds {α : Type} {h : Heap α} {d : Deque} {t : Nat} {table : List Nat}
    {xs : List α} (H : HoldsAt h d t table xs) : d.toList h = xs.map Except.ok := by
  unfold Deque.toList
  rw [size_of_holds H]
  apply List.ext_getElem
  · simp
  · intro i h1 h2
    have hi : i < xs.length := by simpa using h1
    simp only [List.getElem_map, List.getElem_range]
    exact index_of_holds H i hi

/-- The iterator `begin() + k` of a well-formed deque, for `k` up to the size:
`operator+` returns a valid iterator `k` positions after `begin()`. -/
theorem begin_add_valid {α : Type} {h : Heap α} {d : Deque} {t : Nat} {table : List Nat}
    {xs : List α} (H : HoldsAt h d t table xs) (k : Nat) (hk : k ≤ xs.length) :
    ∃ r, d.begin_.add h.tables k = .ok r ∧ r.Valid t table ∧ r.pos = d.begin_.pos + k := by
  obtain ⟨b0, e1, cap, _⟩ := H.bounds
  have hl := H.length_eq
  have hn := H.size_range
  exact addAssign_valid h.tables t table H.table_eq cap d.begin_ H.begin_valid k
    (by omega) (by omega) (by omega) (by omega)

/-- Member `insert(tmp, value)` on a well-formed deque, `tmp` an iterator `k`
positions after `begin()`. -/
theorem insert_holds {α : Type} {h : Heap α} {d : Deque} {t : Nat} {table : List Nat}
    {xs : List α} (H : HoldsAt h d t table xs) (hroom : 3 * d.all_chunks_ < 2147483648)
    (hn : xs.length + 1 < 2147483648) (v : α) (k : Nat) (hk : k ≤ xs.length)
    (tmp : common_iterator) (htp : tmp.pos = d.begin_.pos + k)
    (fuel : Nat) (hf : xs.length < fuel) :
    ∃ h1 d1 t1 table1, d.insert fuel h tmp v = some (.ok (h1, d1))
      ∧ HoldsAt h1 d1 t1 table1 (xs.take k ++ v :: xs.drop k) := by
  obtain ⟨b0, e1, cap, _⟩ := H.bounds
  have hl := H.length_eq
  have hx : tmp.diff d.begin_ = k := by
    rw [diff_spec _ _ (by omega) (by omega), htp]
    ring
  obtain ⟨h1, d1, t1, table1, hpb, H1⟩ := push_back_holds H hroom hn v
  obtain ⟨c0, f1, cap1, _⟩ := H1.bounds
  have hl1 := H1.length_eq
  simp only [List.length_append, List.length_singleton] at hl1
  push_cast at hl1
  obtain ⟨tmp1, htmp1, hv1, hp1⟩ := begin_add_valid H1 k (by simp; omega)
  obtain ⟨i, hi, hiv, hipos⟩ := subAssign_valid h1.tables t1 table1 H1.table_eq cap1 d1.end_
    H1.end_valid 1 (by omega) (by omega) (by omega) (by omega)
  have hlt : (xs.take k).length = k := by
    rw [List.length_take]
    omega
  have H1' : HoldsAt h1 d1 t1 table1 (xs.take k ++ xs.drop k ++ v :: []) := by
    rw [List.take_append_drop]
    exact H1
  obtain ⟨h2, hloop, _, H2⟩ := insertLoop_holds v (xs.take k) tmp1 hv1 (by rw [hp1, hlt])
    (xs.drop k) [] h1 i fuel H1' hiv
    (by rw [hipos, hl1, hlt, List.length_drop]; push_cast [hk]; ring)
    (by rw [List.length_drop]; omega)
  refine ⟨h2, d1, t1, table1, ?_, by simpa using H2⟩
  have hi1 : d1.end_.sub h1.tables 1 = .ok i := hi
  unfold Deque.insert
  simp only [hx, hpb, htmp1, hi1, hloop]

/-- Member `erase(tmp)` on a well-formed deque, `tmp` a valid iterator `k`
positions after `begin()`, `k` below the size. -/
theorem erase_holds {α : Type} {h : Heap α} {d : Deque} {t : Nat} {table : List Nat}
    {xs : List α} (H : HoldsAt h d t table xs)
    (k : Nat) (hk : k < xs.length)
    (tmp : common_iterator) (htmp : tmp.Valid t table) (htp : tmp.pos = d.begin_.pos + k)
    (fuel : Nat) (hf : xs.length ≤ fuel) :
    ∃ h1 d1, d.erase fuel h tmp = some (.ok (h1, d1))
      ∧ HoldsAt h1 d1 t table (xs.eraseIdx k) ∧ d1.all_chunks_ = d.all_chunks_ := by
  obtain ⟨b0, e1, cap, _⟩ := H.bounds
  have hl := H.length_eq
  obtain ⟨i, hi, hiv, hipos⟩ := addAssign_valid h.tables t table H.table_eq cap tmp htmp 1
    (by omega) (by omega) (by omega) (by omega)
  have hlt : (xs.take k).length = k := by
    rw [List.length_take]
    omega
  have hsplit : xs.take k ++ xs[k] :: xs.drop (k + 1) = xs := by
    rw [← List.drop_eq_getElem_cons hk, List.take_append_drop]
  have H' : HoldsAt h d t table (xs.take k ++ xs[k] :: xs.drop (k + 1)) := by
    rw [hsplit]
    exact H
  obtain ⟨h1, hloop, htab, H1⟩ := eraseLoop_holds xs[k] (xs.drop (k + 1)) (xs.take k) h
    i fuel H' hiv (by rw [hipos, htp, hlt]) (by rw [List.length_drop]; omega)
  obtain ⟨h2, d2, hpop, H2, _, hch⟩ := pop_back_holds H1
  refine ⟨h2, d2, ?_, ?_, hch⟩
  · have hi1 : tmp.add h.tables 1 = .ok i := hi
    unfold Deque.erase
    simp only [hi1, hloop, hpop]
  · rw [List.eraseIdx_eq_take_drop_succ]
    exact H2

/-! ## Deque: the claims -/

theorem backDeque_holds : Holds backHeap backDeque [5, 6] :=
  ⟨0, [0], by decide, by decide, by decide, by decide, by decide, by decide, by decide,
    ⟨by decide, by decide, by decide, by decide, by decide, by decide⟩,
    ⟨by decide, by decide, by decide, by decide, by decide, by decide⟩,
    by decide, by decide⟩

theorem frontDeque_holds : Holds frontHeap frontDeque [5, 6] :=
  ⟨0, [0], by decide, by decide, by decide, by decide, by decide, by decide, by decide,
    ⟨by decide, by decide, by decide, by decide, by decide, by decide⟩,
    ⟨by decide, by decide, by decide, by decide, by decide, by decide⟩,
    by decide, by decide⟩

/-- The deque the constructor `Deque()` builds is well formed and empty. -/
theorem create_holds {α : Type} (h : Heap α) :
    Holds (Deque.create h).1 (Deque.create h).2 ([] : List α) := by
  have hv : common_iterator.Valid h.tables.length [h.chunks.length]
      ⟨0, 0, some h.tables.length, some (h.chunks.length, 0)⟩ := by
    refine ⟨le_refl _, ?_, le_refl _, ?_, rfl, ?_⟩
    · show (0 : Int) < 32
      decide
    · show (0 : Int) < (([h.chunks.length] : List Nat).length : Int)
      simp
    · simp [common_iterator.pos, addrAt]
  refine ⟨h.tables.length, [h.chunks.length], rfl, ?_, rfl, ?_, ?_,
    List.nodup_singleton _, ?_, hv, hv, rfl, ?_⟩
  · show (h.tables ++ [some [h.chunks.length + 0]])[h.tables.length]? = _
    rw [List.getElem?_append_right (le_refl _), Nat.sub_self]
    rfl
  · show (1 / 32 + 1 : Nat) < 2147483648
    decide
  · show (0 : Nat) < 2147483648
    decide
  · intro c hc
    rw [List.mem_singleton] at hc
    subst hc
    show ((h.chunks ++ [freshChunk α])[h.chunks.length]?).map List.length = some 32
    rw [List.getElem?_append_right (le_refl _), Nat.sub_self]
    rfl
  · intro j hj
    cases hj

/-- C21: `d.at(i)` throws `std::out_of_range` exactly when `i >= d.size()`;
otherwise it returns what `d[i]` returns.  In a well-formed deque holding `xs`
the size is `xs.length` and, for `i` below it, both return `xs[i]`, the element
`i` positions after `begin()`: `begin() + i` returns an iterator and reading
through it gives `xs[i]`. -/
theorem at_spec {α : Type} (h : Heap α) (d : Deque) (i : Nat) :
    (d.at_ h i = .error .out_of_range ↔ d.size ≤ i)
    ∧ (i < d.size → d.at_ h i = d.index h i)
    ∧ ∀ xs : List α, Holds h d xs →
        d.size = xs.length
        ∧ ∀ hi : i < xs.length, d.at_ h i = .ok xs[i] ∧ d.index h i = .ok xs[i]
            ∧ ∃ it, d.begin_.add h.tables i = .ok it ∧ h.load it.it_ = .ok xs[i] := by
  refine ⟨at_out_of_range h d i, at_eq_index h d i, ?_⟩
  intro xs H
  obtain ⟨t, table, H⟩ := H
  refine ⟨size_of_holds H, ?_⟩
  intro hi
  have hidx := index_of_holds H i hi
  refine ⟨?_, hidx, ?_⟩
  · rw [at_eq_index h d i (by rw [size_of_holds H]; exact hi)]
    exact hidx
  · have hti : toInt (i : Int) = i := by
      have := H.size_range
      unfold toInt
      omega
    obtain ⟨it, hit, _, _⟩ := begin_add_valid H i (le_of_lt hi)
    refine ⟨it, hit, ?_⟩
    unfold Deque.index at hidx
    rw [hti, hit] at hidx
    exact hidx

theorem at_spec_witness :
    (backDeque.at_ backHeap 2 = .error .out_of_range ∧ backDeque.size ≤ 2)
    ∧ backDeque.size = 2
    ∧ backDeque.at_ backHeap 1 = .ok 6 ∧ backDeque.index backHeap 1 = .ok 6
    ∧ ∃ it, backDeque.begin_.add backHeap.tables (1 : Nat) = .ok it
        ∧ backHeap.load it.it_ = .ok 6 :=
  ⟨⟨(at_spec backHeap backDeque 2).1.mpr (by decide), by decide⟩,
    ((at_spec backHeap backDeque 1).2.2 [5, 6] backDeque_holds).1,
    ((at_spec backHeap backDeque 1).2.2 [5, 6] backDeque_holds).2 (by decide)⟩

/-- C22: `push_back(v)` on a well-formed deque holding `xs`, where three times
the number of chunks and the size after the call are values of `int`, returns; afterwards the size is
`xs.length + 1`, `d[xs.length]` is `v` and `d[i]` is `xs[i]` for every earlier `i`,
whether or not `relocate()` ran.  A following `pop_back()` returns and leaves the
size `xs.length` and the elements `xs`. -/
theorem push_back_spec {α : Type} (h : Heap α) (d : Deque) (xs : List α) (v : α)
    (H : Holds h d xs) (hroom : 3 * d.all_chunks_ < 2147483648)
    (hn : xs.length + 1 < 2147483648) :
    ∃ h1 d1, d.push_back h v = .ok (h1, d1)
      ∧ d1.size = xs.length + 1
      ∧ d1.index h1 xs.length = .ok v
      ∧ (∀ i (hi : i < xs.length), d1.index h1 i = .ok xs[i])
      ∧ Holds h1 d1 (xs ++ [v])
      ∧ ∃ h2 d2, d1.pop_back h1 = .ok (h2, d2)
          ∧ d2.size = xs.length
          ∧ (∀ i (hi : i < xs.length), d2.index h2 i = .ok xs[i])
          ∧ Holds h2 d2 xs := by
  obtain ⟨t, table, H⟩ := H
  obtain ⟨h1, d1, t1, table1, hpb, H1⟩ := push_back_holds H hroom hn v
  obtain ⟨h2, d2, hpop, H2, _, _⟩ := pop_back_holds H1
  refine ⟨h1, d1, hpb, ?_, ?_, ?_, ⟨t1, table1, H1⟩, h2, d2, hpop, size_of_holds H2,
    fun i hi => index_of_holds H2 i hi, ⟨t1, table1, H2⟩⟩
  · rw [size_of_holds H1]
    simp
  · rw [index_of_holds H1 xs.length (by simp)]
    simp
  · intro i hi
    rw [index_of_holds H1 i (by simp; omega)]
    simp [List.getElem_append_left, hi]

theorem push_back_spec_witness :
    chunksAfter (backDeque.push_back backHeap 7) = 3
    ∧ elementsAfter (backDeque.push_back backHeap 7) = [.ok 5, .ok 6, .ok 7]
    ∧ ∃ h1 d1, backDeque.push_back backHeap 7 = .ok (h1, d1)
      ∧ d1.size = 2 + 1
      ∧ d1.index h1 2 = .ok 7
      ∧ (∀ i (hi : i < 2), d1.index h1 i = .ok [5, 6][i])
      ∧ Holds h1 d1 ([5, 6] ++ [7])
      ∧ ∃ h2 d2, d1.pop_back h1 = .ok (h2, d2)
          ∧ d2.size = 2
          ∧ (∀ i (hi : i < 2), d2.index h2 i = .ok [5, 6][i])
          ∧ Holds h2 d2 [5, 6] :=
  ⟨by rfl, by rfl, push_back_spec backHeap backDeque [5, 6] 7 backDeque_holds (by decide)
    (by decide)⟩

/-- C23: `push_front(v)` on a well-formed deque holding `xs`, where three times
the number of chunks and the size after the call are values of `int`, returns; afterwards the size is
`xs.length + 1`, `d[0]` is `v` and `d[i + 1]` is `xs[i]`, whether or not
`relocate()` ran.  A following `pop_front()` returns and leaves the size
`xs.length` and the elements `xs`. -/
theorem push_front_spec {α : Type} (h : Heap α) (d : Deque) (xs : List α) (v : α)
    (H : Holds h d xs) (hroom : 3 * d.all_chunks_ < 2147483648)
    (hn : xs.length + 1 < 2147483648) :
    ∃ h1 d1, d.push_front h v = .ok (h1, d1)
      ∧ d1.size = xs.length + 1
      ∧ d1.index h1 0 = .ok v
      ∧ (∀ i (hi : i < xs.length), d1.index h1 (i + 1) = .ok xs[i])
      ∧ Holds h1 d1 (v :: xs)
      ∧ ∃ h2 d2, d1.pop_front h1 = .ok (h2, d2)
          ∧ d2.size = xs.length
          ∧ (∀ i (hi : i < xs.length), d2.index h2 i = .ok xs[i])
          ∧ Holds h2 d2 xs := by
  obtain ⟨t, table, H⟩ := H
  obtain ⟨h1, d1, t1, table1, hpf, H1⟩ := push_front_holds H hroom hn v
  obtain ⟨h2, d2, hpop, H2⟩ := pop_front_holds H1
  refine ⟨h1, d1, hpf, ?_, ?_, ?_, ⟨t1, table1, H1⟩, h2, d2, hpop, size_of_holds H2,
    fun i hi => index_of_holds H2 i hi, ⟨t1, table1, H2⟩⟩
  · rw [size_of_holds H1]
    simp
  · rw [index_of_holds H1 0 (by simp)]
    simp
  · intro i hi
    rw [index_of_holds H1 (i + 1) (by simp; omega)]
    simp

theorem push_front_spec_witness :
    chunksAfter (frontDeque.push_front frontHeap 7) = 3
    ∧ elementsAfter (frontDeque.push_front frontHeap 7) = [.ok 7, .ok 5, .ok 6]
    ∧ ∃ h1 d1, frontDeque.push_front frontHeap 7 = .ok (h1, d1)
      ∧ d1.size = 2 + 1
      ∧ d1.index h1 0 = .ok 7
      ∧ (∀ i (hi : i < 2), d1.index h1 (i + 1) = .ok [5, 6][i])
      ∧ Holds h1 d1 (7 :: [5, 6])
      ∧ ∃ h2 d2, d1.pop_front h1 = .ok (h2, d2)
          ∧ d2.size = 2
          ∧ (∀ i (hi : i < 2), d2.index h2 i = .ok [5, 6][i])
          ∧ Holds h2 d2 [5, 6] :=
  ⟨by rfl, by rfl, push_front_spec frontHeap frontDeque [5, 6] 7 frontDeque_holds (by decide)
    (by decide)⟩

theorem eraseIdx_inserted {α : Type} (xs : List α) (v : α) (k : Nat) (hk : k ≤ xs.length) :
    (xs.take k ++ v :: xs.drop k).eraseIdx k = xs := by
  have hlt : (xs.take k).length = k := by
    rw [List.length_take]
    omega
  rw [List.eraseIdx_append_of_length_le (by omega), hlt, Nat.sub_self]
  simp

/-- C24: in a well-formed deque holding `xs`, where three times the number of
chunks and `xs.length + 1` are values of `int`, `begin() + k` returns an iterator
for `k ≤ xs.length`; `insert(begin() + k, v)` returns and leaves the elements
before position `k`, then `v`, then the rest; `erase(begin() + k)` with
`k < xs.length` returns and leaves `xs` without `xs[k]`; and `erase(begin() + k)`
after the insertion leaves `xs` again.  Both loops end within `xs.length + 1`
iterations. -/
theorem insert_erase_spec {α : Type} (h : Heap α) (d : Deque) (xs : List α) (v : α)
    (k fuel : Nat) (H : Holds h d xs) (hroom : 3 * d.all_chunks_ < 2147483648)
    (hn : xs.length + 1 < 2147483648)
    (hk : k ≤ xs.length) (hf : xs.length < fuel) :
    ∃ tmp, d.begin_.add h.tables k = .ok tmp
      ∧ (∃ h1 d1, d.insert fuel h tmp v = some (.ok (h1, d1))
          ∧ Holds h1 d1 (xs.take k ++ v :: xs.drop k)
          ∧ d1.size = xs.length + 1
          ∧ d1.toList h1 = (xs.take k ++ v :: xs.drop k).map .ok
          ∧ ∃ tmp1, d1.begin_.add h1.tables k = .ok tmp1
              ∧ ∃ h2 d2, d1.erase fuel h1 tmp1 = some (.ok (h2, d2))
                  ∧ Holds h2 d2 xs ∧ d2.size = xs.length ∧ d2.toList h2 = xs.map .ok)
      ∧ (k < xs.length →
          ∃ h1 d1, d.erase fuel h tmp = some (.ok (h1, d1))
            ∧ Holds h1 d1 (xs.eraseIdx k)
            ∧ d1.size = xs.length - 1
            ∧ d1.toList h1 = (xs.eraseIdx k).map .ok) := by
  obtain ⟨t, table, H⟩ := H
  have hlt : (xs.take k).length = k := by
    rw [List.length_take]
    omega
  obtain ⟨tmp, htmp, hv, hp⟩ := begin_add_valid H k hk
  refine ⟨tmp, htmp, ?_, ?_⟩
  · obtain ⟨h1, d1, t1, table1, hins, H1⟩ := insert_holds H hroom hn v k hk tmp hp fuel hf
    have hlen1 : (xs.take k ++ v :: xs.drop k).length = xs.length + 1 := by
      simp only [List.length_append, List.length_cons, hlt, List.length_drop]
      omega
    obtain ⟨tmp1, htmp1, hv1, hp1⟩ := begin_add_valid H1 k (by omega)
    obtain ⟨h2, d2, her, H2, _⟩ := erase_holds H1 k (by omega) tmp1 hv1 hp1 fuel (by omega)
    rw [eraseIdx_inserted xs v k hk] at H2
    refine ⟨h1, d1, hins, ⟨t1, table1, H1⟩, ?_, toList_of_holds H1, tmp1, htmp1, h2, d2, her,
      ⟨t1, table1, H2⟩, size_of_holds H2, toList_of_holds H2⟩
    rw [size_of_holds H1, hlen1]
  · intro hk1
    obtain ⟨h1, d1, her, H1, _⟩ := erase_holds H k hk1 tmp hv hp fuel (by omega)
    refine ⟨h1, d1, her, ⟨t, table, H1⟩, ?_, toList_of_holds H1⟩
    rw [size_of_holds H1, List.length_eraseIdx, if_pos hk1]

theorem insert_erase_spec_witness :
    frontDeque.begin_.add frontHeap.tables 1 = .ok ⟨1, 0, some 0, some (0, 1)⟩
    ∧ elementsAfter ((frontDeque.insert 3 frontHeap ⟨1, 0, some 0, some (0, 1)⟩
      7).getD (.error .undefined)) = [.ok 5, .ok 7, .ok 6]
    ∧ elementsAfter ((frontDeque.erase 3 frontHeap ⟨1, 0, some 0, some (0, 1)⟩).getD
      (.error .undefined)) = [.ok 5]
    ∧ ∃ tmp, frontDeque.begin_.add frontHeap.tables (1 : Nat) = .ok tmp
      ∧ (∃ h1 d1, frontDeque.insert 3 frontHeap tmp 7 = some (.ok (h1, d1))
          ∧ Holds h1 d1 ([5, 6].take 1 ++ 7 :: [5, 6].drop 1)
          ∧ d1.size = 2 + 1
          ∧ d1.toList h1 = ([5, 6].take 1 ++ 7 :: [5, 6].drop 1).map .ok
          ∧ ∃ tmp1, d1.begin_.add h1.tables (1 : Nat) = .ok tmp1
              ∧ ∃ h2 d2, d1.erase 3 h1 tmp1 = some (.ok (h2, d2))
                  ∧ Holds h2 d2 [5, 6] ∧ d2.size = 2 ∧ d2.toList h2 = [5, 6].map .ok)
      ∧ (1 < 2 →
          ∃ h1 d1, frontDeque.erase 3 frontHeap tmp = some (.ok (h1, d1))
            ∧ Holds h1 d1 ([5, 6].eraseIdx 1)
            ∧ d1.size = 2 - 1
            ∧ d1.toList h1 = ([5, 6].eraseIdx 1).map .ok) :=
  ⟨by rfl, by rfl, by rfl,
    insert_erase_spec frontHeap frontDeque [5, 6] 7 1 3 frontDeque_holds (by decide)
      (by decide) (by decide) (by decide)⟩

/-- C27 fails for an iterator whose table read is undefined.  For the iterator
the constructor `common_iterator()` builds (`index_` 0, both pointers null),
`it + 5` reads `out_it_[0]` through the null pointer: the call is undefined,
no iterator with a linear position comes back, and so is `it - 5`.  The same
for `end() + 40` of a deque with one chunk, which reads the entry 1 of a table
of one entry. -/
theorem iterator_arithmetic_fails :
    common_iterator.create.add [] 5 = .error .undefined
    ∧ common_iterator.create.add frontHeap.tables 5 = .error .undefined
    ∧ common_iterator.create.sub frontHeap.tables 5 = .error .undefined
    ∧ frontDeque.end_.add frontHeap.tables 40 = .error .undefined :=
  ⟨by rfl, by rfl, by rfl, by rfl⟩

/-- C27 (amended): iterator arithmetic is consistent with the linear position
`32 * out_index_ + index_` inside a live table.  Let `it` have `0 ≤ index_ < 32`,
`out_it_` a table that has not been deleted, of fewer than `2 ^ 31` entries, and
`out_index_` inside it, and let `n` be an `int` with `-n` an `int`, such that the
chunk index of the position `n` further is inside the table too.  Then `it + n`
returns an iterator with `0 ≤ index_ < 32` whose linear position is that of `it`
plus `n`, `(it + n) - it` is `n`, and `(it + n) - n` returns an iterator with the
coordinates and the table of `it`, the slot pointer of those coordinates, and
`operator==` holds between it and `it`.  For `a` and `b` with `0 ≤ index_ < 32`
whose difference is an `int`, `a < b` holds iff `b - a > 0`. -/
theorem iterator_arithmetic (tables : List (Option (List Nat))) (t : Nat) (table : List Nat)
    (it a b : common_iterator) (n : Int)
    (htab : tables[t]? = some (some table)) (hcap : table.length < 2147483648)
    (hit : it.out_it_ = some t)
    (hi0 : 0 ≤ it.index_) (hi1 : it.index_ < 32)
    (ho0 : 0 ≤ it.out_index_) (ho1 : it.out_index_ < table.length)
    (hn0 : -2147483648 < n) (hn1 : n < 2147483648)
    (hq0 : 0 ≤ (it.pos + n) / 32) (hq1 : (it.pos + n) / 32 < table.length)
    (ha0 : 0 ≤ a.index_) (ha1 : a.index_ < 32) (hb0 : 0 ≤ b.index_) (hb1 : b.index_ < 32)
    (hd0 : -2147483648 ≤ b.pos - a.pos) (hd1 : b.pos - a.pos < 2147483648) :
    (∃ j, it.add tables n = .ok j
      ∧ (0 ≤ j.index_ ∧ j.index_ < 32)
      ∧ j.pos = it.pos + n
      ∧ j.diff it = n
      ∧ ∃ k, j.sub tables n = .ok k
          ∧ k.index_ = it.index_ ∧ k.out_index_ = it.out_index_ ∧ k.out_it_ = it.out_it_
          ∧ k.it_ = slotAddr tables it.out_it_ it.out_index_ it.index_
          ∧ k.eq it = true)
    ∧ (a.lt b = true ↔ 0 < b.diff a) := by
  have hpit : it.pos = 32 * it.out_index_ + it.index_ := rfl
  obtain ⟨j, hj, jv, jp⟩ := addAssign_inside tables t table htab hcap it hit hi0 hi1
    (by omega) n hn0 hn1 (by omega) (by omega)
  have hjp : j.pos = 32 * j.out_index_ + j.index_ := rfl
  obtain ⟨k, hk, kv, kp⟩ := subAssign_inside tables t table htab hcap j jv.out_it
    jv.index_lo jv.index_hi (by have := jv.out_hi; omega) n hn0 hn1 (by omega) (by omega)
  have hsame : k.pos = it.pos := by
    rw [kp, jp]
    ring
  obtain ⟨c1, c2⟩ := coords_of_pos _ _ kv.index_lo kv.index_hi hi0 hi1 hsame
  have hkit : k.it_ = slotAddr tables it.out_it_ it.out_index_ it.index_ := by
    rw [kv.it_eq, hit, slotAddr_eq tables t table htab _ _ ho0 hi0 hi1, hsame, hpit]
  refine ⟨⟨j, hj, ⟨jv.index_lo, jv.index_hi⟩, jp, ?_, k, hk, c1, c2, ?_, hkit, ?_⟩, ?_⟩
  · rw [diff_spec _ _ (by omega) (by omega), jp]
    ring
  · rw [kv.out_it, hit]
  · show (k.diff it == 0) = true
    rw [diff_spec _ _ (by omega) (by omega), hsame]
    simp
  · rw [lt_spec a b ha0 ha1 hb0 hb1, diff_spec b a hd0 hd1]
    omega

theorem iterator_arithmetic_witness :
    (⟨30, 0, some 0, some (0, 30)⟩ : common_iterator).add [some [0, 1, 2]] 5
      = .ok ⟨3, 1, some 0, some (1, 3)⟩
    ∧ (⟨3, 1, some 0, some (1, 3)⟩ : common_iterator).sub [some [0, 1, 2]] 5
      = .ok ⟨30, 0, some 0, some (0, 30)⟩
    ∧ (∃ j, (⟨30, 0, some 0, some (0, 30)⟩ : common_iterator).add [some [0, 1, 2]] 5 = .ok j
      ∧ (0 ≤ j.index_ ∧ j.index_ < 32)
      ∧ j.pos = (⟨30, 0, some 0, some (0, 30)⟩ : common_iterator).pos + 5
      ∧ j.diff ⟨30, 0, some 0, some (0, 30)⟩ = 5
      ∧ ∃ k, j.sub [some [0, 1, 2]] 5 = .ok k
          ∧ k.index_ = 30 ∧ k.out_index_ = 0 ∧ k.out_it_ = some 0
          ∧ k.it_ = slotAddr [some [0, 1, 2]] (some 0) 0 30
          ∧ k.eq ⟨30, 0, some 0, some (0, 30)⟩ = true)
    ∧ ((⟨30, 0, some 0, some (0, 30)⟩ : common_iterator).lt ⟨3, 1, some 0, some (1, 3)⟩ = true
        ↔ 0 < (⟨3, 1, some 0, some (1, 3)⟩ : common_iterator).diff
            ⟨30, 0, some 0, some (0, 30)⟩) :=
  ⟨by rfl, by rfl,
    iterator_arithmetic [some [0, 1, 2]] 0 [0, 1, 2] ⟨30, 0, some 0, some (0, 30)⟩
      ⟨30, 0, some 0, some (0, 30)⟩ ⟨3, 1, some 0, some (1, 3)⟩ 5
      (by rfl) (by decide) (by rfl) (by decide) (by decide) (by decide) (by decide)
      (by decide) (by decide) (by decide) (by decide) (by decide) (by decide) (by decide)
      (by decide) (by decide) (by decide)⟩

end DequeModel

namespace ListModel

/-! ## StackAllocator -/

theorem alignUp_ge (al p : Nat) (hal : 0 < al) : p ≤ alignUp al p := by
  unfold alignUp
  have h := Nat.lt_div_mul_add (a := p + al - 1) hal
  omega

theorem alignUp_dvd (al p : Nat) : al ∣ alignUp al p := by
  unfold alignUp
  exact Nat.dvd_mul_left _ _

theorem alignUp_least (al p q : Nat) (hal : 0 < al) (hq : p ≤ q) (hdvd : al ∣ q) :
    alignUp al p ≤ q := by
  obtain ⟨k, rfl⟩ := hdvd
  unfold alignUp
  have h1 : (p + al - 1) / al ≤ k := by
    apply Nat.le_of_lt_succ
    rw [Nat.div_lt_iff_lt_mul hal, Nat.succ_mul, Nat.mul_comm k al]
    omega
  calc (p + al - 1) / al * al ≤ k * al := Nat.mul_le_mul_right _ h1
    _ = al * k := Nat.mul_comm _ _

theorem allocate_eq (sizeofT alignofT : Nat) (st : StackStorage) (count : Nat)
    (hal : 0 < alignofT) (hc : st.capacity ≤ st.N) (hN : st.N < SIZE_T_MOD) :
    StackAllocator.allocate sizeofT alignofT st count
      = if alignUp alignofT (st.data_ + st.capacity) + sizeofT * count % SIZE_T_MOD
            ≤ st.data_ + st.N then
          (.ok (alignUp alignofT (st.data_ + st.capacity)),
            { st with capacity := alignUp alignofT (st.data_ + st.capacity) - st.data_
                + sizeofT * count % SIZE_T_MOD })
        else (.error .bad_alloc, st) := by
  have hge := alignUp_ge alignofT (st.data_ + st.capacity) hal
  have hcomm : st.capacity + st.data_ = st.data_ + st.capacity := Nat.add_comm _ _
  generalize hsz : sizeofT * count % SIZE_T_MOD = size
  unfold StackAllocator.allocate std_align
  simp only [hsz, hcomm]
  change _ = if alignUp alignofT (st.data_ + st.capacity) + size ≤ st.data_ + st.N then _ else _
  generalize alignUp alignofT (st.data_ + st.capacity) = A at hge ⊢
  have hmx : (st.N + SIZE_T_MOD - st.capacity) % SIZE_T_MOD = st.N - st.capacity := by
    unfold SIZE_T_MOD at hN ⊢
    omega
  rw [hmx]
  by_cases h1 : st.N - st.capacity < size
  · have : ¬ A + size ≤ st.data_ + st.N := by omega
    simp [h1, this]
  · by_cases h2 : st.N - st.capacity - size < A - (st.data_ + st.capacity)
    · have : ¬ A + size ≤ st.data_ + st.N := by omega
      simp [h1, h2, this]
    · have h3 : A + size ≤ st.data_ + st.N := by omega
      simp only [h1, h2, h3, if_true, if_false]
      congr 2
      unfold SIZE_T_MOD at hN ⊢
      omega

theorem runCalls_regions (calls : List AllocCall) :
    ∀ st : StackStorage, st.capacity ≤ st.N → st.N < SIZE_T_MOD →
      (∀ c ∈ calls, c.wellFormed = true) →
      (runCalls st calls).1.Pairwise (fun r1 r2 => r1.1 + r1.2 ≤ r2.1)
      ∧ (∀ r ∈ (runCalls st calls).1,
          st.data_ + st.capacity ≤ r.1 ∧ r.1 + r.2 ≤ st.data_ + st.N)
      ∧ st.capacity ≤ (runCalls st calls).2.capacity
      ∧ (runCalls st calls).2.capacity ≤ st.N
      ∧ (runCalls st calls).2.N = st.N ∧ (runCalls st calls).2.data_ = st.data_ := by
  induction calls with
  | nil =>
    intro st hc _ _
    simp [runCalls, hc]
  | cons c cs ih =>
    intro st hc hN hwf
    have hwfc := hwf c (List.mem_cons_self _ _)
    have hwfcs : ∀ c1 ∈ cs, c1.wellFormed = true := fun c1 h => hwf c1 (List.mem_cons_of_mem _ h)
    cases c with
    | deallocate ptr count =>
      simpa [runCalls, StackAllocator.deallocate] using ih st hc hN hwfcs
    | allocate sizeofT alignofT count =>
      have hwf2 : 0 < alignofT ∧ sizeofT * count < SIZE_T_MOD := by
        simpa [AllocCall.wellFormed] using hwfc
      have hal : 0 < alignofT := hwf2.1
      have heq := allocate_eq sizeofT alignofT st count hal hc hN
      rw [Nat.mod_eq_of_lt hwf2.2] at heq
      have hge := alignUp_ge alignofT (st.data_ + st.capacity) hal
      by_cases hfit : alignUp alignofT (st.data_ + st.capacity) + sizeofT * count
          ≤ st.data_ + st.N
      · rw [if_pos hfit] at heq
        have hc1 : alignUp alignofT (st.data_ + st.capacity) - st.data_
            + sizeofT * count ≤ st.N := by omega
        obtain ⟨ih1, ih2, ih3, ih4, ih5, ih6⟩ :=
          ih { st with capacity := alignUp alignofT (st.data_ + st.capacity) - st.data_
                + sizeofT * count } hc1 hN hwfcs
        simp only [runCalls, heq]
        refine ⟨?_, ?_, ?_, ih4, ih5, ih6⟩
        · rw [List.pairwise_cons]
          refine ⟨?_, ih1⟩
          intro r hr
          have := (ih2 r hr).1
          simp only at this ⊢
          omega
        · intro r hr
          rcases List.mem_cons.mp hr with rfl | hr
          · simp only
            omega
          · have := ih2 r hr
            simp only at this ⊢
            omega
        · simp only at ih3 ⊢
          omega
      · rw [if_neg hfit] at heq
        simpa [runCalls, heq] using ih st hc hN hwfcs

/-- C29 (counterexample): a storage of 16 bytes with `capacity = 0`, a type with
`sizeof(T) = alignof(T) = 4` and `count = 2 ^ 62`.  The request is for `2 ^ 64`
bytes, which the 16 bytes after the first aligned address do not hold, but the
`size_t` product `sizeof(T) * count` is `0`: `allocate` returns the address
instead of throwing and leaves `capacity` at `0`, and the next `allocate(1)`
returns the same address. -/
theorem allocate_overflow :
    ¬ (alignUp 4 (1000 + 0) + 4 * 2 ^ 62 ≤ 1000 + 16) ∧
    StackAllocator.allocate 4 4 ⟨16, 1000, 0⟩ (2 ^ 62) = (.ok 1000, ⟨16, 1000, 0⟩) ∧
    runCalls ⟨16, 1000, 0⟩ [.allocate 4 4 (2 ^ 62), .allocate 4 4 1]
      = ([(1000, 4 * 2 ^ 62), (1000, 4)], ⟨16, 1000, 4⟩) := by
  refine ⟨by decide, by rfl, by rfl⟩

/-- C29 (amended): `StackAllocator<T, N>::allocate(count)` on a storage with
`capacity ≤ N`, for a type with `sizeof(T) = sizeofT` and a positive
`alignof(T) = alignofT`, and a `count` whose byte size `sizeof(T) * count` is
representable in a `size_t`.  If the first `alignofT`-aligned address at or
after `data_ + capacity` leaves `sizeof(T) * count` bytes before `data_ + N`,
`allocate` returns that address and sets `capacity` to (returned address -
`data_`) + `sizeof(T) * count`, which is at most `N`; otherwise it throws
`std::bad_alloc` and leaves the storage as it is.  `deallocate` leaves the
storage as it is.  Consequently, over any sequence of such calls, the regions
handed out lie inside the array and never overlap (each starts at or after the
end of every earlier one), and `capacity` never decreases. -/
theorem allocate_spec (sizeofT alignofT : Nat) (st : StackStorage) (count : Nat)
    (hal : 0 < alignofT) (hc : st.capacity ≤ st.N) (hN : st.N < SIZE_T_MOD)
    (hsz : sizeofT * count < SIZE_T_MOD) :
    (alignUp alignofT (st.data_ + st.capacity) + sizeofT * count ≤ st.data_ + st.N →
      StackAllocator.allocate sizeofT alignofT st count
        = (.ok (alignUp alignofT (st.data_ + st.capacity)),
            { st with capacity := alignUp alignofT (st.data_ + st.capacity) - st.data_
                + sizeofT * count })
      ∧ alignUp alignofT (st.data_ + st.capacity) - st.data_ + sizeofT * count ≤ st.N) ∧
    (¬ alignUp alignofT (st.data_ + st.capacity) + sizeofT * count ≤ st.data_ + st.N →
      StackAllocator.allocate sizeofT alignofT st count = (.error .bad_alloc, st)) ∧
    (alignofT ∣ alignUp alignofT (st.data_ + st.capacity)
      ∧ st.data_ + st.capacity ≤ alignUp alignofT (st.data_ + st.capacity)
      ∧ ∀ q, st.data_ + st.capacity ≤ q → alignofT ∣ q →
          alignUp alignofT (st.data_ + st.capacity) ≤ q) ∧
    (∀ ptr n, StackAllocator.deallocate st ptr n = st) ∧
    (∀ calls : List AllocCall, (∀ c ∈ calls, c.wellFormed = true) →
      (runCalls st calls).1.Pairwise (fun r1 r2 => r1.1 + r1.2 ≤ r2.1)
      ∧ (∀ r ∈ (runCalls st calls).1,
          st.data_ + st.capacity ≤ r.1 ∧ r.1 + r.2 ≤ st.data_ + st.N)
      ∧ st.capacity ≤ (runCalls st calls).2.capacity
      ∧ (runCalls st calls).2.capacity ≤ st.N) := by
  have heq := allocate_eq sizeofT alignofT st count hal hc hN
  rw [Nat.mod_eq_of_lt hsz] at heq
  have hge := alignUp_ge alignofT (st.data_ + st.capacity) hal
  refine ⟨?_, ?_, ⟨alignUp_dvd _ _, hge, fun q h1 h2 => alignUp_least _ _ q hal h1 h2⟩,
    fun _ _ => rfl, ?_⟩
  · intro hfit
    rw [if_pos hfit] at heq
    exact ⟨heq, by omega⟩
  · intro hfit
    rw [if_neg hfit] at heq
    exact heq
  · intro calls hwf
    obtain ⟨h1, h2, h3, h4, _, _⟩ := runCalls_regions calls st hc hN hwf
    exact ⟨h1, h2, h3, h4⟩

/-- Witness for C29: in a storage of 16 bytes at address 1000 with 3 bytes in
use, `allocate(2)` of a 4-byte type returns 1004 and sets `capacity` to 12,
`allocate(4)` throws, and a sequence of calls hands out disjoint regions. -/
theorem allocate_spec_witness :
    (StackAllocator.allocate 4 4 storage16 2 = (.ok 1004, ⟨16, 1000, 12⟩)
      ∧ alignUp 4 (storage16.data_ + storage16.capacity) - storage16.data_ + 4 * 2
          ≤ storage16.N) ∧
    StackAllocator.allocate 4 4 storage16 4 = (.error .bad_alloc, storage16) ∧
    ((runCalls storage16 [.allocate 4 4 2, .deallocate 1004 2, .allocate 1 1 3,
          .allocate 8 8 1, .allocate 1 1 1]).1.Pairwise (fun r1 r2 => r1.1 + r1.2 ≤ r2.1)
      ∧ (∀ r ∈ (runCalls storage16 [.allocate 4 4 2, .deallocate 1004 2, .allocate 1 1 3,
          .allocate 8 8 1, .allocate 1 1 1]).1,
          storage16.data_ + storage16.capacity ≤ r.1
          ∧ r.1 + r.2 ≤ storage16.data_ + storage16.N)
      ∧ storage16.capacity ≤ (runCalls storage16 [.allocate 4 4 2, .deallocate 1004 2,
          .allocate 1 1 3, .allocate 8 8 1, .allocate 1 1 1]).2.capacity
      ∧ (runCalls storage16 [.allocate 4 4 2, .deallocate 1004 2, .allocate 1 1 3,
          .allocate 8 8 1, .allocate 1 1 1]).2.capacity ≤ storage16.N) ∧
    runCalls storage16 [.allocate 4 4 2, .deallocate 1004 2, .allocate 1 1 3,
          .allocate 8 8 1, .allocate 1 1 1]
      = ([(1004, 8), (1012, 3), (1015, 1)], ⟨16, 1000, 16⟩) :=
  ⟨(allocate_spec 4 4 storage16 2 (by decide) (by decide) (by decide) (by decide)).1
      (by decide),
   (allocate_spec 4 4 storage16 4 (by decide) (by decide) (by decide) (by decide)).2.1
      (by decide),
   (allocate_spec 4 4 storage16 2 (by decide) (by decide) (by decide) (by decide)).2.2.2.2
      _ (by decide),
   by decide⟩

/-! ## List: node memory -/

theorem lookup_lt {α : Type} (mem : List (Option (Node α))) (p : Nat) (n : Node α)
    (h : lookup mem p = some n) : p < mem.length := by
  unfold lookup at h
  by_contra hge
  rw [List.getElem?_eq_none (by omega)] at h
  cases h

theorem lookup_append {α : Type} (mem : List (Option (Node α))) (c : Node α) (q : Nat) :
    lookup (mem ++ [some c]) q = if q = mem.length then some c else lookup mem q := by
  unfold lookup
  by_cases h1 : q = mem.length
  · subst h1
    simp
  · rw [if_neg h1]
    by_cases h2 : q < mem.length
    · rw [List.getElem?_append_left h2]
    · rw [List.getElem?_eq_none (by simp; omega), List.getElem?_eq_none (by omega)]

theorem lookup_set {α : Type} (mem : List (Option (Node α))) (p : Nat) (x : Option (Node α))
    (hp : p < mem.length) (q : Nat) :
    lookup (mem.set p x) q = if q = p then x else lookup mem q := by
  unfold lookup
  by_cases h1 : q = p
  · subst h1
    rw [if_pos rfl, List.getElem?_set_self hp]
    cases x <;> rfl
  · rw [if_neg h1, List.getElem?_set_ne (fun h => h1 h.symm)]

/-- A write to a live node succeeds and changes that node only. -/
theorem update_spec {α : Type} (mem : List (Option (Node α))) (p : Nat)
    (f : Node α → Node α) (n : Node α) (hp : lookup mem p = some n) :
    ∃ mem1, update mem p f = .ok mem1
      ∧ ∀ q, lookup mem1 q = if q = p then some (f n) else lookup mem q := by
  refine ⟨mem.set p (some (f n)), ?_, ?_⟩
  · unfold update
    rw [hp]
  · intro q
    exact lookup_set mem p _ (lookup_lt mem p n hp) q

theorem release_spec {α : Type} (mem : List (Option (Node α))) (p : Nat) (v : α)
    (hp : valueOf mem p = some v) :
    ∃ mem1, release mem p = .ok mem1
      ∧ ∀ q, lookup mem1 q = if q = p then none else lookup mem q := by
  have hlive : ∃ n, lookup mem p = some n := by
    unfold valueOf at hp
    cases hl : lookup mem p with
    | none => rw [hl] at hp; cases hp
    | some n => exact ⟨n, rfl⟩
  obtain ⟨n, hn⟩ := hlive
  refine ⟨mem.set p none, ?_, ?_⟩
  · unfold release
    rw [hp]
  · intro q
    exact lookup_set mem p _ (lookup_lt mem p n hn) q

theorem nextOf_some_live {α : Type} (mem : List (Option (Node α))) (p y : Nat)
    (h : nextOf mem p = some y) : ∃ n, lookup mem p = some n ∧ n.next = some y := by
  unfold nextOf at h
  cases hl : lookup mem p with
  | none => rw [hl] at h; cases h
  | some n => rw [hl] at h; exact ⟨n, rfl, h⟩

theorem prevOf_some_live {α : Type} (mem : List (Option (Node α))) (p y : Nat)
    (h : prevOf mem p = some y) : ∃ n, lookup mem p = some n ∧ n.prev = some y := by
  unfold prevOf at h
  cases hl : lookup mem p with
  | none => rw [hl] at h; cases h
  | some n => rw [hl] at h; exact ⟨n, rfl, h⟩

/-- What `insert(pos, value)` does to the memory, for a position whose
predecessor is `before`: the new node, at the first address past the memory,
is linked between `before` and `pos`; nothing else changes. -/
theorem insert_effect {α : Type} (mem : List (Option (Node α))) (l : LinkedList)
    (pos before : Nat) (value : α) (y : Nat)
    (hprev : prevOf mem pos = some before) (hnext : nextOf mem before = some y) :
    ∃ mem1, l.insert mem pos value
        = .ok (mem1, { l with size_ := (l.size_ + 1) % SIZE_T_MOD })
      ∧ (∀ q, nextOf mem1 q = if q = mem.length then some pos
          else if q = before then some mem.length else nextOf mem q)
      ∧ (∀ q, prevOf mem1 q = if q = mem.length then some before
          else if q = pos then some mem.length else prevOf mem q)
      ∧ (∀ q, valueOf mem1 q = if q = mem.length then some value else valueOf mem q) := by
  obtain ⟨np, hnp, hnpp⟩ := prevOf_some_live mem pos before hprev
  obtain ⟨nb, hnb, _⟩ := nextOf_some_live mem before y hnext
  have hpos_lt := lookup_lt mem pos np hnp
  have hbef_lt := lookup_lt mem before nb hnb
  have h1 := lookup_append mem ⟨none, none, some value⟩
  have hdec : decrement (mem ++ [some ⟨none, none, some value⟩]) pos = .ok before := by
    unfold decrement prevOf
    rw [h1, if_neg (by omega), hnp]
    simp [orUndefined, hnpp]
  obtain ⟨mem2, e2, h2⟩ := update_spec (mem ++ [some ⟨none, none, some value⟩]) before
    (fun n => { n with next := some mem.length }) nb
    (by rw [h1, if_neg (by omega)]; exact hnb)
  have hl2 : ∃ n2, lookup mem2 pos = some n2 := by
    rw [h2]
    split_ifs
    · exact ⟨_, rfl⟩
    · rw [h1, if_neg (by omega)]
      exact ⟨_, hnp⟩
  obtain ⟨n2, hn2⟩ := hl2
  obtain ⟨mem3, e3, h3⟩ := update_spec mem2 pos (fun n => { n with prev := some mem.length })
    n2 hn2
  have hl3 : lookup mem3 mem.length = some ⟨none, none, some value⟩ := by
    rw [h3, if_neg (by omega), h2, if_neg (by omega), h1, if_pos rfl]
  obtain ⟨mem4, e4, h4⟩ := update_spec mem3 mem.length (fun n => { n with next := some pos })
    _ hl3
  have hl4 : lookup mem4 mem.length = some ⟨some pos, none, some value⟩ := by
    rw [h4, if_pos rfl]
  obtain ⟨mem5, e5, h5⟩ := update_spec mem4 mem.length
    (fun n => { n with prev := some before }) _ hl4
  have hall : ∀ q, lookup mem5 q = if q = mem.length then some ⟨some pos, some before, some value⟩
      else if q = pos then some { n2 with prev := some mem.length }
      else if q = before then some { nb with next := some mem.length }
      else lookup mem q := by
    intro q
    rw [h5, h4, h3, h2, h1]
    by_cases c1 : q = mem.length
    · rw [if_pos c1, if_pos c1]
    · rw [if_neg c1, if_neg c1, if_neg c1, if_neg c1]
  have hn2eq : n2 = if pos = before then { nb with next := some mem.length } else np := by
    have := hn2
    rw [h2] at this
    by_cases hc : pos = before
    · rw [if_pos hc] at this
      rw [if_pos hc]
      exact (Option.some.inj this).symm
    · rw [if_neg hc, h1, if_neg (by omega), hnp] at this
      rw [if_neg hc]
      exact (Option.some.inj this).symm
  refine ⟨mem5, ?_, ?_, ?_, ?_⟩
  · unfold LinkedList.insert
    simp only [hdec, setNext, setPrev, e2, e3, e4, e5, bind, Except.bind, pure, Except.pure]
  · intro q
    show (match lookup mem5 q with | some n => n.next | none => none) = _
    rw [hall]
    by_cases c1 : q = mem.length
    · rw [if_pos c1, if_pos c1]
    · rw [if_neg c1, if_neg c1]
      by_cases c2 : q = pos
      · rw [if_pos c2, hn2eq]
        by_cases c3 : q = before
        · rw [if_pos c3, if_pos (c2.symm.trans c3)]
        · rw [if_neg c3, if_neg (fun h => c3 (c2.trans h))]
          show np.next = nextOf mem q
          unfold nextOf
          rw [c2, hnp]
      · rw [if_neg c2]
        by_cases c3 : q = before
        · rw [if_pos c3, if_pos c3]
        · rw [if_neg c3, if_neg c3]
          rfl
  · intro q
    show (match lookup mem5 q with | some n => n.prev | none => none) = _
    rw [hall]
    by_cases c1 : q = mem.length
    · rw [if_pos c1, if_pos c1]
    · rw [if_neg c1, if_neg c1]
      by_cases c2 : q = pos
      · rw [if_pos c2, if_pos c2]
      · rw [if_neg c2, if_neg c2]
        by_cases c3 : q = before
        · rw [if_pos c3]
          show nb.prev = prevOf mem q
          unfold prevOf
          rw [c3, hnb]
        · rw [if_neg c3]
          rfl
  · intro q
    show (match lookup mem5 q with | some n => n.value | none => none) = _
    rw [hall]
    by_cases c1 : q = mem.length
    · rw [if_pos c1, if_pos c1]
    · rw [if_neg c1, if_neg c1]
      by_cases c2 : q = pos
      · rw [if_pos c2, hn2eq]
        by_cases c3 : pos = before
        · rw [if_pos c3]
          show nb.value = valueOf mem q
          unfold valueOf
          rw [c2, c3, hnb]
        · rw [if_neg c3]
          show np.value = valueOf mem q
          unfold valueOf
          rw [c2, hnp]
      · rw [if_neg c2]
        by_cases c3 : q = before
        · rw [if_pos c3]
          show nb.value = valueOf mem q
          unfold valueOf
          rw [c3, hnb]
        · rw [if_neg c3]
          rfl

/-- What `erase(pos)` does to the memory, for a node `pos` linked between
`before` and `after`: the node is released and its neighbours are linked to
each other; nothing else changes. -/
theorem erase_effect {α : Type} (mem : List (Option (Node α))) (l : LinkedList)
    (pos before after : Nat) (v : α)
    (hprev : prevOf mem pos = some before) (hbn : nextOf mem before = some pos)
    (hnext : nextOf mem pos = some after) (hap : prevOf mem after = some pos)
    (hval : valueOf mem pos = some v) (hbp : before ≠ pos) (hapos : after ≠ pos) :
    ∃ mem1, l.erase mem pos
        = .ok (mem1, { l with size_ := (l.size_ + SIZE_T_MOD - 1) % SIZE_T_MOD })
      ∧ lookup mem1 pos = none
      ∧ ∀ q, q ≠ pos →
        (nextOf mem1 q = if q = before then some after else nextOf mem q)
        ∧ (prevOf mem1 q = if q = after then some before else prevOf mem q)
        ∧ valueOf mem1 q = valueOf mem q := by
  obtain ⟨nb, hnb, _⟩ := nextOf_some_live mem before pos hbn
  obtain ⟨na, hna, _⟩ := prevOf_some_live mem after pos hap
  have d1 : decrement mem pos = .ok before := by
    unfold decrement
    rw [hprev]
    rfl
  have i1 : increment mem before = .ok pos := by
    unfold increment
    rw [hbn]
    rfl
  have i2 : increment mem pos = .ok after := by
    unfold increment
    rw [hnext]
    rfl
  have d2 : decrement mem after = .ok pos := by
    unfold decrement
    rw [hap]
    rfl
  obtain ⟨mem1, e1, h1⟩ := release_spec mem pos v hval
  obtain ⟨mem2, e2, h2⟩ := update_spec mem1 before (fun n => { n with next := some after }) nb
    (by rw [h1, if_neg hbp]; exact hnb)
  have hl2 : ∃ n2, lookup mem2 after = some n2
      ∧ n2 = if after = before then { nb with next := some after } else na := by
    rw [h2]
    by_cases hc : after = before
    · rw [if_pos hc, if_pos hc]
      exact ⟨_, rfl, rfl⟩
    · rw [if_neg hc, if_neg hc, h1, if_neg hapos]
      exact ⟨na, hna, rfl⟩
  obtain ⟨n2, hn2, hn2eq⟩ := hl2
  obtain ⟨mem3, e3, h3⟩ := update_spec mem2 after (fun n => { n with prev := some before }) n2
    hn2
  have hall : ∀ q, q ≠ pos → lookup mem3 q
      = if q = after then some { n2 with prev := some before }
        else if q = before then some { nb with next := some after }
        else lookup mem q := by
    intro q hq
    rw [h3, h2, h1, if_neg hq]
  refine ⟨mem3, ?_, ?_, ?_⟩
  · unfold LinkedList.erase
    simp only [d1, i1, i2, d2, e1, setNext, setPrev, e2, e3, bind, Except.bind, pure,
      Except.pure]
  · rw [h3, if_neg (Ne.symm hapos), h2, if_neg (Ne.symm hbp), h1, if_pos rfl]
  · intro q hq
    refine ⟨?_, ?_, ?_⟩
    · show (match lookup mem3 q with | some n => n.next | none => none) = _
      rw [hall q hq]
      by_cases c1 : q = after
      · rw [if_pos c1, hn2eq]
        by_cases c2 : q = before
        · rw [if_pos c2, if_pos (c1.symm.trans c2)]
        · rw [if_neg c2, if_neg (fun h => c2 (c1.trans h))]
          show na.next = nextOf mem q
          unfold nextOf
          rw [c1, hna]
      · rw [if_neg c1]
        by_cases c2 : q = before
        · rw [if_pos c2, if_pos c2]
        · rw [if_neg c2, if_neg c2]
          rfl
    · show (match lookup mem3 q with | some n => n.prev | none => none) = _
      rw [hall q hq]
      by_cases c1 : q = after
      · rw [if_pos c1, if_pos c1]
      · rw [if_neg c1, if_neg c1]
        by_cases c2 : q = before
        · rw [if_pos c2]
          show nb.prev = prevOf mem q
          unfold prevOf
          rw [c2, hnb]
        · rw [if_neg c2]
          rfl
    · show (match lookup mem3 q with | some n => n.value | none => none) = _
      rw [hall q hq]
      by_cases c1 : q = after
      · rw [if_pos c1, hn2eq]
        by_cases c2 : after = before
        · rw [if_pos c2]
          show nb.value = valueOf mem q
          unfold valueOf
          rw [c1, c2, hnb]
        · rw [if_neg c2]
          show na.value = valueOf mem q
          unfold valueOf
          rw [c1, hna]
      · rw [if_neg c1]
        by_cases c2 : q = before
        · rw [if_pos c2]
          show nb.value = valueOf mem q
          unfold valueOf
          rw [c2, hnb]
        · rw [if_neg c2]
          rfl

/-! ## List: rings -/

theorem chain_frame {R S : Nat → Nat → Prop} :
    ∀ (L : List Nat), List.Chain' R L →
      (∀ x ∈ L.dropLast, ∀ y ∈ L.tail, R x y → S x y) → List.Chain' S L
  | [], _, _ => List.chain'_nil
  | [_], _, _ => List.chain'_singleton _
  | a :: b :: r, hc, hf => by
    rw [List.chain'_cons] at hc ⊢
    refine ⟨hf a (by simp) b (by simp) hc.1, ?_⟩
    apply chain_frame (b :: r) hc.2
    intro x hx y hy
    exact hf x (by simp [List.dropLast]; right; simpa using hx) y (by simp; right; exact hy)

theorem mem_dropLast_ne_getLast (L : List Nat) (hnd : L.Nodup) (b : Nat)
    (hb : L.getLast? = some b) (x : Nat) (hx : x ∈ L.dropLast) : x ≠ b := by
  have hsplit := List.dropLast_append_getLast? b hb
  rw [← hsplit] at hnd
  intro hxb
  subst hxb
  have := (List.nodup_append.mp hnd).2.2
  exact this hx (by simp)

theorem mem_tail_ne_head (L : List Nat) (hnd : L.Nodup) (a : Nat)
    (ha : L.head? = some a) (y : Nat) (hy : y ∈ L.tail) : y ≠ a := by
  cases L with
  | nil => cases ha
  | cons c r =>
    simp only [List.head?_cons, Option.some.injEq] at ha
    subst ha
    simp only [List.tail_cons] at hy
    intro hyc
    subst hyc
    exact (List.nodup_cons.mp hnd).1 hy

/-- Every node of a chain but the last has a successor. -/
theorem chain_succ {R : Nat → Nat → Prop} :
    ∀ (L : List Nat) (z : Nat), List.Chain' R (L ++ [z]) → ∀ m ∈ L, ∃ y, R m y
  | [], _, _, _, hm => by cases hm
  | [a], z, hc, m, hm => by
    simp only [List.mem_singleton] at hm
    subst hm
    exact ⟨z, by simpa using hc⟩
  | a :: b :: r, z, hc, m, hm => by
    rw [List.cons_append, List.cons_append, List.chain'_cons] at hc
    rcases List.mem_cons.mp hm with h | h
    · subst h
      exact ⟨b, hc.1⟩
    · exact chain_succ (b :: r) z hc.2 m h

/-- Every node of a chain but the first has a predecessor. -/
theorem chain_pred {R : Nat → Nat → Prop} :
    ∀ (L : List Nat) (z : Nat), List.Chain' R (z :: L) → ∀ m ∈ L, ∃ x, R x m
  | [], _, _, _, hm => by cases hm
  | a :: r, z, hc, m, hm => by
    rw [List.chain'_cons] at hc
    rcases List.mem_cons.mp hm with h | h
    · subst h
      exact ⟨z, hc.1⟩
    · exact chain_pred r a hc.2 m h

/-- Every node of a ring, the sentinel included, is live. -/
theorem Ring.live {α : Type} {mem : List (Option (Node α))} {s : Nat} {nodes : List (Nat × α)}
    (hR : Ring mem s nodes) (m : Nat) (hm : m ∈ s :: nodes.map Prod.fst) :
    m < mem.length := by
  have hc := hR.chain
  obtain ⟨y, hy, _⟩ := chain_succ _ s hc m hm
  obtain ⟨n, hn, _⟩ := nextOf_some_live mem m y hy
  exact lookup_lt mem m n hn

/-- The facts about a ring split around a position: `L1 = s :: a1` are the
sentinel and the nodes before the position, `L2 = a2 ++ [s]` the nodes from the
position on and the sentinel. -/
theorem split_facts (s : Nat) (a1 a2 : List Nat) (hnd : (s :: (a1 ++ a2)).Nodup)
    (before pos : Nat) (hb : (s :: a1).getLast? = some before)
    (hpos : (a2 ++ [s]).head? = some pos) :
    (∀ x ∈ (s :: a1).dropLast, x ≠ before)
    ∧ (∀ y ∈ a1, y ≠ pos)
    ∧ (∀ x ∈ a2, x ≠ before)
    ∧ (∀ y ∈ (a2 ++ [s]).tail, y ≠ pos) := by
  obtain ⟨hs, hnd12⟩ := List.nodup_cons.mp hnd
  obtain ⟨hnd1, hnd2, hdisj⟩ := List.nodup_append.mp hnd12
  have hs1 : s ∉ a1 := fun h => hs (List.mem_append_left _ h)
  have hs2 : s ∉ a2 := fun h => hs (List.mem_append_right _ h)
  have hL1 : (s :: a1).Nodup := List.nodup_cons.mpr ⟨hs1, hnd1⟩
  have hL2 : (a2 ++ [s]).Nodup := by
    rw [List.nodup_append]
    refine ⟨hnd2, List.nodup_singleton s, ?_⟩
    intro x hx hxs
    rw [List.mem_singleton] at hxs
    subst hxs
    exact hs2 hx
  have hbm : before ∈ s :: a1 := List.mem_of_getLast?_eq_some hb
  have hpm : pos ∈ a2 ++ [s] := List.mem_of_mem_head? hpos
  refine ⟨mem_dropLast_ne_getLast _ hL1 before hb, ?_, ?_, mem_tail_ne_head _ hL2 pos hpos⟩
  · intro y hy hyp
    subst hyp
    rcases List.mem_append.mp hpm with h | h
    · exact hdisj hy h
    · rw [List.mem_singleton] at h
      subst h
      exact hs1 hy
  · intro x hx hxb
    subst hxb
    rcases List.mem_cons.mp hbm with h | h
    · subst h
      exact hs2 hx
    · exact hdisj h hx

/-- Member `insert(pos, value)` in a ring, `pos` being the node after the nodes
`n1` (the sentinel when `n2` is empty): the new node is linked in between. -/
theorem insert_ring {α : Type} (mem : List (Option (Node α))) (l : LinkedList) (s : Nat)
    (n1 n2 : List (Nat × α)) (pos : Nat) (v : α) (hR : Ring mem s (n1 ++ n2))
    (hpos : (n2.map Prod.fst ++ [s]).head? = some pos) :
    ∃ mem1, l.insert mem pos v = .ok (mem1, { l with size_ := (l.size_ + 1) % SIZE_T_MOD })
      ∧ Ring mem1 s (n1 ++ (mem.length, v) :: n2) := by
  have hnd : (s :: (n1.map Prod.fst ++ n2.map Prod.fst)).Nodup := by
    have := hR.nodup
    rwa [List.map_append] at this
  have hc : List.Chain' (Linked mem) ((s :: n1.map Prod.fst) ++ (n2.map Prod.fst ++ [s])) := by
    have := hR.chain
    rwa [List.map_append, ← List.cons_append, List.append_assoc] at this
  obtain ⟨C1, C2, J⟩ := List.chain'_append.mp hc
  have hb : (s :: n1.map Prod.fst).getLast? = some ((s :: n1.map Prod.fst).getLast (by simp)) :=
    List.getLast?_eq_getLast _ _
  generalize (s :: n1.map Prod.fst).getLast (by simp) = before at hb
  have hJ : Linked mem before pos := J before hb pos hpos
  obtain ⟨mem1, hins, hn, hp, hv⟩ := insert_effect mem l pos before v pos hJ.2 hJ.1
  obtain ⟨F1, F2, F3, F4⟩ := split_facts s _ _ hnd before pos hb hpos
  have hlive : ∀ m ∈ s :: (n1.map Prod.fst ++ n2.map Prod.fst), m ≠ mem.length := by
    intro m hm
    have := hR.live m (by rwa [List.map_append])
    omega
  have hbm : before ∈ s :: n1.map Prod.fst := List.mem_of_getLast?_eq_some hb
  have hpm : pos ∈ n2.map Prod.fst ++ [s] := List.mem_of_mem_head? hpos
  have hin1 : ∀ m ∈ s :: n1.map Prod.fst, m ≠ mem.length := by
    intro m hm
    apply hlive
    rcases List.mem_cons.mp hm with h | h
    · exact List.mem_cons.mpr (Or.inl h)
    · exact List.mem_cons.mpr (Or.inr (List.mem_append_left _ h))
  have hin2 : ∀ m ∈ n2.map Prod.fst ++ [s], m ≠ mem.length := by
    intro m hm
    apply hlive
    rcases List.mem_append.mp hm with h | h
    · exact List.mem_cons.mpr (Or.inr (List.mem_append_right _ h))
    · rw [List.mem_singleton] at h
      exact List.mem_cons.mpr (Or.inl h)
  refine ⟨mem1, hins, ?_, ?_, ?_⟩
  · rw [List.map_append, List.map_cons, ← List.cons_append, List.nodup_middle,
      List.nodup_cons]
    refine ⟨?_, hnd⟩
    intro hmem
    exact hlive _ hmem rfl
  · have e : s :: (n1 ++ (mem.length, v) :: n2).map Prod.fst ++ [s]
        = (s :: n1.map Prod.fst) ++ (mem.length :: (n2.map Prod.fst ++ [s])) := by simp
    rw [e, List.chain'_append]
    refine ⟨?_, ?_, ?_⟩
    · apply chain_frame _ C1
      intro x hx y hy hxy
      have hx1 := List.mem_of_mem_dropLast hx
      have hy1 : y ∈ s :: n1.map Prod.fst := List.mem_of_mem_tail hy
      refine ⟨?_, ?_⟩
      · rw [hn, if_neg (hin1 x hx1), if_neg (F1 x hx)]
        exact hxy.1
      · rw [hp, if_neg (hin1 y hy1), if_neg (F2 y (by simpa using hy))]
        exact hxy.2
    · rw [List.chain'_cons']
      refine ⟨?_, ?_⟩
      · intro y hy
        have hyp : y = pos := by
          rw [hpos] at hy
          exact (Option.some.inj hy).symm
        subst hyp
        refine ⟨?_, ?_⟩
        · rw [hn, if_pos rfl]
        · rw [hp, if_neg (hin2 y hpm), if_pos rfl]
      · apply chain_frame _ C2
        intro x hx y hy hxy
        have hx1 : x ∈ n2.map Prod.fst := by simpa using hx
        have hy1 := List.mem_of_mem_tail hy
        refine ⟨?_, ?_⟩
        · rw [hn, if_neg (hin2 x (List.mem_append_left _ hx1)), if_neg (F3 x hx1)]
          exact hxy.1
        · rw [hp, if_neg (hin2 y hy1), if_neg (F4 y hy)]
          exact hxy.2
    · intro x hx y hy
      have hxb : x = before := by
        rw [hb] at hx
        exact (Option.some.inj hx).symm
      have hyt : y = mem.length := by
        simp only [List.head?_cons] at hy
        exact (Option.some.inj hy).symm
      subst hxb hyt
      refine ⟨?_, ?_⟩
      · rw [hn, if_neg (hin1 x hbm), if_pos rfl]
      · rw [hp, if_pos rfl]
  · intro p hp1
    rw [hv]
    rcases List.mem_append.mp hp1 with h | h
    · have hm : p.1 ∈ s :: (n1.map Prod.fst ++ n2.map Prod.fst) :=
        List.mem_cons.mpr (Or.inr (List.mem_append_left _ (List.mem_map_of_mem _ h)))
      rw [if_neg (hlive _ hm)]
      exact hR.values p (List.mem_append_left _ h)
    · rcases List.mem_cons.mp h with h1 | h1
      · subst h1
        rw [if_pos rfl]
      · have hm : p.1 ∈ s :: (n1.map Prod.fst ++ n2.map Prod.fst) :=
          List.mem_cons.mpr (Or.inr (List.mem_append_right _ (List.mem_map_of_mem _ h1)))
        rw [if_neg (hlive _ hm)]
        exact hR.values p (List.mem_append_right _ h1)

/-- Member `erase(pos)` in a ring, `pos` being a node of it: the node leaves the
ring. -/
theorem erase_ring {α : Type} (mem : List (Option (Node α))) (l : LinkedList) (s : Nat)
    (n1 n2 : List (Nat × α)) (pos : Nat) (x : α) (hR : Ring mem s (n1 ++ (pos, x) :: n2)) :
    ∃ mem1, l.erase mem pos
        = .ok (mem1, { l with size_ := (l.size_ + SIZE_T_MOD - 1) % SIZE_T_MOD })
      ∧ Ring mem1 s (n1 ++ n2) := by
  have hnd0 : ((s :: n1.map Prod.fst) ++ pos :: n2.map Prod.fst).Nodup := by
    have := hR.nodup
    rwa [List.map_append, List.map_cons, ← List.cons_append] at this
  rw [List.nodup_middle, List.nodup_cons] at hnd0
  obtain ⟨hpn, hnd⟩ := hnd0
  rw [List.cons_append] at hnd
  have hc : List.Chain' (Linked mem)
      ((s :: n1.map Prod.fst) ++ (pos :: (n2.map Prod.fst ++ [s]))) := by
    have := hR.chain
    have e : s :: (n1 ++ (pos, x) :: n2).map Prod.fst ++ [s]
        = (s :: n1.map Prod.fst) ++ (pos :: (n2.map Prod.fst ++ [s])) := by simp
    rwa [e] at this
  obtain ⟨C1, C2', J⟩ := List.chain'_append.mp hc
  obtain ⟨H, C2⟩ := List.chain'_cons'.mp C2'
  have hb : (s :: n1.map Prod.fst).getLast? = some ((s :: n1.map Prod.fst).getLast (by simp)) :=
    List.getLast?_eq_getLast _ _
  generalize (s :: n1.map Prod.fst).getLast (by simp) = before at hb
  have ha : (n2.map Prod.fst ++ [s]).head? = some ((n2.map Prod.fst ++ [s]).head (by simp)) :=
    List.head?_eq_head _
  generalize (n2.map Prod.fst ++ [s]).head (by simp) = after at ha
  have hJ : Linked mem before pos := J before hb pos (by simp)
  have hK : Linked mem pos after := H after ha
  have hbm : before ∈ s :: n1.map Prod.fst := List.mem_of_getLast?_eq_some hb
  have ham : after ∈ n2.map Prod.fst ++ [s] := List.mem_of_mem_head? ha
  have hin1 : ∀ m ∈ s :: n1.map Prod.fst, m ≠ pos := by
    intro m hm hmp
    subst hmp
    exact hpn (List.mem_append_left _ hm)
  have hin2 : ∀ m ∈ n2.map Prod.fst ++ [s], m ≠ pos := by
    intro m hm hmp
    subst hmp
    rcases List.mem_append.mp hm with h | h
    · exact hpn (List.mem_append_right _ h)
    · rw [List.mem_singleton] at h
      exact hpn (List.mem_append_left _ (List.mem_cons.mpr (Or.inl h)))
  obtain ⟨mem1, her, _, heff⟩ := erase_effect mem l pos before after x hJ.2 hJ.1 hK.1 hK.2
    (hR.values (pos, x) (by simp)) (hin1 before hbm) (hin2 after ham)
  obtain ⟨F1, F2, F3, F4⟩ := split_facts s _ _ hnd before after hb ha
  refine ⟨mem1, her, ?_, ?_, ?_⟩
  · rw [List.map_append]
    exact hnd
  · have e : s :: (n1 ++ n2).map Prod.fst ++ [s]
        = (s :: n1.map Prod.fst) ++ (n2.map Prod.fst ++ [s]) := by simp
    rw [e, List.chain'_append]
    refine ⟨?_, ?_, ?_⟩
    · apply chain_frame _ C1
      intro a hx y hy hxy
      have hx1 := List.mem_of_mem_dropLast hx
      have hy1 : y ∈ s :: n1.map Prod.fst := List.mem_of_mem_tail hy
      obtain ⟨en, _, _⟩ := heff a (hin1 a hx1)
      obtain ⟨_, ep, _⟩ := heff y (hin1 y hy1)
      refine ⟨?_, ?_⟩
      · rw [en, if_neg (F1 a hx)]
        exact hxy.1
      · rw [ep, if_neg (F2 y (by simpa using hy))]
        exact hxy.2
    · apply chain_frame _ C2
      intro a hx y hy hxy
      have hx1 : a ∈ n2.map Prod.fst := by simpa using hx
      have hy1 := List.mem_of_mem_tail hy
      obtain ⟨en, _, _⟩ := heff a (hin2 a (List.mem_append_left _ hx1))
      obtain ⟨_, ep, _⟩ := heff y (hin2 y hy1)
      refine ⟨?_, ?_⟩
      · rw [en, if_neg (F3 a hx1)]
        exact hxy.1
      · rw [ep, if_neg (F4 y hy)]
        exact hxy.2
    · intro a hx y hy
      have hxb : a = before := by
        rw [hb] at hx
        exact (Option.some.inj hx).symm
      have hya : y = after := by
        rw [ha] at hy
        exact (Option.some.inj hy).symm
      subst hxb hya
      obtain ⟨en, _, _⟩ := heff a (hin1 a hbm)
      obtain ⟨_, ep, _⟩ := heff y (hin2 y ham)
      refine ⟨?_, ?_⟩
      · rw [en, if_pos rfl]
      · rw [ep, if_pos rfl]
  · intro p hp1
    have hne : p.1 ≠ pos := by
      rcases List.mem_append.mp hp1 with h | h
      · exact hin1 _ (List.mem_cons.mpr (Or.inr (List.mem_map_of_mem _ h)))
      · exact hin2 _ (List.mem_append_left _ (List.mem_map_of_mem _ h))
    obtain ⟨_, _, ev⟩ := heff p.1 hne
    rw [ev]
    rcases List.mem_append.mp hp1 with h | h
    · exact hR.values p (List.mem_append_left _ h)
    · exact hR.values p (List.mem_append_right _ (List.mem_cons_of_mem _ h))

/-! ## List: iterators and traversal -/

theorem chain_step {R : Nat → Nat → Prop} :
    ∀ (L : List Nat) (i : Nat) (x y : Nat), List.Chain' R L → L[i]? = some x →
      L[i + 1]? = some y → R x y
  | [], _, _, _, _, hx, _ => by simp at hx
  | [_], i, _, _, _, _, hy => by simp at hy
  | a :: b :: r, 0, x, y, hc, hx, hy => by
    simp only [List.getElem?_cons_zero, Option.some.injEq, zero_add,
      List.getElem?_cons_succ] at hx hy
    subst hx hy
    exact (List.chain'_cons.mp hc).1
  | a :: b :: r, i + 1, x, y, hc, hx, hy => by
    rw [List.getElem?_cons_succ] at hx hy
    exact chain_step (b :: r) i x y (List.chain'_cons.mp hc).2 hx hy

/-- The iterator `begin()` incremented `k` times is at the node of position `k`,
`end()` for `k` equal to the number of nodes. -/
theorem iteratorAt_ring {α : Type} (mem : List (Option (Node α))) (l : LinkedList)
    (nodes : List (Nat × α)) (hR : Ring mem l.fakeNode_ nodes) :
    ∀ (k : Nat) (p : Nat), (nodes.map Prod.fst ++ [l.fakeNode_])[k]? = some p →
      l.iteratorAt mem k = .ok p
  | 0, p, hp => by
    have h := chain_step _ 0 l.fakeNode_ p hR.chain (by simp) (by simpa using hp)
    unfold LinkedList.iteratorAt LinkedList.begin increment LinkedList.end_
    rw [h.1]
    rfl
  | k + 1, p, hp => by
    have hlt : k + 1 < (nodes.map Prod.fst ++ [l.fakeNode_]).length :=
      (List.getElem?_eq_some.mp hp).1
    have hk : (nodes.map Prod.fst ++ [l.fakeNode_])[k]?
        = some ((nodes.map Prod.fst ++ [l.fakeNode_])[k]) :=
      List.getElem?_eq_getElem (by omega)
    have ih := iteratorAt_ring mem l nodes hR k _ hk
    have h := chain_step _ (k + 1) _ p hR.chain
      (by rw [List.cons_append, List.getElem?_cons_succ]; exact hk)
      (by rw [List.cons_append, List.getElem?_cons_succ]; exact hp)
    unfold LinkedList.iteratorAt
    rw [ih]
    show increment mem _ = .ok p
    unfold increment
    rw [h.1]
    rfl

theorem collect_ring {α : Type} (mem : List (Option (Node α))) (s : Nat) :
    ∀ (nodes : List (Nat × α)) (first fuel : Nat),
      List.Chain' (Linked mem) (nodes.map Prod.fst ++ [s]) →
      (∀ p ∈ nodes, valueOf mem p.1 = some p.2 ∧ p.1 ≠ s) →
      (nodes.map Prod.fst ++ [s]).head? = some first → nodes.length < fuel →
      collect mem s fuel first = some (nodes.map Prod.snd)
  | [], first, fuel, _, _, hf, hfuel => by
    obtain ⟨f, rfl⟩ : ∃ f, fuel = f + 1 := ⟨fuel - 1, by simp at hfuel; omega⟩
    simp only [List.map_nil, List.nil_append, List.head?_cons, Option.some.injEq] at hf
    simp [collect, hf]
  | (a, x) :: rest, first, fuel, hc, hv, hf, hfuel => by
    obtain ⟨f, rfl⟩ : ∃ f, fuel = f + 1 := ⟨fuel - 1, by simp at hfuel; omega⟩
    simp only [List.map_cons, List.cons_append, List.head?_cons, Option.some.injEq] at hf
    subst hf
    obtain ⟨hval, hne⟩ := hv (a, x) (by simp)
    rw [List.map_cons, List.cons_append, List.chain'_cons'] at hc
    have hq : (rest.map Prod.fst ++ [s]).head?
        = some ((rest.map Prod.fst ++ [s]).head (by simp)) := List.head?_eq_head _
    generalize (rest.map Prod.fst ++ [s]).head (by simp) = q at hq
    have hnx := (hc.1 q hq).1
    have ih := collect_ring mem s rest q f hc.2
      (fun p hp => hv p (List.mem_cons_of_mem _ hp)) hq (by simp at hfuel; omega)
    simp only at hval hne
    simp [collect, hne, hval, hnx, ih]

/-- The traversal from `begin()` to `end()` of a well-formed list reads its
elements, within `xs.length + 1` steps. -/
theorem list_toList_of_holds {α : Type} (mem : List (Option (Node α))) (l : LinkedList)
    (xs : List α) (H : Holds mem l xs) (fuel : Nat) (hf : xs.length < fuel) :
    l.toList fuel mem = some xs := by
  obtain ⟨nodes, hR, hxs, _⟩ := H
  have hc := List.chain'_cons'.mp hR.chain
  have hq : (nodes.map Prod.fst ++ [l.fakeNode_]).head?
      = some ((nodes.map Prod.fst ++ [l.fakeNode_]).head (by simp)) := List.head?_eq_head _
  generalize (nodes.map Prod.fst ++ [l.fakeNode_]).head (by simp) = q at hq
  have hnx := (hc.1 q hq).1
  unfold LinkedList.toList
  rw [hnx]
  simp only
  rw [← hxs]
  apply collect_ring mem l.fakeNode_ nodes q fuel hc.2 _ hq (by rw [← hxs] at hf; simpa using hf)
  intro p hp
  refine ⟨hR.values p hp, ?_⟩
  intro hps
  have := (List.nodup_cons.mp hR.nodup).1
  exact this (hps ▸ List.mem_map_of_mem _ hp)

/-! ## List: the claims -/

theorem wellFormed_of_holds {α : Type} (mem : List (Option (Node α))) (l : LinkedList)
    (xs : List α) (H : Holds mem l xs) : WellFormed mem l := by
  obtain ⟨nodes, hR, hxs, hsize⟩ := H
  refine ⟨nodes.map Prod.fst, hR.chain.imp (fun _ _ h => h.1),
    (List.nodup_cons.mp hR.nodup).1, ?_, ?_⟩
  · intro m hm
    obtain ⟨y, hy⟩ := chain_succ _ l.fakeNode_ hR.chain m hm
    have hm2 : m ∈ nodes.map Prod.fst ++ [l.fakeNode_] := by
      rcases List.mem_cons.mp hm with h | h
      · exact List.mem_append_right _ (by simp [h])
      · exact List.mem_append_left _ h
    obtain ⟨x, hx⟩ := chain_pred _ l.fakeNode_ hR.chain m hm2
    refine ⟨?_, ?_⟩
    · rw [hy.1]
      exact hy.2
    · rw [hx.2]
      exact hx.1
  · rw [hsize, ← hxs]
    simp

theorem list_size_of_holds {α : Type} (mem : List (Option (Node α))) (l : LinkedList)
    (xs : List α) (H : Holds mem l xs) : l.size = xs.length := by
  obtain ⟨_, _, _, hsize⟩ := H
  exact hsize

/-- The list the constructor `List()` builds is well formed and empty. -/
theorem list_create_holds {α : Type} (mem : List (Option (Node α))) :
    Holds (LinkedList.create mem).1 (LinkedList.create mem).2 ([] : List α) := by
  have hl : lookup (mem ++ [some (⟨some mem.length, some mem.length, none⟩ : Node α)])
      mem.length = some ⟨some mem.length, some mem.length, none⟩ := by
    rw [lookup_append, if_pos rfl]
  refine ⟨[], ⟨List.nodup_singleton _, ?_, ?_⟩, rfl, rfl⟩
  · show List.Chain' _ [mem.length, mem.length]
    rw [List.chain'_pair]
    refine ⟨?_, ?_⟩
    · show nextOf (mem ++ [some ⟨some mem.length, some mem.length, none⟩]) mem.length = _
      unfold nextOf
      rw [hl]
    · show prevOf (mem ++ [some ⟨some mem.length, some mem.length, none⟩]) mem.length = _
      unfold prevOf
      rw [hl]
  · intro p hp
    cases hp

theorem mem56_holds : Holds mem56 list56 [5, 6] :=
  ⟨[(1, 5), (2, 6)],
    ⟨by decide,
      List.chain'_cons.mpr ⟨by decide, List.chain'_cons.mpr ⟨by decide,
        List.chain'_cons.mpr ⟨by decide, List.chain'_singleton _⟩⟩⟩,
      by decide⟩, rfl, rfl⟩

/-- C25: in a well-formed list holding `xs` (fewer than `2 ^ 64 - 1` elements),
`insert(pos, v)` with `pos` the iterator `begin()` advanced `k ≤ xs.length` times
(`end()` for `k = xs.length`) returns and leaves the elements before position `k`,
then `v`, then the rest, with `size()` one more; `erase(pos)` for `k < xs.length`
returns and leaves `xs` without `xs[k]`, with `size()` one less; after both the
ring is well formed: `m->next->prev == m` and `m->prev->next == m` for every node
`m`, and `size_` is the number of nodes between the sentinel and itself. -/
theorem list_insert_erase_spec {α : Type} (mem : List (Option (Node α))) (l : LinkedList)
    (xs : List α) (v : α) (k : Nat) (H : Holds mem l xs) (hk : k ≤ xs.length)
    (hsz : xs.length + 1 < SIZE_T_MOD) :
    (∃ pos mem1 l1, l.iteratorAt mem k = .ok pos ∧ l.insert mem pos v = .ok (mem1, l1)
      ∧ Holds mem1 l1 (xs.take k ++ v :: xs.drop k)
      ∧ l1.size = xs.length + 1
      ∧ l1.toList (xs.length + 2) mem1 = some (xs.take k ++ v :: xs.drop k)
      ∧ WellFormed mem1 l1)
    ∧ (k < xs.length →
        ∃ pos mem1 l1, l.iteratorAt mem k = .ok pos ∧ l.erase mem pos = .ok (mem1, l1)
          ∧ Holds mem1 l1 (xs.eraseIdx k)
          ∧ l1.size = xs.length - 1
          ∧ l1.toList xs.length mem1 = some (xs.eraseIdx k)
          ∧ WellFormed mem1 l1) := by
  obtain ⟨nodes, hR, hxs, hsize⟩ := H
  have hlen : nodes.length = xs.length := by rw [← hxs, List.length_map]
  constructor
  · have hne : (nodes.map Prod.fst ++ [l.fakeNode_]).drop k ≠ [] := by
      intro h
      have := congrArg List.length h
      simp at this
      omega
    have hpos : ((nodes.map Prod.fst ++ [l.fakeNode_]).drop k).head?
        = some (((nodes.map Prod.fst ++ [l.fakeNode_]).drop k).head hne) :=
      List.head?_eq_head _
    generalize ((nodes.map Prod.fst ++ [l.fakeNode_]).drop k).head hne = pos at hpos
    have hidx : (nodes.map Prod.fst ++ [l.fakeNode_])[k]? = some pos := by
      rw [← List.head?_drop]
      exact hpos
    have hpos2 : ((nodes.drop k).map Prod.fst ++ [l.fakeNode_]).head? = some pos := by
      rw [List.map_drop, ← List.drop_append_of_le_length (by simp; omega)]
      exact hpos
    have hR' : Ring mem l.fakeNode_ (nodes.take k ++ nodes.drop k) := by
      rw [List.take_append_drop]
      exact hR
    obtain ⟨mem1, hins, hR1⟩ := insert_ring mem l l.fakeNode_ _ _ pos v hR' hpos2
    have hH : Holds mem1 { l with size_ := (l.size_ + 1) % SIZE_T_MOD }
        (xs.take k ++ v :: xs.drop k) := by
      refine ⟨_, hR1, ?_, ?_⟩
      · rw [List.map_append, List.map_cons, List.map_take, List.map_drop, hxs]
      · show (l.size_ + 1) % SIZE_T_MOD = _
        rw [hsize, Nat.mod_eq_of_lt hsz]
        simp only [List.length_append, List.length_cons, List.length_take, List.length_drop]
        omega
    have hl1 : (xs.take k ++ v :: xs.drop k).length = xs.length + 1 := by
      simp only [List.length_append, List.length_cons, List.length_take, List.length_drop]
      omega
    exact ⟨pos, mem1, _, iteratorAt_ring mem l nodes hR k pos hidx, hins, hH,
      (list_size_of_holds mem1 _ _ hH).trans hl1,
      list_toList_of_holds mem1 _ _ hH _ (by rw [hl1]; omega), wellFormed_of_holds mem1 _ _ hH⟩
  · intro hk1
    have hkn : k < nodes.length := by omega
    have hsplit : nodes.take k ++ (nodes[k].1, nodes[k].2) :: nodes.drop (k + 1) = nodes := by
      rw [← List.drop_eq_getElem_cons hkn, List.take_append_drop]
    have hR' : Ring mem l.fakeNode_
        (nodes.take k ++ (nodes[k].1, nodes[k].2) :: nodes.drop (k + 1)) := by
      rw [hsplit]
      exact hR
    have hidx : (nodes.map Prod.fst ++ [l.fakeNode_])[k]? = some nodes[k].1 := by
      rw [List.getElem?_append_left (by simpa using hkn), List.getElem?_map,
        List.getElem?_eq_getElem hkn]
      rfl
    obtain ⟨mem1, her, hR1⟩ := erase_ring mem l l.fakeNode_ _ _ _ _ hR'
    have hl1 : (xs.eraseIdx k).length = xs.length - 1 := by
      rw [List.length_eraseIdx, if_pos hk1]
    have hH : Holds mem1 { l with size_ := (l.size_ + SIZE_T_MOD - 1) % SIZE_T_MOD }
        (xs.eraseIdx k) := by
      refine ⟨_, hR1, ?_, ?_⟩
      · rw [List.map_append, List.map_take, List.map_drop, hxs,
          List.eraseIdx_eq_take_drop_succ]
      · show (l.size_ + SIZE_T_MOD - 1) % SIZE_T_MOD = _
        rw [hl1, hsize]
        unfold SIZE_T_MOD at hsz ⊢
        omega
    exact ⟨nodes[k].1, mem1, _, iteratorAt_ring mem l nodes hR k _ hidx, her, hH,
      (list_size_of_holds mem1 _ _ hH).trans hl1,
      list_toList_of_holds mem1 _ _ hH _ (by rw [hl1]; omega), wellFormed_of_holds mem1 _ _ hH⟩

theorem list_insert_erase_spec_witness :
    (match list56.insert mem56 2 7 with
      | .ok (m, l) => l.toList 4 m
      | .error _ => none) = some [5, 7, 6]
    ∧ (match list56.erase mem56 2 with
      | .ok (m, l) => l.toList 2 m
      | .error _ => none) = some [5]
    ∧ (∃ pos mem1 l1, list56.iteratorAt mem56 1 = .ok pos
        ∧ list56.insert mem56 pos 7 = .ok (mem1, l1)
        ∧ Holds mem1 l1 ([5, 6].take 1 ++ 7 :: [5, 6].drop 1)
        ∧ l1.size = 2 + 1
        ∧ l1.toList (2 + 2) mem1 = some ([5, 6].take 1 ++ 7 :: [5, 6].drop 1)
        ∧ WellFormed mem1 l1)
    ∧ (1 < 2 →
        ∃ pos mem1 l1, list56.iteratorAt mem56 1 = .ok pos
          ∧ list56.erase mem56 pos = .ok (mem1, l1)
          ∧ Holds mem1 l1 ([5, 6].eraseIdx 1)
          ∧ l1.size = 2 - 1
          ∧ l1.toList 2 mem1 = some ([5, 6].eraseIdx 1)
          ∧ WellFormed mem1 l1) :=
  ⟨by rfl, by rfl,
    list_insert_erase_spec mem56 list56 [5, 6] 7 1 mem56_holds (by decide) (by decide)⟩

/-- Every node of a chain but the last is followed by a node of the rest. -/
theorem chain_succ_mem {R : Nat → Nat → Prop} :
    ∀ (L : List Nat) (z : Nat), List.Chain' R (L ++ [z]) → ∀ m ∈ L, ∃ y ∈ L.tail ++ [z], R m y
  | [], _, _, _, hm => by cases hm
  | [a], z, hc, m, hm => by
    simp only [List.mem_singleton] at hm
    subst hm
    exact ⟨z, by simp, by simpa using hc⟩
  | a :: b :: r, z, hc, m, hm => by
    rw [List.cons_append, List.cons_append, List.chain'_cons] at hc
    rcases List.mem_cons.mp hm with h | h
    · subst h
      exact ⟨b, by simp, hc.1⟩
    · obtain ⟨y, hy, hR⟩ := chain_succ_mem (b :: r) z hc.2 m h
      refine ⟨y, ?_, hR⟩
      simp only [List.tail_cons] at hy ⊢
      exact List.mem_cons_of_mem _ hy

/-- The range-for loop of `operator=` over the list that is being assigned to
never reaches `end()` once it stands on a node: every iteration appends a node
after the one the iterator moves to. -/
theorem copyLoop_self {α : Type} :
    ∀ (fuel : Nat) (mem : List (Option (Node α))) (l : LinkedList) (new_size node : Nat)
      (nodes : List (Nat × α)), Ring mem l.fakeNode_ nodes → node ∈ nodes.map Prod.fst →
      copyLoop l.fakeNode_ fuel mem l new_size node = none
  | 0, _, _, _, _, _, _, _ => rfl
  | fuel + 1, mem, l, new_size, node, nodes, hR, hnode => by
    have hne : node ≠ l.fakeNode_ := by
      intro h
      subst h
      exact (List.nodup_cons.mp hR.nodup).1 hnode
    obtain ⟨p, hp, hp1⟩ := List.mem_map.mp hnode
    have hval : valueOf mem node = some p.2 := by
      rw [← hp1]
      exact hR.values p hp
    have hR0 : Ring mem l.fakeNode_ (nodes ++ []) := by
      rw [List.append_nil]
      exact hR
    obtain ⟨mem1, hins, hR1⟩ := insert_ring mem l l.fakeNode_ nodes [] l.fakeNode_ p.2 hR0
      (by simp)
    have hc : List.Chain' (Linked mem1)
        ((l.fakeNode_ :: nodes.map Prod.fst) ++ [mem.length]) := by
      have := hR1.chain
      have e : l.fakeNode_ :: (nodes ++ [(mem.length, p.2)]).map Prod.fst ++ [l.fakeNode_]
          = ((l.fakeNode_ :: nodes.map Prod.fst) ++ [mem.length]) ++ [l.fakeNode_] := by simp
      rw [e] at this
      exact (List.chain'_append.mp this).1
    obtain ⟨y, hy, hxy⟩ := chain_succ_mem _ _ hc node (List.mem_cons_of_mem _ hnode)
    have hinc : increment mem1 node = .ok y := by
      unfold increment
      rw [hxy.1]
      rfl
    have hy1 : y ∈ (nodes ++ [(mem.length, p.2)]).map Prod.fst := by
      simpa using hy
    have ih := copyLoop_self fuel mem1 { l with size_ := (l.size_ + 1) % SIZE_T_MOD }
      ((new_size + 1) % SIZE_T_MOD) y (nodes ++ [(mem.length, p.2)]) hR1 hy1
    unfold copyLoop
    rw [if_neg hne]
    simp only [hval, LinkedList.end_, hins, hinc]
    exact ih

/-- Copy assignment of a list that is not empty to itself does not return,
whatever the number of iterations allowed. -/
theorem assign_self_diverges {α : Type} (mem : List (Option (Node α))) (l : LinkedList)
    (xs : List α) (H : Holds mem l xs) (hne : xs ≠ []) (fuel : Nat) :
    l.assign fuel mem l.fakeNode_ = none := by
  obtain ⟨nodes, hR, hxs, _⟩ := H
  have hc : List.Chain' (Linked mem) ((l.fakeNode_ :: nodes.map Prod.fst) ++ [l.fakeNode_]) :=
    hR.chain
  have hnn : nodes ≠ [] := by
    intro h
    subst h
    exact hne hxs.symm
  obtain ⟨y, hy, hxy⟩ := chain_succ_mem _ _ hc l.fakeNode_ (by simp)
  have hy1 : y ∈ nodes.map Prod.fst := by
    simp only [List.tail_cons, List.mem_append, List.mem_singleton] at hy
    rcases hy with h | h
    · exact h
    · exfalso
      subst h
      cases nodes with
      | nil => exact hnn rfl
      | cons q r =>
        have h1 := (List.chain'_cons.mp hc).1.1
        rw [hxy.1] at h1
        simp only [List.map_cons, Option.some.injEq] at h1
        have := (List.nodup_cons.mp hR.nodup).1
        apply this
        rw [h1]
        simp
  have hinc : increment mem l.fakeNode_ = .ok y := by
    unfold increment
    rw [hxy.1]
    rfl
  unfold LinkedList.assign
  simp only [hinc, copyLoop_self fuel mem l 0 y nodes hR hy1]

theorem memSingle_holds : Holds memSingle listSingle [1] :=
  ⟨[(1, 1)],
    ⟨by decide,
      List.chain'_cons.mpr ⟨by decide, List.chain'_cons.mpr ⟨by decide,
        List.chain'_singleton _⟩⟩,
      by decide⟩, rfl, rfl⟩

/-- C28 (the code at the failing input): for the list holding the one element 1,
the copy assignment `a = a` is still running after any number of iterations of
its first loop, while the assignment from a different list holding 3 to the list
holding 5, 6 returns with the element 3 and size 1. -/
theorem self_assign_never_returns :
    (∀ fuel : Nat, listSingle.assign fuel memSingle listSingle.fakeNode_ = none)
    ∧ (match list56.assign 2 mem563 3 with
        | some (.ok (m, l)) => some (l.toList 2 m, l.size)
        | _ => none) = some (some [3], 1) :=
  ⟨fun fuel => assign_self_diverges memSingle listSingle [1] memSingle_holds (by decide) fuel, by rfl⟩

end ListModel
